import Mathlib

/-!
# Job control of the `cush` shell

A shallow embedding of the job registry, the status reconciler and the job-control
builtins of `src/cush.c`, followed by theorems about them.

Conventions of the embedding.

* Job records live in a heap addressed by `JobPtr`; `job_list` holds the addresses in list
  order and `jid2job` is the array of `MAXJOBS` pointers. Reading through a pointer that is
  not allocated is undefined behaviour and halts the model with `Halt.undefined`.
* An `int` is an `Int`. The counters of the program stay far from the 32-bit limits.
* The array `job->pids` is zero-initialised by `calloc` and written at finitely many
  slots, so it is kept as the list of its leading slots; every slot past the list reads `0`.
* What the shell prints is kept as the list of printed chunks, one chunk per `printf`.
-/

namespace Cush

/-! ## Data model -/

/-- Process ids (`pid_t`). -/
abbrev Pid := Int

/-- Address of a heap-allocated `struct job`. -/
abbrev JobPtr := Nat

/-- Terminal attributes (`struct termios`), kept abstract; `0` is the zeroed structure. -/
abbrev termios := Nat

/-- Capacity of `jid2job` and of `job->pids`: `#define MAXJOBS (1<<16)`. -/
def MAXJOBS : Nat := 65536

/-- The type `enum job_status`. -/
inductive job_status
  | FOREGROUND
  | BACKGROUND
  | STOPPED
  | NEEDSTERMINAL
  | FINISHED
  deriving DecidableEq, Repr

/-- One stage of a pipeline (`struct ast_command`, declared in `shell-ast.h`). -/
structure ast_command where
  argv : List String
  dup_stderr_to_stdout : Bool
  deriving DecidableEq, Repr

/-- A parsed pipeline (`struct ast_pipeline`, declared in `shell-ast.h`). -/
structure ast_pipeline where
  commands : List ast_command
  iored_input : Option String
  iored_output : Option String
  append_to_output : Bool
  bg_job : Bool
  deriving DecidableEq, Repr

/-- The record `struct job`. The link element `elem` is represented by the position of the
job's address in `State.job_list`. -/
structure job where
  pipe : ast_pipeline
  jid : Int
  status : job_status
  num_processes_alive : Int
  saved_tty_state : termios
  pids : List Pid
  deriving DecidableEq, Repr

/-- One chunk of standard output. `printf(strsignal(sig))` is recorded by the signal number,
the text of `strsignal` belonging to the C library. -/
inductive Output
  | text (s : String)
  | sigdesc (sig : Int)
  /-- What one of the informational builtins `ls`, `pwd`, `history` prints; it depends on
  the file system and the history only. -/
  | listing (builtin : String)
  deriving DecidableEq, Repr

/-- One action of a `posix_spawn_file_actions_t`. A descriptor read from a row of
`pipeArray` that was never written has no definite value and is absent. -/
inductive file_action
  | addopen (fd : Int) (path : Option String) (oflag : Nat) (mode : Nat)
  | adddup2 (fd : Option Int) (newfd : Int)
  deriving DecidableEq, Repr

/-- One call of `posix_spawnp`: the program, the file actions, the argument of
`posix_spawnattr_setpgroup`, the argument vector, and the returned code. -/
structure spawn_call where
  file : String
  actions : List file_action
  pgroup : Pid
  argv : List String
  ret : Int
  deriving DecidableEq, Repr

/-- Descriptor calls made by the launcher: `pipe2(row, O_CLOEXEC)` with the descriptors it
produced (absent when it failed), and `close` of a descriptor read from `pipeArray`. -/
inductive fd_call
  | pipe2 (row : Nat) (fds : Option (Int × Int))
  | close (fd : Option Int)
  deriving DecidableEq, Repr

/-- Ways in which a run of the shell stops instead of returning. -/
inductive Halt
  /-- The call `abort()`, also from a failed `assert`. -/
  | aborted
  /-- The call `utils_fatal_error`. -/
  | fatal
  /-- The call `exit(0)`. -/
  | exited
  /-- Undefined behaviour: a read or write through a null or dangling pointer, or outside an array. -/
  | undefined
  /-- A blocking `waitpid` for which the environment supplies no further event. -/
  | blocked
  deriving DecidableEq, Repr

/-- The global state of the shell together with the terminal it controls. -/
structure State where
  /-- Allocated job records. -/
  heap : JobPtr → Option job
  /-- The next address handed out by `calloc`. -/
  brk : JobPtr
  /-- The list `job_list`, front first. -/
  job_list : List JobPtr
  /-- The array `jid2job`; only the slots below `MAXJOBS` exist. -/
  jid2job : Nat → Option JobPtr
  /-- Current attributes of the terminal. -/
  tty_attrs : termios
  /-- Foreground process group of the terminal. -/
  tty_pgrp : Pid
  /-- The attributes the terminal-state module keeps for the shell itself. -/
  shell_tty_state : termios
  /-- Chunks printed on standard output, oldest first. -/
  out : List Output
  /-- Calls of `killpg`, oldest first, as (process group, signal, result). -/
  signals : List (Pid × Int × Int)
  /-- Process group of the shell itself (`getpgrp()`). -/
  shell_pgrp : Pid
  /-- Calls of `posix_spawnp`, oldest first. -/
  spawns : List spawn_call
  /-- Calls of `pipe2` and `close`, oldest first. -/
  fd_calls : List fd_call

/-- The registry right after `list_init(&job_list)` in `main`: nothing allocated, every
slot of `jid2job` null. -/
def State.init (attrs : termios) (pgrp : Pid) : State :=
  { heap := fun _ => none
    brk := 0
    job_list := []
    jid2job := fun _ => none
    tty_attrs := attrs
    tty_pgrp := pgrp
    shell_tty_state := attrs
    out := []
    signals := []
    shell_pgrp := pgrp
    spawns := []
    fd_calls := [] }

/-! ## Memory and list primitives -/

/-- Read through a job pointer. -/
def deref (s : State) (p : JobPtr) : Except Halt job :=
  match s.heap p with
  | some j => .ok j
  | none => .error .undefined

/-- Overwrite the record at `p`. -/
def store (s : State) (p : JobPtr) (j : job) : State :=
  { s with heap := fun q => if q = p then some j else s.heap q }

/-- Assignment `jid2job[i] = v`. -/
def set_slot (s : State) (i : Nat) (v : Option JobPtr) : State :=
  { s with jid2job := fun k => if k = i then v else s.jid2job k }

/-- Append one chunk to standard output. -/
def emit (s : State) (o : Output) : State :=
  { s with out := s.out ++ [o] }

/-- The call `printf` with its text already formatted. -/
def printf (s : State) (t : String) : State :=
  emit s (.text t)

/-- Modelled from the spec: `list_size` of the list library (`list.c`), the number of
elements of the list. -/
def list_size (s : State) : Nat :=
  s.job_list.length

/-- Modelled from the spec: `list_push_back` of the list library (`list.c`), which appends
the element at the back, so that iteration is in insertion order. -/
def list_push_back (s : State) (p : JobPtr) : State :=
  { s with job_list := s.job_list ++ [p] }

/-- Modelled from the spec: `list_remove` of the list library (`list.c`), which unlinks
the element from its list. Unlinking an element that is in no list is undefined. -/
def list_remove (s : State) (p : JobPtr) : Except Halt State :=
  if p ∈ s.job_list then .ok { s with job_list := s.job_list.erase p }
  else .error .undefined

/-- Slot `i` of the zero-initialised array `job->pids`. -/
def pid_at (j : job) (i : Nat) : Pid :=
  j.pids.getD i 0

/-! ## Job registry -/

/-- Return job corresponding to jid (`get_job_from_jid`). -/
def get_job_from_jid (s : State) (jid : Int) : Option JobPtr :=
  if 0 < jid ∧ jid < MAXJOBS then s.jid2job jid.toNat else none

/-- The loop `for (int i = 1; i < MAXJOBS; i++) if (jid2job[i] == NULL)` of `add_job`,
started at `i` with `fuel` iterations left: the first null slot, if any. -/
def add_job_scan (tbl : Nat → Option JobPtr) : Nat → Nat → Option Nat
  | _, 0 => none
  | i, fuel + 1 => if (tbl i).isNone then some i else add_job_scan tbl (i + 1) fuel

/-- The record of `add_job` after `calloc`, `job->pipe = pipe` and
`job->num_processes_alive = 0`: every other field is zero, so the status is `FOREGROUND`,
the first enumerator, and no slot of `pids` is taken. -/
def fresh_job (pipe : ast_pipeline) : job :=
  { pipe := pipe, jid := 0, status := .FOREGROUND, num_processes_alive := 0,
    saved_tty_state := 0, pids := [] }

/-- Add a new job to the job list (`add_job`). When no slot is free the function prints on
standard error and calls `abort()`. -/
def add_job (s : State) (pipe : ast_pipeline) : Except Halt (State × JobPtr) :=
  let p := s.brk
  let s1 := { store s p (fresh_job pipe) with brk := p + 1 }
  let s2 := list_push_back s1 p
  match add_job_scan s2.jid2job 1 (MAXJOBS - 1) with
  | some i => .ok (store (set_slot s2 i (some p)) p { fresh_job pipe with jid := (i : Int) }, p)
  | none => .error .aborted

/-- Delete a job (`delete_job`): `assert(jid != -1)`, mark the record reached through
`jid2job[jid]`, clear the slot and free the job. -/
def delete_job (s : State) (p : JobPtr) : Except Halt State := do
  let j ← deref s p
  let jid := j.jid
  if jid = -1 then throw Halt.aborted
  if jid < 0 ∨ (MAXJOBS : Int) ≤ jid then throw Halt.undefined
  match s.jid2job jid.toNat with
  | none => throw Halt.undefined
  | some q =>
    let jq ← deref s q
    let s1 := store s q { jq with jid := -1 }
    let s2 := set_slot s1 jid.toNat none
    pure { s2 with heap := fun r => if r = p then none else s2.heap r }

/-- The loop of `removeFinishedJobs`; `fuel` bounds the iterations, and `MAXJOBS` of them
always suffice because `j` grows in every iteration. -/
def removeFinishedJobs_loop : Nat → State → Nat → Nat → Except Halt State
  | 0, s, _, _ => .ok s
  | fuel + 1, s, cnt, j =>
    if cnt < list_size s ∧ j < MAXJOBS then
      match s.jid2job j with
      | some a => do
        let aJob ← deref s a
        let s1 ← (if aJob.status = .FINISHED then list_remove s a >>= fun t => delete_job t a
                  else pure s)
        removeFinishedJobs_loop fuel s1 (cnt + 1) (j + 1)
      | none => removeFinishedJobs_loop fuel s cnt (j + 1)
    else .ok s

/-- Removes finished jobs (`removeFinishedJobs`). -/
def removeFinishedJobs (s : State) : Except Halt State :=
  removeFinishedJobs_loop MAXJOBS s 0 0

/-! ## Wait statuses, signals and the terminal -/

/-- The macro `WTERMSIG` of the C library: `status & 0x7f`. -/
def WTERMSIG (status : Int) : Int := status % 128

/-- The macro `WEXITSTATUS` of the C library: `(status & 0xff00) >> 8`. -/
def WEXITSTATUS (status : Int) : Int := (status / 256) % 256

/-- The macro `WSTOPSIG` of the C library, the same bits as `WEXITSTATUS`. -/
def WSTOPSIG (status : Int) : Int := WEXITSTATUS status

/-- The macro `WIFEXITED` of the C library: `WTERMSIG(status) == 0`. -/
def WIFEXITED (status : Int) : Bool := WTERMSIG status == 0

/-- The macro `WIFSIGNALED` of the C library:
`((signed char) ((status & 0x7f) + 1) >> 1) > 0`. -/
def WIFSIGNALED (status : Int) : Bool :=
  let v := status % 128 + 1
  let c := if 128 ≤ v then v - 256 else v
  decide (0 < c / 2)

/-- The macro `WIFSTOPPED` of the C library: `(status & 0xff) == 0x7f`. -/
def WIFSTOPPED (status : Int) : Bool := status % 256 == 127

/-- Signal numbers of Linux. -/
def SIGTERM : Int := 15

/-- Signal number of the continue signal. -/
def SIGCONT : Int := 18

/-- Signal number of the stop signal that cannot be caught. -/
def SIGSTOP : Int := 19

/-- Signal number of the interactive stop signal. -/
def SIGTSTP : Int := 20

/-- Modelled from the spec: `termstate_sample` of the terminal-state module
(`termstate_management.c`), which refreshes the attributes the shell keeps for itself from
the terminal. -/
def termstate_sample (s : State) : State :=
  { s with shell_tty_state := s.tty_attrs }

/-- Modelled from the spec: `termstate_save(&job->saved_tty_state)` of the terminal-state
module, which captures the current terminal attributes into the record at `p`. -/
def termstate_save (s : State) (p : JobPtr) : Except Halt State := do
  let j ← deref s p
  pure (store s p { j with saved_tty_state := s.tty_attrs })

/-- Modelled from the spec: `termstate_give_terminal_to(&saved, pgrp)` of the
terminal-state module: make `pgrp` the foreground process group of the terminal with
`saved` as the terminal attributes. -/
def termstate_give_terminal_to (s : State) (saved : termios) (pgrp : Pid) : State :=
  { s with tty_pgrp := pgrp, tty_attrs := saved }

/-- Modelled from the spec: `termstate_give_terminal_back_to_shell` of the terminal-state
module: the process group of the shell becomes the foreground group again and the
terminal gets the attributes kept for the shell. -/
def termstate_give_terminal_back_to_shell (s : State) : State :=
  { s with tty_pgrp := s.shell_pgrp, tty_attrs := s.shell_tty_state }

/-- The call `killpg(pgrp, sig)`; its result `ret` is supplied by the environment (`0` when
the group took the signal) and is recorded with the call. -/
def killpg (s : State) (pgrp : Pid) (sig : Int) (ret : Int) : State :=
  { s with signals := s.signals ++ [(pgrp, sig, ret)] }

/-! ## Printing -/

/-- Conversion `%d` of `printf`. -/
def fmt_d (n : Int) : String := toString n

/-- Conversion `%u` of `printf` applied to an `int`: the value modulo `2^32`. -/
def fmt_u (n : Int) : String := toString (n % 4294967296)

/-- Text of a status (`get_status`); every enumerator has its own case. -/
def get_status : job_status → String
  | .FOREGROUND => "Foreground"
  | .BACKGROUND => "Running"
  | .STOPPED => "Stopped"
  | .NEEDSTERMINAL => "Stopped (tty)"
  | .FINISHED => "Done"

/-- The inner part of `print_cmdline` for one command: `printf("%s", *p++)` and then
`printf(" %s", *p++)` while `*p`. An empty argument vector makes `*p++` read a null
pointer. -/
def print_argv (s : State) : List String → Except Halt State
  | [] => .error .undefined
  | a :: rest => .ok (rest.foldl (fun t x => printf t (" " ++ x)) (printf s a))

/-- The loop of `print_cmdline`; `first` says whether the command is `list_begin`. -/
def print_cmdline_loop : State → Bool → List ast_command → Except Halt State
  | s, _, [] => .ok s
  | s, first, cmd :: rest => do
    let s1 := if first then s else printf s "| "
    let s2 ← print_argv s1 cmd.argv
    print_cmdline_loop s2 false rest

/-- Print the command line that belongs to one job (`print_cmdline`). -/
def print_cmdline (s : State) (pipeline : ast_pipeline) : Except Halt State :=
  print_cmdline_loop s true pipeline.commands

/-- Print a job (`print_job`). -/
def print_job (s : State) (p : JobPtr) : Except Halt State := do
  let j ← deref s p
  let s1 := printf s ("[" ++ fmt_d j.jid ++ "]\t" ++ get_status j.status ++ "\t\t")
  let s2 ← print_cmdline s1 j.pipe
  pure (printf s2 ")\n")

/-! ## Status reconciler -/

/-- The loop `for (int j = 0; j < MAXJOBS; j++) if (aJob->pids[j] == pid)` over the
zero-initialised array whose leading slots are the list and of which `n` slots are left
to visit; all slots past the list read `0`. -/
def pids_scan (pid : Pid) : List Pid → Nat → Bool
  | _, 0 => false
  | [], _ + 1 => pid == 0
  | x :: xs, n + 1 => x == pid || pids_scan pid xs n

/-- Step 1 of `handle_child_status`: the walk over `job_list`. The `break` leaves the inner
loop only, so a later job that holds the pid replaces an earlier one. -/
def find_job_of_pid (s : State) (pid : Pid) : List JobPtr → Option JobPtr →
    Except Halt (Option JobPtr)
  | [], theJob => .ok theJob
  | a :: rest, theJob => do
    let aJob ← deref s a
    find_job_of_pid s pid rest (if pids_scan pid aJob.pids MAXJOBS then some a else theJob)

/-- The status reconciler (`handle_child_status`). -/
def handle_child_status (s : State) (pid : Pid) (status : Int) : Except Halt State := do
  match ← find_job_of_pid s pid s.job_list none with
  | none => pure (printf s "HANDLE CHILD STATUS: JOB NOT FOUND\n")
  | some p =>
    let theJob ← deref s p
    if WIFEXITED status then
      let s1 := store s p { theJob with num_processes_alive := theJob.num_processes_alive - 1 }
      if theJob.status = .FOREGROUND ∧ status = 0 then
        pure (termstate_sample s1)
      else if theJob.status = .BACKGROUND then
        let j1 ← deref s1 p
        print_job (store s1 p { j1 with status := .FINISHED }) p
      else pure s1
    else if WIFSIGNALED status then
      let s1 := store s p { theJob with num_processes_alive := theJob.num_processes_alive - 1 }
      let j1 ← deref s1 p
      let s2 := if j1.status = .BACKGROUND then store s1 p { j1 with status := .FINISHED } else s1
      pure (emit s2 (.sigdesc (WTERMSIG status)))
    else if WIFSTOPPED status then
      let s1 ← (if theJob.status = .FOREGROUND then termstate_save s p else pure s)
      let j1 ← deref s1 p
      let s2 := store s1 p { j1 with status := .STOPPED }
      if WSTOPSIG status = SIGTSTP then print_job s2 p else pure s2
    else pure s

/-- What one call of `waitpid` reports: the child, its raw status, and the attributes the
terminal has at that moment (a job that owns the terminal may have changed them). A
`child` of `-1` is a failed call. -/
structure reap where
  child : Pid
  status : Int
  attrs : termios
  deriving DecidableEq, Repr

/-- The foreground waiter (`wait_for_job`), run against the reaps the environment supplies;
returns the reaps it did not consume. -/
def wait_for_job (p : JobPtr) : State → List reap → Except Halt (State × List reap)
  | s, [] => do
    let j ← deref s p
    if j.status = .FOREGROUND ∧ 0 < j.num_processes_alive then throw Halt.blocked
    else pure (s, [])
  | s, r :: rest => do
    let j ← deref s p
    if j.status = .FOREGROUND ∧ 0 < j.num_processes_alive then
      if r.child ≠ -1 then
        let s1 ← handle_child_status { s with tty_attrs := r.attrs } r.child r.status
        wait_for_job p s1 rest
      else throw Halt.fatal
    else pure (s, r :: rest)

/-- The status relay (`sigchld_handler`): every pending reap with a positive child id is
handed to the reconciler; the first reap that is not positive ends the loop. -/
def sigchld_handler : State → List reap → Except Halt State
  | s, [] => .ok s
  | s, r :: rest =>
    if 0 < r.child then do
      let s1 ← handle_child_status { s with tty_attrs := r.attrs } r.child r.status
      sigchld_handler s1 rest
    else .ok s

/-! ## Builtins -/

/-- The digits part of `atoi`: reads decimal digits until the first other character. -/
def atoi_digits : List Char → Int → Int
  | [], acc => acc
  | c :: cs, acc =>
    if c.isDigit then atoi_digits cs (acc * 10 + ((c.toNat : Int) - 48)) else acc

/-- The function `atoi` of the C library: leading white space, an optional sign, decimal
digits. A text without digits gives `0`. For a numeral outside the range of `int` the C
standard leaves the result open; the value here is the number the numeral denotes. -/
def atoi (str : String) : Int :=
  match str.toList.dropWhile (fun c => c = ' ' ∨ (9 ≤ c.toNat ∧ c.toNat ≤ 13)) with
  | '-' :: r => - atoi_digits r 0
  | '+' :: r => atoi_digits r 0
  | r => atoi_digits r 0

/-- Function that implements the bg command (`cush_bg`); `inpJid` is `argv[1]`, absent
when null, and `ret` is what `killpg` returns. -/
def cush_bg (s : State) (inpJid : Option String) (ret : Int) : Except Halt State :=
  match inpJid with
  | none => .ok (printf s "bg: current: no such job\n")
  | some a =>
    let jid := atoi a
    match get_job_from_jid s jid with
    | none => .ok (printf s ("bg: " ++ fmt_d jid ++ ": no such job\n"))
    | some p => do
      let inpJob ← deref s p
      let s1 ← print_cmdline s inpJob.pipe
      let s2 := printf s1 "\n"
      let s3 := killpg s2 (pid_at inpJob 0) SIGCONT ret
      if ret = 0 then
        let j ← deref s3 p
        pure (store s3 p { j with status := .BACKGROUND })
      else pure s3

/-- The part of `cush_fg` before `wait_for_job` for a job found at `p`: restore the saved
attributes, hand over the terminal, print, continue the group, and on success mark the job
`FOREGROUND` and give it the terminal. The boolean tells whether `killpg` returned `0`. -/
def cush_fg_resume (s : State) (p : JobPtr) (ret : Int) : Except Halt (State × Bool) := do
  let inpJob ← deref s p
  let s1 := { s with tty_attrs := inpJob.saved_tty_state }
  let s2 := { s1 with tty_pgrp := pid_at inpJob 0 }
  let s3 ← print_cmdline s2 inpJob.pipe
  let s4 := printf s3 "\n"
  let s5 := killpg s4 (pid_at inpJob 0) SIGCONT ret
  if ret = 0 then
    let j ← deref s5 p
    let s6 := store s5 p { j with status := .FOREGROUND }
    pure (termstate_give_terminal_to s6 j.saved_tty_state (pid_at j 0), true)
  else pure (s5, false)

/-- The part of `cush_fg` after `wait_for_job`: a job that is still `FOREGROUND` is unlinked
and deleted. -/
def cush_fg_finish (s : State) (p : JobPtr) : Except Halt State := do
  let j ← deref s p
  if j.status = .FOREGROUND then
    let t ← list_remove s p
    delete_job t p
  else pure s

/-- Function that implements the fg command (`cush_fg`); `reaps` are the results of the
blocking `waitpid` calls, and the unused ones are returned. -/
def cush_fg (s : State) (inpJid : Option String) (ret : Int) (reaps : List reap) :
    Except Halt (State × List reap) :=
  match inpJid with
  | none => .ok (printf s "fg: current: no such job\n", reaps)
  | some a =>
    let jid := atoi a
    match get_job_from_jid s jid with
    | none => .ok (printf s ("fg: " ++ fmt_d jid ++ ": no such job\n"), reaps)
    | some p => do
      let (s1, resumed) ← cush_fg_resume s p ret
      if resumed then
        let (s2, rest) ← wait_for_job p s1 reaps
        let s3 ← cush_fg_finish s2 p
        pure (s3, rest)
      else pure (s1, reaps)

/-- Function that implements the kill method (`cush_kill`). -/
def cush_kill (s : State) (inpJid : Option String) (ret : Int) : Except Halt State :=
  match inpJid with
  | none => .ok (printf s "kill: no such job\n")
  | some a =>
    let jid := atoi a
    match get_job_from_jid s jid with
    | none => .ok (printf s ("kill: " ++ fmt_d jid ++ ": no such job\n"))
    | some p => do
      let inpJob ← deref s p
      let s1 := killpg s (pid_at inpJob 0) SIGTERM ret
      if ret = 0 then
        let t ← list_remove s1 p
        delete_job t p
      else pure s1

/-- Function that implements stop command (`cush_stop`). -/
def cush_stop (s : State) (inpJid : Option String) (ret : Int) : Except Halt State :=
  match inpJid with
  | none => .ok (printf s "stop: no such job\n")
  | some a =>
    let jid := atoi a
    match get_job_from_jid s jid with
    | none => .ok (printf s ("stop: " ++ fmt_d jid ++ ": no such job\n"))
    | some p => do
      let inpJob ← deref s p
      let s1 := killpg s (pid_at inpJob 0) SIGSTOP ret
      if ret = 0 then
        let s2 ← (if inpJob.status = .FOREGROUND then termstate_save s1 p else pure s1)
        let j ← deref s2 p
        pure (store s2 p { j with status := .STOPPED })
      else pure s1

/-- The loop of `cush_jobs`, with `fuel` bounding the iterations as in
`removeFinishedJobs_loop`. -/
def cush_jobs_loop : Nat → State → Nat → Nat → Except Halt State
  | 0, s, _, _ => .ok s
  | fuel + 1, s, cnt, i =>
    if cnt < list_size s ∧ i < MAXJOBS then
      match s.jid2job i with
      | some a => do
        let s1 ← print_job s a
        cush_jobs_loop fuel s1 (cnt + 1) (i + 1)
      | none => cush_jobs_loop fuel s cnt (i + 1)
    else .ok s

/-- Function that implements the jobs command (`cush_jobs`). -/
def cush_jobs (s : State) : Except Halt State :=
  cush_jobs_loop MAXJOBS s 0 0

/-! ## Launcher and interpreter -/

/-- Flag `O_RDONLY` of `open`. -/
def O_RDONLY : Nat := 0

/-- Flag `O_WRONLY` of `open`. -/
def O_WRONLY : Nat := 1

/-- Flag `O_CREAT` of `open`. -/
def O_CREAT : Nat := 64

/-- Flag `O_TRUNC` of `open`. -/
def O_TRUNC : Nat := 512

/-- Flag `O_APPEND` of `open`. -/
def O_APPEND : Nat := 1024

/-- Index of the read end in a row of `pipeArray`. -/
def PIPE_READ : Nat := 0

/-- Index of the write end in a row of `pipeArray`. -/
def PIPE_WRITE : Nat := 1

/-- What the environment answers while one stage of a pipeline is processed: the
descriptors `pipe2` produces (absent when it fails), the code `posix_spawnp` returns with
the child id it stores on success, the result of `killpg`, and the results of the blocking
`waitpid` calls (the last two matter for a builtin stage). -/
structure stage_env where
  pipe_fds : Option (Int × Int)
  spawn_ret : Int
  childPID : Pid
  killpg_ret : Int
  reaps : List reap
  deriving DecidableEq, Repr

/-- The local variables of the pipeline body of `interpret`. A row of `pipeArray` is absent
until `pipe2` has written it. -/
structure locals where
  returnCode : Int
  job : Option JobPtr
  pipeArray : List (Option (Int × Int))
  cnt : Nat
  deriving DecidableEq, Repr

/-- Entry `pipeArray[i][k]`, absent when the row was never written. -/
def pipe_fd (l : locals) (i k : Nat) : Option Int :=
  match l.pipeArray.getD i none with
  | some (r, w) => if k = PIPE_READ then some r else some w
  | none => none

/-- First free slot of `job->pids` (`findEmptyPIDSlot`) over the zero-initialised array
whose leading slots are the list, visiting `n` slots from index `i`; `-1` when none of
them is `0`. -/
def findEmptyPIDSlot_scan : List Pid → Nat → Nat → Int
  | _, _, 0 => -1
  | [], i, _ + 1 => (i : Int)
  | x :: xs, i, n + 1 => if x = 0 then (i : Int) else findEmptyPIDSlot_scan xs (i + 1) n

/-- The function `findEmptyPIDSlot`, without its diagnostic print. -/
def findEmptyPIDSlot (theJob : job) : Int :=
  findEmptyPIDSlot_scan theJob.pids 0 MAXJOBS

/-- Assignment `pids[i] = v` on the list of leading slots, which is padded with zeros up
to `i` when it is shorter. -/
def pids_set (pids : List Pid) (i : Nat) (v : Pid) : List Pid :=
  if i < pids.length then pids.set i v
  else pids ++ List.replicate (i - pids.length) 0 ++ [v]

/-- The block of `interpret` run after `posix_spawnp` returned `0`: add the child to the
job, count it, and for a background pipeline mark the job, acknowledge it and capture the
terminal attributes. -/
def register_child (s : State) (p : JobPtr) (bg_job : Bool) (childPID : Pid) :
    Except Halt State := do
  let j ← deref s p
  let index := findEmptyPIDSlot j
  if index < 0 then throw Halt.undefined
  let j1 := { j with pids := pids_set j.pids index.toNat childPID }
  let j2 := { j1 with num_processes_alive := j1.num_processes_alive + 1 }
  let s1 := store s p j2
  if bg_job then
    let s2 := store s1 p { j2 with status := .BACKGROUND }
    let s3 := printf s2 ("[" ++ fmt_u j2.jid ++ "] " ++ fmt_u childPID ++ "\n")
    let j3 ← deref s3 p
    pure (store s3 p { j3 with saved_tty_state := s3.tty_attrs })
  else pure s1

/-- The `else` branch of the dispatch in `interpret`: one external stage, with `n` the
number of commands of the pipeline. -/
def spawn_stage (pipe : ast_pipeline) (n : Nat) (s : State) (l : locals)
    (cmd : ast_command) (inpCmd : String) (env : stage_env) : Except Halt (State × locals) := do
  let first := decide (l.cnt = 0)
  let last := decide (l.cnt + 1 = n)
  -- process group and input redirection
  let (s1, l1, pgroup, acts1) ←
    (if first then do
      let (t, p) ← add_job s pipe
      let acts := match pipe.iored_input with
        | some path => [file_action.addopen 0 (some path) O_RDONLY 511]
        | none => []
      pure (t, { l with job := some p }, (0 : Pid), acts)
    else
      match l.job with
      | none => throw Halt.undefined
      | some p => do
        let j ← deref s p
        pure (s, l, pid_at j 0, []))
  -- output redirection
  let acts2 :=
    if last then
      if pipe.append_to_output then
        acts1 ++ [file_action.addopen 1 pipe.iored_output (O_WRONLY ||| O_APPEND ||| O_CREAT) 511]
      else match pipe.iored_output with
        | some path =>
          acts1 ++ [file_action.addopen 1 (some path) (O_WRONLY ||| O_TRUNC ||| O_CREAT) 511]
        | none => acts1
    else acts1
  -- pipes
  let (s2, l2, acts3) :=
    if first ∧ ¬ last then
      let l2 := { l1 with pipeArray := match env.pipe_fds with
                            | some fds => l1.pipeArray.set l1.cnt (some fds)
                            | none => l1.pipeArray }
      let t := { s1 with fd_calls := s1.fd_calls ++ [fd_call.pipe2 l1.cnt env.pipe_fds] }
      (t, l2, acts2 ++ [file_action.adddup2 (pipe_fd l2 l2.cnt PIPE_WRITE) 1])
    else if ¬ first ∧ ¬ last then
      (s1, l1, acts2 ++ [file_action.adddup2 (pipe_fd l1 l1.cnt PIPE_WRITE) 1,
                          file_action.adddup2 (pipe_fd l1 (l1.cnt - 1) PIPE_READ) 0])
    else if ¬ first ∧ last then
      (s1, l1, acts2 ++ [file_action.adddup2 (pipe_fd l1 (l1.cnt - 1) PIPE_READ) 0])
    else (s1, l1, acts2)
  let acts4 := if cmd.dup_stderr_to_stdout then acts3 ++ [file_action.adddup2 (some 1) 2] else acts3
  -- spawn the child process
  let s3 := { s2 with spawns := s2.spawns ++
                [{ file := inpCmd, actions := acts4, pgroup := pgroup, argv := cmd.argv,
                   ret := env.spawn_ret }] }
  let l3 := { l2 with returnCode := env.spawn_ret }
  if env.spawn_ret = 0 then
    match l3.job with
    | none => throw Halt.undefined
    | some p =>
      let s4 := { s3 with tty_pgrp := if pgroup = 0 then env.childPID else pgroup }
      let s5 ← register_child s4 p pipe.bg_job env.childPID
      pure (s5, l3)
  else pure (s3, l3)

/-- The body of the loop over the commands of a pipeline in `interpret`, up to and
including `cnt++`. -/
def interpret_stage (pipe : ast_pipeline) (n : Nat) (s : State) (l : locals)
    (cmd : ast_command) (env : stage_env) : Except Halt (State × locals) := do
  let next := fun (t : State) => (t, { l with cnt := l.cnt + 1 })
  match cmd.argv with
  | [] => throw Halt.undefined
  | inpCmd :: _ =>
    if inpCmd = "exit" then throw Halt.exited
    else if inpCmd = "bg" then return next (← cush_bg s (cmd.argv.get? 1) env.killpg_ret)
    else if inpCmd = "ls" then return next (emit s (.listing "ls"))
    else if inpCmd = "pwd" then return next (emit s (.listing "pwd"))
    else if inpCmd = "history" then return next (emit s (.listing "history"))
    else if inpCmd = "fg" then
      return next (← cush_fg s (cmd.argv.get? 1) env.killpg_ret env.reaps).1
    else if inpCmd = "kill" then return next (← cush_kill s (cmd.argv.get? 1) env.killpg_ret)
    else if inpCmd = "stop" then return next (← cush_stop s (cmd.argv.get? 1) env.killpg_ret)
    else if inpCmd = "jobs" then return next (← cush_jobs s)
    else do
      let (t, l1) ← spawn_stage pipe n s l cmd inpCmd env
      pure (t, { l1 with cnt := l1.cnt + 1 })

/-- What the environment answers for a stage for which it lists nothing: no descriptors,
a failing spawn (`ENOENT`), a failing `killpg`, no reaps. -/
def stage_env.absent : stage_env :=
  { pipe_fds := none, spawn_ret := 2, childPID := 0, killpg_ret := -1, reaps := [] }

/-- The loop over the commands of a pipeline in `interpret`. -/
def interpret_stages (pipe : ast_pipeline) (n : Nat) :
    State → locals → List ast_command → List stage_env → Except Halt (State × locals)
  | s, l, [], _ => .ok (s, l)
  | s, l, cmd :: cmds, envs => do
    let (s1, l1) ← interpret_stage pipe n s l cmd (envs.headD stage_env.absent)
    interpret_stages pipe n s1 l1 cmds envs.tail

/-- The loops that close `pipeArray[i][j]` for `i < size`, `j < 2`, run when the pipeline
has more than one command. -/
def close_pipes (n : Nat) (s : State) (l : locals) : State :=
  if 1 < n then
    let closes := (List.range l.pipeArray.length).map
      (fun i => [fd_call.close (pipe_fd l i 0), fd_call.close (pipe_fd l i 1)])
    { s with fd_calls := s.fd_calls ++ closes.flatten }
  else s

/-- The tail of the pipeline body of `interpret` after the pipes are closed: the
spawn-failure cleanup, or the wait for a foreground job, then `removeFinishedJobs` and
`termstate_give_terminal_back_to_shell`. -/
def interpret_finish (s : State) (l : locals) (reaps : List reap) : Except Halt State := do
  let s1 ←
    (if l.returnCode ≠ 0 then
      let t := printf s "no such file or directory\n"
      match l.job with
      | none => throw Halt.undefined
      | some p => do
        let t1 ← list_remove t p
        delete_job t1 p
    else
      match l.job with
      | some p => do
        let j ← deref s p
        if j.status = .FOREGROUND then
          let (t, _) ← wait_for_job p s reaps
          let j1 ← deref t p
          if j1.status = .FOREGROUND then
            let t1 ← list_remove t p
            delete_job t1 p
          else pure t
        else pure s
      | none => pure s)
  let s2 ← removeFinishedJobs s1
  pure (termstate_give_terminal_back_to_shell s2)

/-- What the environment answers during one pipeline: one entry per command, and the
results of the blocking `waitpid` calls of the wait that follows the commands. -/
structure pipeline_env where
  stages : List stage_env
  reaps : List reap
  deriving DecidableEq, Repr

/-- The local variables of `interpret` when the body of a pipeline of `n` commands
starts: `size` is `n - 1`, raised to 1 when that is 0, and no row of `pipeArray` is
written. -/
def locals.start (n : Nat) : locals :=
  { returnCode := 0, job := none
    pipeArray := List.replicate (if n - 1 = 0 then 1 else n - 1) none, cnt := 0 }

/-- The body of the loop over the pipelines in `interpret`. -/
def interpret_pipeline (s : State) (pipe : ast_pipeline) (env : pipeline_env) :
    Except Halt State := do
  let n := pipe.commands.length
  let (s1, l1) ← interpret_stages pipe n s (locals.start n) pipe.commands env.stages
  interpret_finish (close_pipes n s1 l1) l1 env.reaps

/-- The function `interpret`: every pipeline of the command line in turn. -/
def interpret : State → List ast_pipeline → List pipeline_env → Except Halt State
  | s, [], _ => .ok s
  | s, pipe :: pipes, envs => do
    let s1 ← interpret_pipeline s pipe (envs.headD { stages := [], reaps := [] })
    interpret s1 pipes envs.tail

/-! ## Runs of the shell

The shell is driven by the command lines it reads and by the child processes it has
spawned. A run is a sequence of operations, each of them one of the functions above applied
to the current state, together with the set of children that are alive and not yet reaped
as exited or terminated. That set belongs to the environment; it bounds the events the
environment may deliver. -/

/-- The state of the shell and, from the environment, the ids of the children that were
spawned and have not yet been reaped as exited or terminated. -/
structure World where
  st : State
  live : List Pid

/-- The operations a run is made of. -/
inductive Op
  /-- The first external stage of a pipeline creates the job: `add_job(pipe)`. -/
  | launch (pipe : ast_pipeline)
  /-- The call `posix_spawnp` returned `0` with a new child for the job at `p`. -/
  | spawned (p : JobPtr) (bg_job : Bool) (childPID : Pid)
  /-- The call `handle_child_status(pid, status)`, from the relay or the waiter. -/
  | child (pid : Pid) (status : Int)
  /-- The builtin `bg`. -/
  | bg (arg : Option String) (ret : Int)
  /-- The builtin `stop`. -/
  | stop (arg : Option String) (ret : Int)
  /-- The builtin `kill`. -/
  | kill (arg : Option String) (ret : Int)
  /-- The builtin `fg` on a job it found, up to its call of `wait_for_job`. -/
  | fg_resume (p : JobPtr) (ret : Int)
  /-- The builtin `jobs`. -/
  | jobs
  /-- The calls `list_remove(&job->elem); delete_job(job)` of `interpret` and `cush_fg`. -/
  | delete (p : JobPtr)
  /-- The call `removeFinishedJobs()`. -/
  | collect
  /-- The call `termstate_give_terminal_back_to_shell()`. -/
  | reclaim
  /-- A process that owns the terminal changes its attributes. -/
  | tty (attrs : termios)
  /-- Any other `printf` of the shell, such as the messages of a builtin. -/
  | print (o : Output)

/-- No allocated job records `pid` as a member. Every allocated record sits below `brk`. -/
def unrecorded (s : State) (pid : Pid) : Bool :=
  (List.range s.brk).all fun q =>
    match s.heap q with
    | some j => decide (pid ∉ j.pids)
    | none => true

/-- What the environment guarantees for an operation: a spawned child has a positive id
that no live child has and no job records, and only a live child is reaped as exited or
terminated, which happens once because the reap takes it out of the live set. -/
def Op.allowed (w : World) : Op → Bool
  | .spawned _ _ childPID =>
    decide (0 < childPID) && decide (childPID ∉ w.live) && unrecorded w.st childPID
  | .child pid status => !(WIFEXITED status || WIFSIGNALED status) || decide (pid ∈ w.live)
  | _ => true

/-- The effect of one operation. -/
def Op.apply (w : World) : Op → Except Halt World
  | .launch pipe => (add_job w.st pipe).map fun r => { w with st := r.1 }
  | .spawned p bg_job childPID =>
    (register_child w.st p bg_job childPID).map fun t => { st := t, live := childPID :: w.live }
  | .child pid status =>
    (handle_child_status w.st pid status).map fun t =>
      { st := t
        live := if WIFEXITED status || WIFSIGNALED status then w.live.erase pid else w.live }
  | .bg arg ret => (cush_bg w.st arg ret).map fun t => { w with st := t }
  | .stop arg ret => (cush_stop w.st arg ret).map fun t => { w with st := t }
  | .kill arg ret => (cush_kill w.st arg ret).map fun t => { w with st := t }
  | .fg_resume p ret => (cush_fg_resume w.st p ret).map fun r => { w with st := r.1 }
  | .jobs => (cush_jobs w.st).map fun t => { w with st := t }
  | .delete p => (list_remove w.st p >>= fun t => delete_job t p).map fun t => { w with st := t }
  | .collect => (removeFinishedJobs w.st).map fun t => { w with st := t }
  | .reclaim => .ok { w with st := termstate_give_terminal_back_to_shell w.st }
  | .tty attrs => .ok { w with st := { w.st with tty_attrs := attrs } }
  | .print o => .ok { w with st := emit w.st o }

/-- The states a run can be in: the start of `main` with an empty registry and no
children, and every state an allowed operation leads to from such a state. -/
inductive Reachable : World → Prop
  | init (attrs : termios) (pgrp : Pid) : Reachable { st := State.init attrs pgrp, live := [] }
  | step (w : World) (op : Op) (w1 : World) :
      Reachable w → op.allowed w = true → op.apply w = .ok w1 → Reachable w1

/-- Number of registered jobs whose status is `FOREGROUND`. -/
def foreground_count (s : State) : Nat :=
  (s.job_list.filter fun p =>
    match s.heap p with
    | some j => decide (j.status = .FOREGROUND)
    | none => false).length

/-- Every command of the pipeline has a program name, as the parser guarantees. -/
def ast_pipeline.has_names (pipe : ast_pipeline) : Bool :=
  pipe.commands.all fun c => !c.argv.isEmpty

/-- The listed jobs are allocated records whose pipelines come from the parser. -/
def State.listed_ok (s : State) : Prop :=
  ∀ p ∈ s.job_list, ∃ j, s.heap p = some j ∧ j.pipe.has_names = true

/-! ## Frame conditions -/

/-- The registry of `t` comes from that of `s` without creating a job and without touching
the members, the pipeline or the count of live members of any job: records are kept or
freed, slots of `jid2job` are kept or cleared, and `job_list` only loses elements. -/
structure Keeps (s t : State) : Prop where
  brk : t.brk = s.brk
  heap : ∀ q j1, t.heap q = some j1 → ∃ j, s.heap q = some j ∧ j1.pids = j.pids ∧
    j1.pipe = j.pipe ∧ j1.num_processes_alive = j.num_processes_alive
  slots : ∀ i q, t.jid2job i = some q → s.jid2job i = some q
  listed : ∀ q, q ∈ t.job_list → q ∈ s.job_list

/-- Operations that create a job. -/
def Op.creates : Op → Bool
  | .launch _ => true
  | _ => false

/-- A run: the operations of the list applied in order. -/
def run : World → List Op → Except Halt World
  | w, [] => .ok w
  | w, op :: ops => op.apply w >>= fun w1 => run w1 ops

/-- Printing leaves everything but the output as it is. -/
def OnlyPrints (s t : State) : Prop :=
  ∃ chunks, t = { s with out := s.out ++ chunks }

/-- The record of the owning job after `handle_child_status` has classified `status`, with
`attrs` the terminal attributes at that moment. -/
def reconciled (j : job) (status : Int) (attrs : termios) : job :=
  if WIFEXITED status then
    if j.status = .FOREGROUND ∧ status = 0 then
      { j with num_processes_alive := j.num_processes_alive - 1 }
    else if j.status = .BACKGROUND then
      { j with num_processes_alive := j.num_processes_alive - 1, status := .FINISHED }
    else { j with num_processes_alive := j.num_processes_alive - 1 }
  else if WIFSIGNALED status then
    if j.status = .BACKGROUND then
      { j with num_processes_alive := j.num_processes_alive - 1, status := .FINISHED }
    else { j with num_processes_alive := j.num_processes_alive - 1 }
  else if WIFSTOPPED status then
    if j.status = .FOREGROUND then { j with saved_tty_state := attrs, status := .STOPPED }
    else { j with status := .STOPPED }
  else j

/-- The registry of `t` is that of `s` except for the record at `p`, which is `j1`; the
terminal and the signals sent are the same. -/
structure UpdatesOnly (s t : State) (p : JobPtr) (j1 : job) : Prop where
  heap : t.heap = fun q => if q = p then some j1 else s.heap q
  brk : t.brk = s.brk
  job_list : t.job_list = s.job_list
  jid2job : t.jid2job = s.jid2job
  tty_attrs : t.tty_attrs = s.tty_attrs
  tty_pgrp : t.tty_pgrp = s.tty_pgrp
  signals : t.signals = s.signals

/-- The job at `p` is the one `handle_child_status` picks for `pid`: every listed job is an
allocated record, the job at `p` has `pid` in a slot of its array `pids`, and no job
behind it in `job_list` has. -/
def Owns (s : State) (p : JobPtr) (pid : Pid) : Prop :=
  ∃ l1 l2 j, s.job_list = l1 ++ p :: l2 ∧ s.heap p = some j ∧
    (∃ i, i < MAXJOBS ∧ pid_at j i = pid) ∧
    (∀ q ∈ l1, ∃ jq, s.heap q = some jq) ∧
    (∀ q ∈ l2, ∃ jq, s.heap q = some jq ∧ ∀ i, i < MAXJOBS → pid_at jq i ≠ pid)

/-! ## Concrete registries and command lines -/

/-- A pipeline without redirections whose commands are the given argument vectors. -/
def simple_pipeline (cs : List (List String)) (bg : Bool) : ast_pipeline :=
  { commands := cs.map fun ws => { argv := ws, dup_stderr_to_stdout := false }
    iored_input := none, iored_output := none, append_to_output := false, bg_job := bg }

/-- The job of the command line `vim` with id 1, one live member (process 101), saved
terminal attributes 9, and the given status. -/
def vim_job (st : job_status) : job :=
  { pipe := simple_pipeline [["vim"]] false, jid := 1, status := st,
    num_processes_alive := 1, saved_tty_state := 9, pids := [101] }

/-- A registry whose only job is `vim_job st`, on a terminal with attributes 7 whose
foreground group is the shell, process group 1000. -/
def single_job (st : job_status) : State :=
  { State.init 7 1000 with
    heap := fun p => if p = 0 then some (vim_job st) else none
    brk := 1
    job_list := [0]
    jid2job := fun i => if i = 1 then some 0 else none }

/-- What the environment answers for a stage whose spawn succeeds with child `pid`. -/
def spawn_ok (pid : Pid) : stage_env :=
  { pipe_fds := some (3, 4), spawn_ret := 0, childPID := pid, killpg_ret := 0, reaps := [] }

/-- What the environment answers for a stage whose program cannot be executed. -/
def spawn_fails : stage_env :=
  { pipe_fds := some (3, 4), spawn_ret := 2, childPID := 0, killpg_ret := 0, reaps := [] }

/-- Status of the record at `p`, if allocated. -/
def status_at (s : State) (p : JobPtr) : Option job_status :=
  (s.heap p).map fun j => j.status

/-- Count of live members of the record at `p`, if allocated. -/
def alive_at (s : State) (p : JobPtr) : Option Int :=
  (s.heap p).map fun j => j.num_processes_alive

/-- Number of slots of `job->pids` that hold the id of a live child. -/
def live_members (live : List Pid) (j : job) : Nat :=
  j.pids.countP fun x => decide (x ∈ live)

/-- The accounting that links the registry to the environment: live children have
distinct non-zero ids, every record sits below `brk`, and no job has more live children
among its members than its count `num_processes_alive` says. -/
structure Accounted (w : World) : Prop where
  nodup : w.live.Nodup
  nonzero : ∀ x ∈ w.live, x ≠ 0
  below : ∀ q j, w.st.heap q = some j → q < w.st.brk
  counted : ∀ q j, w.st.heap q = some j → (live_members w.live j : Int) ≤ j.num_processes_alive

/-- Operations that register a spawned child. -/
def Op.spawns : Op → Bool
  | .spawned _ _ _ => true
  | _ => false

/-- Every operation of the list is allowed in the world it is applied to, and applies. -/
def run_allowed : World → List Op → Bool
  | _, [] => true
  | w, op :: ops =>
    op.allowed w &&
      match op.apply w with
      | .ok w1 => run_allowed w1 ops
      | .error _ => false

/-- The start of `main` on a terminal with attributes 7, the shell being process group
1000. -/
def boot : World :=
  { st := State.init 7 1000, live := [] }

/-- The foreground command line `sleep 5` is launched, its child 101 is registered, and
the child is reaped as exited with code 0. -/
def sleep_ops : List Op :=
  [.launch (simple_pipeline [["sleep", "5"]] false), .spawned 0 false 101, .child 101 0]

/-- The command lines `sleep 1 &` and `sleep 1 &` are run from the start of `main`
(children 101 and 102), and then the relay reaps both children as exited with code 0. -/
def two_done : Except Halt State := do
  let s1 ← interpret (State.init 7 1000) [simple_pipeline [["sleep", "1"]] true]
    [{ stages := [spawn_ok 101], reaps := [] }]
  let s2 ← interpret s1 [simple_pipeline [["sleep", "1"]] true]
    [{ stages := [spawn_ok 102], reaps := [] }]
  sigchld_handler s2 [⟨101, 0, 7⟩, ⟨102, 0, 7⟩]

/-- The command line `sleep 1 | sleep 5 &` is run from the start of `main` (children 101
and 102). -/
def pair_in_background : Except Halt State :=
  interpret (State.init 7 1000) [simple_pipeline [["sleep", "1"], ["sleep", "5"]] true]
    [{ stages := [spawn_ok 101, spawn_ok 102], reaps := [] }]

/-- The command line `sleep 1 &` is run from the start of `main` (child 101). -/
def one_in_background : Except Halt State :=
  interpret (State.init 7 1000) [simple_pipeline [["sleep", "1"]] true]
    [{ stages := [spawn_ok 101], reaps := [] }]

/-- The command line `vim` is run in the foreground from the start of `main` (child 101)
and the child is stopped with `SIGTSTP` while the terminal has attributes 9. -/
def vim_stopped : Except Halt State :=
  interpret (State.init 7 1000) [simple_pipeline [["vim"]] false]
    [{ stages := [spawn_ok 101], reaps := [⟨101, 5247, 9⟩] }]

/-! ## Well-formed registries -/

/-- The list `job_list` and the array `jid2job` describe the same jobs: no job is listed
twice, every listed job is an allocated record whose `jid` is an id between 1 and
`MAXJOBS - 1` whose slot points back to it, and every slot that is not null points to a
listed record whose `jid` is the index of the slot. -/
structure Consistent (s : State) : Prop where
  nodup : s.job_list.Nodup
  listed : ∀ p ∈ s.job_list, ∃ j, s.heap p = some j ∧ 1 ≤ j.jid ∧ j.jid < (MAXJOBS : Int) ∧
    s.jid2job j.jid.toNat = some p
  slots : ∀ i p, s.jid2job i = some p → p ∈ s.job_list ∧ ∃ j, s.heap p = some j ∧ j.jid = (i : Int)

/-- The registry without the job at `p` registered under id `k`: the record is freed, the
job is unlinked from `job_list`, and slot `k` of `jid2job` is null. -/
def State.drop (s : State) (p : JobPtr) (k : Nat) : State :=
  { s with
    heap := fun r => if r = p then none else s.heap r
    job_list := s.job_list.erase p
    jid2job := fun i => if i = k then none else s.jid2job i }

/-- The registry of `t` has the records, the list and the slots of `s`, records being
changed in place only and keeping their id and their pipeline. -/
structure Retouches (s t : State) : Prop where
  brk : t.brk = s.brk
  job_list : t.job_list = s.job_list
  jid2job : t.jid2job = s.jid2job
  kept : ∀ q j, s.heap q = some j → ∃ j1, t.heap q = some j1 ∧ j1.jid = j.jid ∧ j1.pipe = j.pipe
  free : ∀ q, s.heap q = none → t.heap q = none

/-! ## The foreground waiter, as the specification words it -/

/-- The loop condition of `wait_for_job`: the job at `p` is `FOREGROUND` and has live
members. -/
def waiting (s : State) (p : JobPtr) : Bool :=
  match s.heap p with
  | some j => decide (j.status = .FOREGROUND ∧ 0 < j.num_processes_alive)
  | none => false

/-- Starting in `s`, the waiter on the job at `p` performs the reaps of the list one after
the other, each of them while the job is `FOREGROUND` with live members, each of them
successful and handed to the status reconciler in arrival order, and so reaches `t`. -/
inductive Reaped (p : JobPtr) : State → List reap → State → Prop
  | none (s : State) : Reaped p s [] s
  | next (s s1 t : State) (r : reap) (used : List reap) :
      waiting s p = true → r.child ≠ -1 →
      handle_child_status { s with tty_attrs := r.attrs } r.child r.status = .ok s1 →
      Reaped p s1 used t → Reaped p s (r :: used) t

/-- What the environment answers for a stage whose spawn succeeds with child `pid` and for
which `pipe2`, if called, would produce the descriptors `r` and `w`. -/
def spawn_ok_fds (pid : Pid) (r w : Int) : stage_env :=
  { pipe_fds := some (r, w), spawn_ret := 0, childPID := pid, killpg_ret := 0, reaps := [] }

/-- Members of the record at `p`, if allocated. -/
def pids_at (s : State) (p : JobPtr) : Option (List Pid) :=
  (s.heap p).map fun j => j.pids

/-! ## External pipelines, as the specification words them -/

/-- The names `interpret` treats as builtins. -/
def builtin_names : List String :=
  ["exit", "bg", "ls", "pwd", "history", "fg", "kill", "stop", "jobs"]

/-- The command is an external program: it has a name and the name is no builtin. -/
def ast_command.external (c : ast_command) : Bool :=
  match c.argv with
  | [] => false
  | name :: _ => !(builtin_names.contains name)

/-- The child ids of the stages whose spawn succeeded, in stage order. -/
def spawned_pids (envs : List stage_env) : List Pid :=
  (envs.filter fun e => e.spawn_ret = 0).map fun e => e.childPID

/-- The record the specification expects for the job of a pipeline after stages with the
answers `envs`: id `i`, the spawned children as members in spawn order, as many live
members, and for a background pipeline with at least one spawned stage the status
`BACKGROUND` and the terminal attributes `attrs` as saved state, otherwise `FOREGROUND`
and the zeroed saved state of a new record. -/
def launched (pipe : ast_pipeline) (i : Int) (attrs : termios) (envs : List stage_env) : job :=
  { pipe := pipe
    jid := i
    status := if pipe.bg_job = true ∧ spawned_pids envs ≠ [] then .BACKGROUND else .FOREGROUND
    num_processes_alive := ((spawned_pids envs).length : Int)
    saved_tty_state := if pipe.bg_job = true ∧ spawned_pids envs ≠ [] then attrs else 0
    pids := spawned_pids envs }

/-- The record of a job after `register_child` has added the child `pid`, for a job all of
whose leading slots are taken. -/
def with_child (j : job) (bg_job : Bool) (attrs : termios) (pid : Pid) : job :=
  { j with
    pids := j.pids ++ [pid]
    num_processes_alive := j.num_processes_alive + 1
    status := if bg_job then .BACKGROUND else j.status
    saved_tty_state := if bg_job then attrs else j.saved_tty_state }

/-- The state `u` differs from `s` at most in what the launcher records of its calls of
`posix_spawnp`, `pipe2` and `close`, and in the foreground group of the terminal. -/
def LogsOnly (s u : State) : Prop :=
  ∃ sp fd pg, u = { s with spawns := sp, fd_calls := fd, tty_pgrp := pg }

/-- The lines `[<id>] <pid>` that `interpret` prints for the spawned stages of a background
pipeline, in stage order; nothing for a foreground pipeline. -/
def acknowledged (pipe : ast_pipeline) (i : Int) (envs : List stage_env) : List Output :=
  if pipe.bg_job then
    (spawned_pids envs).map fun pid => Output.text ("[" ++ fmt_u i ++ "] " ++ fmt_u pid ++ "\n")
  else []

/-- The state `s` with one more job: the record `j` allocated at `s.brk`, appended to the
job list and entered in slot `i`, and the chunks `out` printed. -/
def State.with_job (s : State) (i : Nat) (j : job) (out : List Output) : State :=
  { s with
    heap := fun q => if q = s.brk then some j else s.heap q
    brk := s.brk + 1
    job_list := s.job_list ++ [s.brk]
    jid2job := fun k => if k = i then some s.brk else s.jid2job k
    out := s.out ++ out }

/-- The states `s` and `u` have the same records, the same job list, the same slots of
`jid2job` and the same output. -/
def SameRegistry (s u : State) : Prop :=
  u.heap = s.heap ∧ u.job_list = s.job_list ∧ u.jid2job = s.jid2job ∧ u.out = s.out

/-- The registry of `t` is that of `s` after a collection of finished jobs: the jobs still
listed were listed in `s` and have the same record, every job that is no longer listed had
the status `FINISHED` in `s`, and nothing was printed. -/
structure Collected (s t : State) : Prop where
  kept : ∀ q ∈ t.job_list, q ∈ s.job_list ∧ t.heap q = s.heap q
  gone : ∀ q ∈ s.job_list, q ∉ t.job_list → status_at s q = some .FINISHED
  out : t.out = s.out

/-- Saved terminal attributes of the record at `p`, if allocated. -/
def saved_at (s : State) (p : JobPtr) : Option termios :=
  (s.heap p).map fun j => j.saved_tty_state

/-- The command line `emacs | fg 2 | fg 1 | cat &`. -/
def resumed_in_pipeline : ast_pipeline :=
  simple_pipeline [["emacs"], ["fg", "2"], ["fg", "1"], ["cat"]] true

/-- What the environment answers to `resumed_in_pipeline`: `emacs` is spawned as child
102; during `fg 2` it stops on `SIGTSTP` (raw status 5247) with terminal attributes 11;
during `fg 1` the member 101 of job 1 stops with terminal attributes 13; `cat` is spawned
as child 103. -/
def resumed_in_pipeline_env : pipeline_env :=
  { stages := [spawn_ok 102,
               { stage_env.absent with killpg_ret := 0, reaps := [⟨102, 5247, 11⟩] },
               { stage_env.absent with killpg_ret := 0, reaps := [⟨101, 5247, 13⟩] },
               spawn_ok 103]
    reaps := [] }

/-- What a recorded call of `posix_spawnp` was asked to run and what it returned. -/
def spawn_call.outcome (c : spawn_call) : String × Int :=
  (c.file, c.ret)

/-! ## The jobs listing -/

/-- The strings the inner part of `print_cmdline` prints for one command: `argv[0]`, then
every further argument behind a space. -/
def argv_parts : List String → List String
  | [] => []
  | a :: rest => a :: rest.map fun x => " " ++ x

/-- The strings `print_cmdline` prints for the commands of a pipeline; `first` says whether
the first command of the list is `list_begin`. -/
def cmdline_parts : Bool → List ast_command → List String
  | _, [] => []
  | first, c :: cs =>
    (if first then [] else ["| "]) ++ argv_parts c.argv ++ cmdline_parts false cs

/-- The strings `print_job` prints for a record. -/
def job_parts (j : job) : List String :=
  ("[" ++ fmt_d j.jid ++ "]\t" ++ get_status j.status ++ "\t\t") ::
    (cmdline_parts true j.pipe.commands ++ [")\n"])

/-- The state after the strings were printed one after the other. -/
def printed (s : State) (parts : List String) : State :=
  { s with out := s.out ++ parts.map Output.text }

/-- The jobs that the slots `0` to `MAXJOBS - 1` of `jid2job` point to, in slot order. -/
def slot_jobs (s : State) : List JobPtr :=
  (List.range MAXJOBS).filterMap s.jid2job

/-- The status word of the specification's table. -/
def status_word : job_status → String
  | .FOREGROUND => "Foreground"
  | .BACKGROUND => "Running"
  | .STOPPED => "Stopped"
  | .NEEDSTERMINAL => "Stopped (tty)"
  | .FINISHED => "Done"

/-- The command line of a job as the specification words it: every stage is its argument
vector joined by single spaces, and the stages follow each other in pipeline order; the
code puts a bar and a space between two stages. -/
def command_line (pipe : ast_pipeline) : String :=
  String.intercalate "| " (pipe.commands.map fun c => String.intercalate " " c.argv)

/-- The per-job status line of the specification, with its newline:
`[<id>]\t<status-word>\t\t<command line>)`. -/
def status_line (j : job) : String :=
  "[" ++ fmt_d j.jid ++ "]\t" ++ status_word j.status ++ "\t\t" ++ command_line j.pipe ++ ")" ++
    "\n"

/-- The strings `print_job` prints for the record at `p`; nothing when it is not
allocated. -/
def parts_at (s : State) (p : JobPtr) : List String :=
  match s.heap p with
  | some j => job_parts j
  | none => []

/-- Checks `State.listed_ok` on a concrete registry. -/
def State.names_ok (s : State) : Bool :=
  s.job_list.all fun p =>
    match s.heap p with
    | some j => j.pipe.has_names
    | none => false

/-- The background command line `sleep 1 | cat &` (children 101 and 102), then the
foreground command line `vim` (child 103), which is stopped with `SIGTSTP` while the
terminal has attributes 9. -/
def listing_ops : List Op :=
  [.launch (simple_pipeline [["sleep", "1"], ["cat"]] true), .spawned 0 true 101,
   .spawned 0 true 102, .launch (simple_pipeline [["vim"]] false), .spawned 1 false 103,
   .tty 9, .child 103 5247]

/-- The command line `cat < in | sort | wc > out 2>&1`: three external stages, an input
target, an output target without the append flag, and the merge of standard error asked
for by the last stage. -/
def redirected_three : ast_pipeline :=
  { commands := [{ argv := ["cat"], dup_stderr_to_stdout := false },
                 { argv := ["sort"], dup_stderr_to_stdout := false },
                 { argv := ["wc"], dup_stderr_to_stdout := true }]
    iored_input := some "in", iored_output := some "out", append_to_output := false
    bg_job := false }

/-- Number of slots of the array `jid2job` that are not null. -/
def taken_slots (s : State) : Nat :=
  ((List.range MAXJOBS).filter fun i => (s.jid2job i).isSome).length

/-! ## Theorems: the job registry -/


theorem add_job_scan_some {tbl : Nat → Option JobPtr} :
    ∀ (fuel i k : Nat), add_job_scan tbl i fuel = some k →
      i ≤ k ∧ k < i + fuel ∧ tbl k = none ∧ ∀ m, i ≤ m → m < k → tbl m ≠ none := by
  intro fuel
  induction fuel with
  | zero => intro i k h; simp [add_job_scan] at h
  | succ n ih =>
    intro i k h
    unfold add_job_scan at h
    by_cases hi : (tbl i).isNone = true
    · rw [if_pos hi] at h
      cases h
      refine ⟨le_refl _, by omega, ?_, ?_⟩
      · simpa using hi
      · intro m h1 h2; omega
    · rw [if_neg hi] at h
      obtain ⟨h1, h2, h3, h4⟩ := ih (i + 1) k h
      refine ⟨by omega, by omega, h3, ?_⟩
      intro m hm1 hm2
      by_cases hmi : m = i
      · subst hmi
        intro hn
        exact hi (by simp [hn])
      · exact h4 m (by omega) hm2

theorem add_job_scan_none {tbl : Nat → Option JobPtr} :
    ∀ (fuel i : Nat), add_job_scan tbl i fuel = none ↔
      ∀ m, i ≤ m → m < i + fuel → tbl m ≠ none := by
  intro fuel
  induction fuel with
  | zero =>
    intro i
    simp only [add_job_scan, true_iff]
    intro m h1 h2; omega
  | succ n ih =>
    intro i
    unfold add_job_scan
    by_cases hi : (tbl i).isNone = true
    · rw [if_pos hi]
      simp only [false_iff, not_forall, reduceCtorEq]
      exact ⟨i, le_refl _, by omega, by simpa using hi⟩
    · rw [if_neg hi, ih (i + 1)]
      constructor
      · intro h m h1 h2
        by_cases hmi : m = i
        · subst hmi
          intro hn
          exact hi (by simp [hn])
        · exact h m (by omega) (by omega)
      · intro h m h1 h2
        exact h m (by omega) (by omega)

theorem add_job_scan_least {tbl : Nat → Option JobPtr} (fuel i k : Nat)
    (hik : i ≤ k) (hk : k < i + fuel) (hfree : tbl k = none)
    (hmin : ∀ m, i ≤ m → m < k → tbl m ≠ none) : add_job_scan tbl i fuel = some k := by
  cases h : add_job_scan tbl i fuel with
  | none => exact absurd hfree ((add_job_scan_none fuel i).1 h k hik hk)
  | some k1 =>
    obtain ⟨h1, h2, h3, h4⟩ := add_job_scan_some fuel i k1 h
    rcases Nat.lt_trichotomy k1 k with hlt | heq | hgt
    · exact absurd h3 (hmin k1 h1 hlt)
    · rw [heq]
    · exact absurd hfree (h4 k hik hgt)

theorem add_job_of_scan (s : State) (pipe : ast_pipeline) (i : Nat)
    (h : add_job_scan s.jid2job 1 (MAXJOBS - 1) = some i) :
    add_job s pipe = .ok
      (store (set_slot (list_push_back { store s s.brk (fresh_job pipe) with brk := s.brk + 1 }
        s.brk) i (some s.brk)) s.brk { fresh_job pipe with jid := (i : Int) }, s.brk) := by
  have h1 : add_job_scan (list_push_back { store s s.brk (fresh_job pipe) with
      brk := s.brk + 1 } s.brk).jid2job 1 (MAXJOBS - 1) = some i := h
  unfold add_job
  simp only [h1]

/-- The function `add_job` aborts exactly when no slot from 1 to `MAXJOBS - 1` is null. -/
theorem add_job_aborts_iff (s : State) (pipe : ast_pipeline) :
    add_job s pipe = .error .aborted ↔ ∀ i, 1 ≤ i → i < MAXJOBS → s.jid2job i ≠ none := by
  have key := @add_job_scan_none s.jid2job (MAXJOBS - 1) 1
  have hM : 1 + (MAXJOBS - 1) = MAXJOBS := by decide
  rw [hM] at key
  rw [← key]
  unfold add_job
  simp only [list_push_back, store, set_slot]
  cases h : add_job_scan s.jid2job 1 (MAXJOBS - 1) <;> simp

/-- The function `add_job` when `i` is the smallest id whose slot is null. -/
theorem add_job_least (s : State) (pipe : ast_pipeline) (i : Nat) (h1 : 1 ≤ i)
    (h2 : i < MAXJOBS) (hfree : s.jid2job i = none)
    (hmin : ∀ m, 1 ≤ m → m < i → s.jid2job m ≠ none) :
    ∃ t, add_job s pipe = .ok (t, s.brk) ∧
      t.heap s.brk = some { pipe := pipe, jid := (i : Int), status := .FOREGROUND,
                            num_processes_alive := 0, saved_tty_state := 0, pids := [] } ∧
      get_job_from_jid t i = some s.brk ∧
      (∀ k, k ≠ i → t.jid2job k = s.jid2job k) ∧
      (∀ q, q ≠ s.brk → t.heap q = s.heap q) ∧
      t.job_list = s.job_list ++ [s.brk] := by
  have hscan : add_job_scan s.jid2job 1 (MAXJOBS - 1) = some i :=
    add_job_scan_least _ 1 i h1 (by have : (1:Nat) + (MAXJOBS - 1) = MAXJOBS := by decide
                                    omega) hfree hmin
  refine ⟨_, add_job_of_scan s pipe i hscan, ?_, ?_, ?_, ?_, ?_⟩
  · simp [store, fresh_job]
  · have : (0:Int) < (i:Int) ∧ (i:Int) < (MAXJOBS : Int) := by
      constructor <;> omega
    simp [get_job_from_jid, this, store, set_slot]
  · intro k hk
    simp [store, set_slot, list_push_back, hk]
  · intro q hq
    simp [store, set_slot, list_push_back, hq]
  · simp [store, set_slot, list_push_back]

/-- C6: `add_job` aborts exactly when every id from 1 to `MAXJOBS - 1` is held; otherwise
the new job gets the smallest id `i` in that range whose slot is null, it is the record at
the fresh address with status `FOREGROUND` and no member, id `i` now looks up the new
job, every other slot and every other record is as before (so no id passes from a
registered job to another one, and the new id was held by nobody), and the job is the last
of `job_list`. -/
theorem add_job_smallest_free_id (s : State) (pipe : ast_pipeline) :
    (add_job s pipe = .error .aborted ↔
      ∀ i, 1 ≤ i → i < MAXJOBS → s.jid2job i ≠ none) ∧
    (∀ i, 1 ≤ i → i < MAXJOBS → s.jid2job i = none →
      (∀ m, 1 ≤ m → m < i → s.jid2job m ≠ none) →
      ∃ t, add_job s pipe = .ok (t, s.brk) ∧
        t.heap s.brk = some { pipe := pipe, jid := (i : Int), status := .FOREGROUND,
                              num_processes_alive := 0, saved_tty_state := 0, pids := [] } ∧
        get_job_from_jid t i = some s.brk ∧
        (∀ k, k ≠ i → t.jid2job k = s.jid2job k) ∧
        (∀ q, q ≠ s.brk → t.heap q = s.heap q) ∧
        t.job_list = s.job_list ++ [s.brk]) :=
  ⟨add_job_aborts_iff s pipe, add_job_least s pipe⟩

/-- A registry in which ids 1 and 3 are held gives the next job id 2. -/
theorem add_job_smallest_free_id_witness :
    ∃ t, add_job { single_job .STOPPED with
                   jid2job := fun i => if i = 1 ∨ i = 3 then some 0 else none }
        (simple_pipeline [["ls"]] false) = .ok (t, 1) ∧
      get_job_from_jid t (2 : Nat) = some 1 ∧ t.job_list = [0, 1] :=
  let ⟨t, e, _, h2, _, _, h5⟩ :=
    (add_job_smallest_free_id { single_job .STOPPED with
        jid2job := fun i => if i = 1 ∨ i = 3 then some 0 else none }
      (simple_pipeline [["ls"]] false)).2 2 (by decide) (by decide) (by decide)
      (fun m h1 h2 => by
        have hm : m = 1 := by omega
        subst hm
        decide)
  ⟨t, e, h2, h5⟩

/-! ## Theorems: frame conditions -/

theorem Keeps.same (s : State) : Keeps s s :=
  ⟨rfl, fun _ j1 h => ⟨j1, h, rfl, rfl, rfl⟩, fun _ _ h => h, fun _ h => h⟩

theorem Keeps.andThen {s t u : State} (h1 : Keeps s t) (h2 : Keeps t u) : Keeps s u := by
  refine ⟨h2.brk.trans h1.brk, ?_, fun i q h => h1.slots i q (h2.slots i q h),
    fun q h => h1.listed q (h2.listed q h)⟩
  intro q j2 h
  obtain ⟨j1, hj1, a1, a2, a3⟩ := h2.heap q j2 h
  obtain ⟨j, hj, b1, b2, b3⟩ := h1.heap q j1 hj1
  exact ⟨j, hj, a1.trans b1, a2.trans b2, a3.trans b3⟩

theorem deref_ok {s : State} {p : JobPtr} {j : job} : deref s p = .ok j ↔ s.heap p = some j := by
  unfold deref
  cases h : s.heap p <;> simp

theorem deref_of_heap {s : State} {p : JobPtr} {j : job} (h : s.heap p = some j) :
    deref s p = .ok j := deref_ok.2 h

theorem keeps_emit (s : State) (o : Output) : Keeps s (emit s o) :=
  ⟨rfl, fun _ j1 h => ⟨j1, h, rfl, rfl, rfl⟩, fun _ _ h => h, fun _ h => h⟩

theorem keeps_printf (s : State) (t : String) : Keeps s (printf s t) := keeps_emit s _

theorem keeps_killpg (s : State) (g : Pid) (sig ret : Int) : Keeps s (killpg s g sig ret) :=
  ⟨rfl, fun _ j1 h => ⟨j1, h, rfl, rfl, rfl⟩, fun _ _ h => h, fun _ h => h⟩

theorem keeps_store {s : State} {p : JobPtr} {j j1 : job} (h : s.heap p = some j)
    (h1 : j1.pids = j.pids) (h2 : j1.pipe = j.pipe)
    (h3 : j1.num_processes_alive = j.num_processes_alive) : Keeps s (store s p j1) := by
  refine ⟨rfl, ?_, fun _ _ h => h, fun _ h => h⟩
  intro q j2 hq
  simp only [store] at hq
  by_cases hqp : q = p
  · subst hqp
    simp only [if_true] at hq
    cases hq
    exact ⟨j, h, h1, h2, h3⟩
  · simp only [if_neg hqp] at hq
    exact ⟨j2, hq, rfl, rfl, rfl⟩


theorem OnlyPrints.nothing (s : State) : OnlyPrints s s := ⟨[], by simp⟩

theorem OnlyPrints.more {s t u : State} (h1 : OnlyPrints s t) (h2 : OnlyPrints t u) :
    OnlyPrints s u := by
  obtain ⟨c1, rfl⟩ := h1
  obtain ⟨c2, rfl⟩ := h2
  exact ⟨c1 ++ c2, by simp⟩

theorem onlyPrints_printf (s : State) (x : String) : OnlyPrints s (printf s x) :=
  ⟨[.text x], rfl⟩

theorem onlyPrints_foldl (rest : List String) :
    ∀ s : State, OnlyPrints s (rest.foldl (fun t x => printf t (" " ++ x)) s) := by
  induction rest with
  | nil => intro s; exact OnlyPrints.nothing s
  | cons a r ih =>
    intro s
    exact (onlyPrints_printf s _).more (ih _)

theorem print_argv_ok (s : State) (argv : List String) (h : argv.isEmpty = false) :
    ∃ t, print_argv s argv = .ok t ∧ OnlyPrints s t := by
  cases argv with
  | nil => simp at h
  | cons a r =>
    exact ⟨_, rfl, (onlyPrints_printf s a).more (onlyPrints_foldl r _)⟩

theorem print_cmdline_loop_ok (cmds : List ast_command) :
    ∀ (s : State) (first : Bool), (cmds.all fun c => !c.argv.isEmpty) = true →
      ∃ t, print_cmdline_loop s first cmds = .ok t ∧ OnlyPrints s t := by
  induction cmds with
  | nil => intro s first _; exact ⟨s, rfl, OnlyPrints.nothing s⟩
  | cons c r ih =>
    intro s first h
    simp only [List.all_cons, Bool.and_eq_true, Bool.not_eq_true'] at h
    obtain ⟨t1, e1, p1⟩ := print_argv_ok (if first then s else printf s "| ") c.argv h.1
    obtain ⟨t2, e2, p2⟩ := ih t1 false h.2
    refine ⟨t2, ?_, ?_⟩
    · simp only [print_cmdline_loop, bind, Except.bind, e1, e2]
    · refine OnlyPrints.more ?_ (p1.more p2)
      cases first
      · exact onlyPrints_printf s _
      · exact OnlyPrints.nothing s

theorem print_cmdline_ok (s : State) (pipe : ast_pipeline) (h : pipe.has_names = true) :
    ∃ t, print_cmdline s pipe = .ok t ∧ OnlyPrints s t :=
  print_cmdline_loop_ok pipe.commands s true h

theorem OnlyPrints.heap {s t : State} (h : OnlyPrints s t) : t.heap = s.heap := by
  obtain ⟨c, rfl⟩ := h; rfl

theorem print_job_ok (s : State) (p : JobPtr) (j : job) (hp : s.heap p = some j)
    (h : j.pipe.has_names = true) : ∃ t, print_job s p = .ok t ∧ OnlyPrints s t := by
  obtain ⟨t1, e1, p1⟩ := print_cmdline_ok (printf s ("[" ++ fmt_d j.jid ++ "]\t" ++
    get_status j.status ++ "\t\t")) j.pipe h
  refine ⟨printf t1 ")\n", ?_, ?_⟩
  · simp only [print_job, bind, Except.bind, deref_of_heap hp, e1, pure, Except.pure]
  · exact (onlyPrints_printf s _).more (p1.more (onlyPrints_printf t1 _))

/-- Whatever a printing function returns differs from its argument in the output only,
also when the pipeline is not checked beforehand. -/
theorem print_argv_prints {s t : State} {argv : List String} (h : print_argv s argv = .ok t) :
    OnlyPrints s t := by
  cases argv with
  | nil => simp [print_argv] at h
  | cons a r =>
    simp only [print_argv, Except.ok.injEq] at h
    subst h
    exact (onlyPrints_printf s a).more (onlyPrints_foldl r _)

theorem print_cmdline_loop_prints (cmds : List ast_command) :
    ∀ (s t : State) (first : Bool), print_cmdline_loop s first cmds = .ok t → OnlyPrints s t := by
  induction cmds with
  | nil =>
    intro s t first h
    simp only [print_cmdline_loop, Except.ok.injEq] at h
    subst h
    exact OnlyPrints.nothing s
  | cons c r ih =>
    intro s t first h
    simp only [print_cmdline_loop, bind, Except.bind] at h
    split at h
    · simp at h
    · rename_i t1 e1
      have p1 := print_argv_prints e1
      have p2 := ih _ _ _ h
      refine OnlyPrints.more ?_ (p1.more p2)
      cases first
      · exact onlyPrints_printf s _
      · exact OnlyPrints.nothing s

theorem print_cmdline_prints {s t : State} {pipe : ast_pipeline}
    (h : print_cmdline s pipe = .ok t) : OnlyPrints s t :=
  print_cmdline_loop_prints _ _ _ _ h

theorem print_job_prints {s t : State} {p : JobPtr} (h : print_job s p = .ok t) :
    OnlyPrints s t := by
  simp only [print_job, bind, Except.bind, pure, Except.pure] at h
  split at h
  · simp at h
  · split at h
    · simp at h
    · rename_i j _ t1 e1
      simp only [Except.ok.injEq] at h
      subst h
      exact (onlyPrints_printf s _).more ((print_cmdline_prints e1).more (onlyPrints_printf t1 _))

theorem OnlyPrints.keeps {s t : State} (h : OnlyPrints s t) : Keeps s t := by
  obtain ⟨c, rfl⟩ := h
  exact ⟨rfl, fun _ j1 h => ⟨j1, h, rfl, rfl, rfl⟩, fun _ _ h => h, fun _ h => h⟩

/-! ## Theorems: the status reconciler -/

theorem pids_scan_iff (pid : Pid) :
    ∀ (l : List Pid) (n : Nat), pids_scan pid l n = true ↔ ∃ i, i < n ∧ l.getD i 0 = pid := by
  intro l
  induction l with
  | nil =>
    intro n
    cases n with
    | zero => simp [pids_scan]
    | succ m =>
      simp only [pids_scan, beq_iff_eq, List.getD_nil]
      constructor
      · intro h; exact ⟨0, by omega, h.symm⟩
      · rintro ⟨_, _, h⟩; exact h.symm
  | cons x xs ih =>
    intro n
    cases n with
    | zero => simp [pids_scan]
    | succ m =>
      simp only [pids_scan, Bool.or_eq_true, beq_iff_eq, ih m]
      constructor
      · rintro (h | ⟨i, hi, h⟩)
        · exact ⟨0, by omega, by simpa using h⟩
        · exact ⟨i + 1, by omega, by simpa using h⟩
      · rintro ⟨i, hi, h⟩
        cases i with
        | zero => left; simpa using h
        | succ k => right; exact ⟨k, by omega, by simpa using h⟩

theorem pids_scan_mem {pid : Pid} {l : List Pid} {n : Nat} (h : pids_scan pid l n = true)
    (h0 : pid ≠ 0) : pid ∈ l := by
  obtain ⟨i, _, hi⟩ := (pids_scan_iff pid l n).1 h
  by_cases hlt : i < l.length
  · rw [List.getD_eq_getElem _ _ hlt] at hi
    exact hi ▸ List.getElem_mem hlt
  · rw [List.getD_eq_default _ _ (by omega)] at hi
    exact absurd hi.symm h0

theorem find_job_of_pid_spec (s : State) (pid : Pid) :
    ∀ (l : List JobPtr) (acc : Option JobPtr),
      (∀ p ∈ l, ∃ j, s.heap p = some j) →
      ∃ r, find_job_of_pid s pid l acc = .ok r ∧
        (r = acc ∨ ∃ p j, r = some p ∧ p ∈ l ∧ s.heap p = some j ∧
          pids_scan pid j.pids MAXJOBS = true) ∧
        ((∀ p ∈ l, ∀ j, s.heap p = some j → pids_scan pid j.pids MAXJOBS = false) → r = acc) := by
  intro l
  induction l with
  | nil => intro acc _; exact ⟨acc, rfl, Or.inl rfl, fun _ => rfl⟩
  | cons a rest ih =>
    intro acc h
    obtain ⟨ja, hja⟩ := h a (List.mem_cons_self _ _)
    obtain ⟨r, e, hr, hnone⟩ := ih (if pids_scan pid ja.pids MAXJOBS then some a else acc)
      (fun p hp => h p (List.mem_cons_of_mem _ hp))
    refine ⟨r, ?_, ?_, ?_⟩
    · simp only [find_job_of_pid, bind, Except.bind, deref_of_heap hja, e]
    · rcases hr with hr | ⟨p, j, h1, h2, h3, h4⟩
      · by_cases hs : pids_scan pid ja.pids MAXJOBS = true
        · right
          exact ⟨a, ja, by simpa [hs] using hr, List.mem_cons_self _ _, hja, hs⟩
        · left
          simpa [hs] using hr
      · right
        exact ⟨p, j, h1, List.mem_cons_of_mem _ h2, h3, h4⟩
    · intro hall
      have ha : pids_scan pid ja.pids MAXJOBS = false := hall a (List.mem_cons_self _ _) ja hja
      have := hnone (fun p hp j hj => hall p (List.mem_cons_of_mem _ hp) j hj)
      simpa [ha] using this

theorem stopped_not_exited {status : Int} (h : WIFSTOPPED status = true) :
    WIFEXITED status = false ∧ WIFSIGNALED status = false := by
  simp only [WIFSTOPPED, beq_iff_eq] at h
  have h1 : status % 128 = 127 := by omega
  constructor
  · simp only [WIFEXITED, WTERMSIG, h1]; decide
  · simp only [WIFSIGNALED, h1]; decide

theorem UpdatesOnly.of_prints {s t u : State} {p : JobPtr} {j1 : job}
    (h1 : UpdatesOnly s t p j1) (h2 : OnlyPrints t u) : UpdatesOnly s u p j1 := by
  obtain ⟨c, rfl⟩ := h2
  exact ⟨h1.heap, h1.brk, h1.job_list, h1.jid2job, h1.tty_attrs, h1.tty_pgrp, h1.signals⟩

theorem updatesOnly_store (s : State) (p : JobPtr) (j1 : job) :
    UpdatesOnly s (store s p j1) p j1 :=
  ⟨rfl, rfl, rfl, rfl, rfl, rfl, rfl⟩

theorem store_store (s : State) (p : JobPtr) (j1 j2 : job) :
    store (store s p j1) p j2 = store s p j2 := by
  simp only [store]
  congr 1
  funext q
  by_cases h : q = p <;> simp [h]

theorem store_heap_self (s : State) (p : JobPtr) (j1 : job) : (store s p j1).heap p = some j1 := by
  simp [store]

/-- The reconciler on an event whose owner is the job at `p`: it returns, the record at `p`
becomes `reconciled`, and the rest of the registry, the terminal and the signals are
untouched. -/
theorem handle_child_status_owner (s : State) (pid : Pid) (status : Int) (p : JobPtr) (j : job)
    (hfind : find_job_of_pid s pid s.job_list none = .ok (some p))
    (hp : s.heap p = some j) (hnames : j.pipe.has_names = true) :
    ∃ t, handle_child_status s pid status = .ok t ∧
      UpdatesOnly s t p (reconciled j status s.tty_attrs) := by
  unfold handle_child_status
  simp only [bind, Except.bind, hfind, deref_of_heap hp, pure, Except.pure]
  by_cases hE : WIFEXITED status = true
  · simp only [hE, if_true, reconciled]
    by_cases hF : j.status = .FOREGROUND ∧ status = 0
    · simp only [hF, and_self, if_true]
      exact ⟨_, rfl, ⟨rfl, rfl, rfl, rfl, rfl, rfl, rfl⟩⟩
    · simp only [hF, if_false]
      by_cases hB : j.status = .BACKGROUND
      · simp only [hB, if_true, deref_of_heap (store_heap_self _ _ _), store_store]
        obtain ⟨t, e, pr⟩ := print_job_ok (store s p { j with
            num_processes_alive := j.num_processes_alive - 1, status := .FINISHED }) p _
            (store_heap_self _ _ _) hnames
        exact ⟨t, e, (updatesOnly_store s p _).of_prints pr⟩
      · simp only [hB, if_false]
        exact ⟨_, rfl, updatesOnly_store s p _⟩
  · simp only [hE, reconciled]
    by_cases hS : WIFSIGNALED status = true
    · simp only [hS, if_true, deref_of_heap (store_heap_self _ _ _), store_store]
      by_cases hB : j.status = .BACKGROUND
      · simp only [hB, if_true]
        exact ⟨_, rfl, ⟨rfl, rfl, rfl, rfl, rfl, rfl, rfl⟩⟩
      · simp only [hB, if_false]
        exact ⟨_, rfl, ⟨rfl, rfl, rfl, rfl, rfl, rfl, rfl⟩⟩
    · simp only [hS]
      by_cases hT : WIFSTOPPED status = true
      · simp only [hT, if_true]
        by_cases hF : j.status = .FOREGROUND
        · simp only [hF, if_true, termstate_save, bind, Except.bind, deref_of_heap hp, pure,
            Except.pure, deref_of_heap (store_heap_self _ _ _), store_store]
          by_cases hsig : WSTOPSIG status = SIGTSTP
          · simp only [hsig, if_true]
            obtain ⟨t, e, pr⟩ := print_job_ok (store s p { j with
              saved_tty_state := s.tty_attrs, status := .STOPPED }) p _
              (store_heap_self _ _ _) hnames
            exact ⟨t, e, (updatesOnly_store s p _).of_prints pr⟩
          · simp only [hsig, if_false]
            exact ⟨_, rfl, updatesOnly_store s p _⟩
        · simp only [hF, if_false, deref_of_heap hp]
          by_cases hsig : WSTOPSIG status = SIGTSTP
          · simp only [hsig, if_true]
            obtain ⟨t, e, pr⟩ := print_job_ok (store s p { j with status := .STOPPED }) p _
              (store_heap_self _ _ _) hnames
            exact ⟨t, e, (updatesOnly_store s p _).of_prints pr⟩
          · simp only [hsig, if_false]
            exact ⟨_, rfl, updatesOnly_store s p _⟩
      · simp only [hT]
        refine ⟨s, rfl, ⟨?_, rfl, rfl, rfl, rfl, rfl, rfl⟩⟩
        funext q
        by_cases h : q = p <;> simp [h, hp]

theorem find_job_of_pid_acc (s : State) (pid : Pid) :
    ∀ (l : List JobPtr) (acc : Option JobPtr),
      (∀ q ∈ l, ∃ jq, s.heap q = some jq ∧ ∀ i, i < MAXJOBS → pid_at jq i ≠ pid) →
      find_job_of_pid s pid l acc = .ok acc := by
  intro l acc h
  obtain ⟨r, e, _, hnone⟩ := find_job_of_pid_spec s pid l acc
    (fun p hp => let ⟨j, hj, _⟩ := h p hp; ⟨j, hj⟩)
  rw [e, hnone]
  intro p hp j hj
  obtain ⟨jq, hjq, hno⟩ := h p hp
  have hjj : jq = j := by rw [hjq] at hj; exact Option.some.inj hj
  subst hjj
  cases hs : pids_scan pid jq.pids MAXJOBS with
  | false => rfl
  | true =>
    obtain ⟨i, hi, hv⟩ := (pids_scan_iff pid jq.pids MAXJOBS).1 hs
    exact absurd hv (hno i hi)

theorem find_job_of_pid_append (s : State) (pid : Pid) :
    ∀ (l1 l2 : List JobPtr) (acc : Option JobPtr), (∀ q ∈ l1, ∃ jq, s.heap q = some jq) →
      ∃ acc1, find_job_of_pid s pid (l1 ++ l2) acc = find_job_of_pid s pid l2 acc1 := by
  intro l1
  induction l1 with
  | nil => intro l2 acc _; exact ⟨acc, rfl⟩
  | cons a rest ih =>
    intro l2 acc h
    obtain ⟨ja, hja⟩ := h a (List.mem_cons_self _ _)
    obtain ⟨acc1, e⟩ := ih l2 (if pids_scan pid ja.pids MAXJOBS then some a else acc)
      (fun q hq => h q (List.mem_cons_of_mem _ hq))
    refine ⟨acc1, ?_⟩
    simp only [List.cons_append, find_job_of_pid, bind, Except.bind, deref_of_heap hja]
    exact e

theorem find_job_of_owner {s : State} {p : JobPtr} {pid : Pid} (h : Owns s p pid) :
    find_job_of_pid s pid s.job_list none = .ok (some p) := by
  obtain ⟨l1, l2, j, hl, hj, hmem, h1, h2⟩ := h
  obtain ⟨acc1, e⟩ := find_job_of_pid_append s pid l1 (p :: l2) none h1
  rw [hl, e]
  simp only [find_job_of_pid, bind, Except.bind, deref_of_heap hj,
    (pids_scan_iff pid j.pids MAXJOBS).2 hmem, if_true]
  exact find_job_of_pid_acc s pid l2 (some p) h2

/-- C9: for every raw status and every pid that is in no slot of the array `pids` of any
job of `job_list`, `handle_child_status` returns normally and its result is the state it
was given with the one line `HANDLE CHILD STATUS: JOB NOT FOUND` added to the output: no
record, no slot of `jid2job`, no element of `job_list`, nothing of the terminal changes. -/
theorem handle_child_status_unknown_pid (s : State) (pid : Pid) (status : Int)
    (h : ∀ p ∈ s.job_list, ∃ j, s.heap p = some j ∧ ∀ i, i < MAXJOBS → pid_at j i ≠ pid) :
    handle_child_status s pid status =
      .ok { s with out := s.out ++ [.text "HANDLE CHILD STATUS: JOB NOT FOUND\n"] } := by
  unfold handle_child_status
  simp only [bind, Except.bind, find_job_of_pid_acc s pid s.job_list none h, pure, Except.pure]
  rfl

theorem handle_child_status_unknown_pid_witness :
    handle_child_status (single_job .STOPPED) 555 0 =
      .ok { single_job .STOPPED with
            out := (single_job .STOPPED).out ++
              [.text "HANDLE CHILD STATUS: JOB NOT FOUND\n"] } :=
  handle_child_status_unknown_pid (single_job .STOPPED) 555 0 (by
    intro p hp
    have hp0 : p = 0 := by simpa [single_job, State.init] using hp
    subst hp0
    refine ⟨_, rfl, ?_⟩
    intro i _
    cases i with
    | zero => simp [pid_at, vim_job]
    | succ k => simp [pid_at, vim_job])

/-- C10: a job that `handle_child_status` finds for a stopped event, and a job the `stop`
builtin finds when `killpg` reports that the group took the stop signal, ends with status
`STOPPED`, the same count of live members, the same members, id and pipeline, and with
`saved_tty_state` equal to the current terminal attributes when its status was
`FOREGROUND` before, and unchanged for every other status. -/
theorem stop_transition (s : State) (p : JobPtr) (j : job) (hp : s.heap p = some j)
    (hnames : j.pipe.has_names = true) :
    (∀ pid status, Owns s p pid → WIFSTOPPED status = true →
      ∃ t, handle_child_status s pid status = .ok t ∧
        t.heap p = some { j with
          status := .STOPPED
          saved_tty_state := if j.status = .FOREGROUND then s.tty_attrs
                             else j.saved_tty_state }) ∧
    (∀ a, get_job_from_jid s (atoi a) = some p →
      ∃ t, cush_stop s (some a) 0 = .ok t ∧
        t.heap p = some { j with
          status := .STOPPED
          saved_tty_state := if j.status = .FOREGROUND then s.tty_attrs
                             else j.saved_tty_state }) := by
  constructor
  · intro pid status hown hstop
    obtain ⟨t, e, u⟩ := handle_child_status_owner s pid status p j (find_job_of_owner hown)
      hp hnames
    refine ⟨t, e, ?_⟩
    obtain ⟨hE, hS⟩ := stopped_not_exited hstop
    rw [u.heap]
    simp only [if_true, reconciled, hE, hS, hstop, Bool.false_eq_true, if_false]
    by_cases hF : j.status = .FOREGROUND <;> simp [hF]
  · intro a ha
    unfold cush_stop
    simp only [ha, bind, Except.bind, deref_of_heap hp, pure, Except.pure, if_true]
    by_cases hF : j.status = .FOREGROUND
    · simp only [hF, if_true, termstate_save, bind, Except.bind, pure, Except.pure]
      have h1 : (killpg s (pid_at j 0) SIGSTOP 0).heap p = some j := hp
      simp only [deref_of_heap h1, deref_of_heap (store_heap_self _ _ _), store_store]
      exact ⟨_, rfl, by simp [store, killpg, hF]⟩
    · simp only [hF, if_false]
      have h1 : (killpg s (pid_at j 0) SIGSTOP 0).heap p = some j := hp
      simp only [deref_of_heap h1]
      exact ⟨_, rfl, by simp [store, hF]⟩

theorem stop_transition_witness :
    (∃ t, handle_child_status (single_job .FOREGROUND) 101 5247 = .ok t ∧
      t.heap 0 = some { vim_job .FOREGROUND with status := .STOPPED, saved_tty_state := 7 }) ∧
    (∃ t, cush_stop (single_job .FOREGROUND) (some "1") 0 = .ok t ∧
      t.heap 0 = some { vim_job .FOREGROUND with status := .STOPPED, saved_tty_state := 7 }) :=
  have h := stop_transition (single_job .FOREGROUND) 0 (vim_job .FOREGROUND) rfl (by decide)
  ⟨h.1 101 5247 ⟨[], [], vim_job .FOREGROUND, rfl, rfl, ⟨0, by decide, rfl⟩, by simp, by simp⟩
      (by decide),
    h.2 "1" (by decide)⟩

/-! ## Theorems: the builtins -/

theorem get_job_from_jid_none_of {s : State} {jid : Int}
    (h : jid ≤ 0 ∨ (MAXJOBS : Int) ≤ jid ∨ s.jid2job jid.toNat = none) :
    get_job_from_jid s jid = none := by
  unfold get_job_from_jid
  by_cases hr : 0 < jid ∧ jid < (MAXJOBS : Int)
  · rw [if_pos hr]
    rcases h with h | h | h
    · omega
    · omega
    · exact h
  · rw [if_neg hr]

/-- C8: when the argument of `fg`, `bg`, `stop` or `kill` is absent, or `atoi` of it is not
the id of a registered job (it is not positive, not below `MAXJOBS`, or its slot of
`jid2job` is null), the builtin returns the state it was given with only its "no such job"
message added to the output: no call of `killpg`, no change of a record, of `job_list`, of
`jid2job` or of the terminal, and `fg` does not reap. -/
theorem builtin_unknown_job (s : State) (arg : Option String) (ret : Int) (reaps : List reap)
    (h : ∀ a, arg = some a →
      atoi a ≤ 0 ∨ (MAXJOBS : Int) ≤ atoi a ∨ s.jid2job (atoi a).toNat = none) :
    cush_fg s arg ret reaps =
      .ok ({ s with out := s.out ++ [.text (match arg with
              | none => "fg: current: no such job\n"
              | some a => "fg: " ++ fmt_d (atoi a) ++ ": no such job\n")] }, reaps) ∧
    cush_bg s arg ret =
      .ok { s with out := s.out ++ [.text (match arg with
              | none => "bg: current: no such job\n"
              | some a => "bg: " ++ fmt_d (atoi a) ++ ": no such job\n")] } ∧
    cush_stop s arg ret =
      .ok { s with out := s.out ++ [.text (match arg with
              | none => "stop: no such job\n"
              | some a => "stop: " ++ fmt_d (atoi a) ++ ": no such job\n")] } ∧
    cush_kill s arg ret =
      .ok { s with out := s.out ++ [.text (match arg with
              | none => "kill: no such job\n"
              | some a => "kill: " ++ fmt_d (atoi a) ++ ": no such job\n")] } := by
  cases arg with
  | none => exact ⟨rfl, rfl, rfl, rfl⟩
  | some a =>
    have hn := get_job_from_jid_none_of (h a rfl)
    refine ⟨?_, ?_, ?_, ?_⟩
    · simp only [cush_fg, hn]; rfl
    · simp only [cush_bg, hn]; rfl
    · simp only [cush_stop, hn]; rfl
    · simp only [cush_kill, hn]; rfl

theorem builtin_unknown_job_witness :
    cush_fg (single_job .STOPPED) (some "7") 0 [] =
      .ok ({ single_job .STOPPED with
             out := (single_job .STOPPED).out ++ [.text "fg: 7: no such job\n"] }, []) ∧
    cush_bg (single_job .STOPPED) (some "7") 0 =
      .ok { single_job .STOPPED with
            out := (single_job .STOPPED).out ++ [.text "bg: 7: no such job\n"] } ∧
    cush_stop (single_job .STOPPED) (some "7") 0 =
      .ok { single_job .STOPPED with
            out := (single_job .STOPPED).out ++ [.text "stop: 7: no such job\n"] } ∧
    cush_kill (single_job .STOPPED) (some "7") 0 =
      .ok { single_job .STOPPED with
            out := (single_job .STOPPED).out ++ [.text "kill: 7: no such job\n"] } :=
  builtin_unknown_job (single_job .STOPPED) (some "7") 0 [] (by
    intro a ha
    cases ha
    exact Or.inr (Or.inr (by decide)))

/-! ## Theorems: what the operations keep -/

theorem list_remove_inv {s t : State} {p : JobPtr} (h : list_remove s p = .ok t) :
    p ∈ s.job_list ∧ t = { s with job_list := s.job_list.erase p } := by
  unfold list_remove at h
  split at h
  · rename_i hm
    simp only [Except.ok.injEq] at h
    exact ⟨hm, h.symm⟩
  · simp at h

theorem keeps_list_remove {s t : State} {p : JobPtr} (h : list_remove s p = .ok t) :
    Keeps s t := by
  obtain ⟨_, rfl⟩ := list_remove_inv h
  exact ⟨rfl, fun _ j1 h => ⟨j1, h, rfl, rfl, rfl⟩, fun _ _ h => h,
    fun q hq => List.mem_of_mem_erase hq⟩

theorem delete_job_inv {s t : State} {p : JobPtr} (h : delete_job s p = .ok t) :
    ∃ j q jq, s.heap p = some j ∧ j.jid ≠ -1 ∧ 0 ≤ j.jid ∧ j.jid < (MAXJOBS : Int) ∧
      s.jid2job j.jid.toNat = some q ∧ s.heap q = some jq ∧
      t = { set_slot (store s q { jq with jid := -1 }) j.jid.toNat none with
            heap := fun r => if r = p then none
                             else (set_slot (store s q { jq with jid := -1 })
                                    j.jid.toNat none).heap r } := by
  unfold delete_job at h
  simp only [bind, Except.bind, pure, Except.pure] at h
  cases hj : deref s p with
  | error e => simp [hj] at h
  | ok j =>
    simp only [hj] at h
    by_cases h1 : j.jid = -1
    · simp [h1, throw, throwThe, MonadExceptOf.throw] at h
    · simp only [h1, if_false] at h
      by_cases h2 : j.jid < 0 ∨ (MAXJOBS : Int) ≤ j.jid
      · simp [h2, throw, throwThe, MonadExceptOf.throw] at h
      · simp only [h2, if_false] at h
        cases hq : s.jid2job j.jid.toNat with
        | none => simp [hq, throw, throwThe, MonadExceptOf.throw] at h
        | some q =>
          simp only [hq] at h
          cases hjq : deref s q with
          | error e => simp [hjq] at h
          | ok jq =>
            simp only [hjq, Except.ok.injEq] at h
            refine ⟨j, q, jq, deref_ok.1 hj, h1, by omega, by omega, hq, deref_ok.1 hjq, h.symm⟩

theorem keeps_delete_job {s t : State} {p : JobPtr} (h : delete_job s p = .ok t) :
    Keeps s t := by
  obtain ⟨j, q, jq, hj, _, _, _, hq, hjq, rfl⟩ := delete_job_inv h
  refine ⟨rfl, ?_, ?_, fun _ h => h⟩
  · intro r j1 hr
    simp only [set_slot, store] at hr
    by_cases hrp : r = p
    · simp [hrp] at hr
    · simp only [if_neg hrp] at hr
      by_cases hrq : r = q
      · subst hrq
        simp only [if_true] at hr
        cases hr
        exact ⟨jq, hjq, rfl, rfl, rfl⟩
      · simp only [if_neg hrq] at hr
        exact ⟨j1, hr, rfl, rfl, rfl⟩
  · intro i r hi
    simp only [set_slot, store] at hi
    by_cases hij : i = j.jid.toNat
    · simp [hij] at hi
    · simpa [hij] using hi

theorem keeps_remove_delete {s t : State} {p : JobPtr}
    (h : (list_remove s p >>= fun u => delete_job u p) = .ok t) : Keeps s t := by
  simp only [bind, Except.bind] at h
  cases hu : list_remove s p with
  | error e => simp [hu] at h
  | ok u =>
    simp only [hu] at h
    exact (keeps_list_remove hu).andThen (keeps_delete_job h)

theorem keeps_removeFinishedJobs_loop :
    ∀ (fuel : Nat) (s t : State) (cnt j : Nat),
      removeFinishedJobs_loop fuel s cnt j = .ok t → Keeps s t := by
  intro fuel
  induction fuel with
  | zero =>
    intro s t cnt j h
    simp only [removeFinishedJobs_loop, Except.ok.injEq] at h
    subst h
    exact Keeps.same s
  | succ n ih =>
    intro s t cnt j h
    unfold removeFinishedJobs_loop at h
    split at h
    · split at h
      · rename_i a ha
        simp only [bind, Except.bind, pure, Except.pure] at h
        cases hd : deref s a with
        | error e => simp [hd] at h
        | ok aJob =>
          simp only [hd] at h
          by_cases hf : aJob.status = .FINISHED
          · simp only [hf, if_true] at h
            cases hu : list_remove s a with
            | error e => simp [hu] at h
            | ok u =>
              simp only [hu] at h
              cases hv : delete_job u a with
              | error e => simp [hv] at h
              | ok v =>
                simp only [hv] at h
                exact ((keeps_list_remove hu).andThen (keeps_delete_job hv)).andThen (ih _ _ _ _ h)
          · simp only [hf, if_false] at h
            exact ih _ _ _ _ h
      · exact ih _ _ _ _ h
    · simp only [Except.ok.injEq] at h
      subst h
      exact Keeps.same s

theorem keeps_removeFinishedJobs {s t : State} (h : removeFinishedJobs s = .ok t) : Keeps s t :=
  keeps_removeFinishedJobs_loop _ _ _ _ _ h

theorem onlyPrints_cush_jobs_loop :
    ∀ (fuel : Nat) (s t : State) (cnt i : Nat),
      cush_jobs_loop fuel s cnt i = .ok t → OnlyPrints s t := by
  intro fuel
  induction fuel with
  | zero =>
    intro s t cnt i h
    simp only [cush_jobs_loop, Except.ok.injEq] at h
    subst h
    exact OnlyPrints.nothing s
  | succ n ih =>
    intro s t cnt i h
    unfold cush_jobs_loop at h
    split at h
    · split at h
      · rename_i a ha
        simp only [bind, Except.bind] at h
        cases hd : print_job s a with
        | error e => simp [hd] at h
        | ok u =>
          simp only [hd] at h
          exact (print_job_prints hd).more (ih _ _ _ _ h)
      · exact ih _ _ _ _ h
    · simp only [Except.ok.injEq] at h
      subst h
      exact OnlyPrints.nothing s

theorem keeps_cush_bg {s t : State} {arg : Option String} {ret : Int}
    (h : cush_bg s arg ret = .ok t) : Keeps s t := by
  cases arg with
  | none =>
    simp only [cush_bg, Except.ok.injEq] at h; subst h; exact keeps_printf s _
  | some a =>
    cases hg : get_job_from_jid s (atoi a) with
    | none =>
      simp only [cush_bg, hg, Except.ok.injEq] at h; subst h; exact keeps_printf s _
    | some p =>
      simp only [cush_bg, hg, bind, Except.bind, pure, Except.pure] at h
      cases hd : deref s p with
      | error e => simp [hd] at h
      | ok j =>
        simp only [hd] at h
        cases hc : print_cmdline s j.pipe with
        | error e => simp [hc] at h
        | ok s1 =>
          simp only [hc] at h
          have k1 : Keeps s (killpg (printf s1 "\n") (pid_at j 0) SIGCONT ret) :=
            ((print_cmdline_prints hc).keeps.andThen (keeps_printf s1 _)).andThen (keeps_killpg _ _ _ _)
          by_cases hr : ret = 0
          · simp only [hr, if_true] at h
            subst hr
            cases hd2 : deref (killpg (printf s1 "\n") (pid_at j 0) SIGCONT 0) p with
            | error e => simp [hd2] at h
            | ok j2 =>
              simp only [hd2, Except.ok.injEq] at h
              subst h
              exact k1.andThen (keeps_store (deref_ok.1 hd2) rfl rfl rfl)
          · simp only [hr, if_false, Except.ok.injEq] at h
            subst h
            exact k1

theorem keeps_cush_stop {s t : State} {arg : Option String} {ret : Int}
    (h : cush_stop s arg ret = .ok t) : Keeps s t := by
  cases arg with
  | none =>
    simp only [cush_stop, Except.ok.injEq] at h; subst h; exact keeps_printf s _
  | some a =>
    cases hg : get_job_from_jid s (atoi a) with
    | none =>
      simp only [cush_stop, hg, Except.ok.injEq] at h; subst h; exact keeps_printf s _
    | some p =>
      simp only [cush_stop, hg, bind, Except.bind, pure, Except.pure] at h
      cases hd : deref s p with
      | error e => simp [hd] at h
      | ok j =>
        simp only [hd] at h
        have k1 : Keeps s (killpg s (pid_at j 0) SIGSTOP ret) := keeps_killpg _ _ _ _
        by_cases hr : ret = 0
        · simp only [hr, if_true] at h
          subst hr
          have hd1 : deref (killpg s (pid_at j 0) SIGSTOP 0) p = .ok j := hd
          by_cases hF : j.status = .FOREGROUND
          · simp only [hF, if_true, termstate_save, bind, Except.bind, pure, Except.pure, hd1,
              deref_of_heap (store_heap_self _ _ _), store_store, Except.ok.injEq] at h
            subst h
            exact k1.andThen (keeps_store (deref_ok.1 hd1) rfl rfl rfl)
          · simp only [hF, if_false, hd1, Except.ok.injEq] at h
            subst h
            exact k1.andThen (keeps_store (deref_ok.1 hd1) rfl rfl rfl)
        · simp only [hr, if_false, Except.ok.injEq] at h
          subst h
          exact k1

theorem keeps_cush_kill {s t : State} {arg : Option String} {ret : Int}
    (h : cush_kill s arg ret = .ok t) : Keeps s t := by
  cases arg with
  | none =>
    simp only [cush_kill, Except.ok.injEq] at h; subst h; exact keeps_printf s _
  | some a =>
    cases hg : get_job_from_jid s (atoi a) with
    | none =>
      simp only [cush_kill, hg, Except.ok.injEq] at h; subst h; exact keeps_printf s _
    | some p =>
      simp only [cush_kill, hg, bind, Except.bind, pure, Except.pure] at h
      cases hd : deref s p with
      | error e => simp [hd] at h
      | ok j =>
        simp only [hd] at h
        have k1 : Keeps s (killpg s (pid_at j 0) SIGTERM ret) := keeps_killpg _ _ _ _
        by_cases hr : ret = 0
        · subst hr
          simp only [if_true] at h
          exact k1.andThen (keeps_remove_delete (by
            simp only [bind, Except.bind]
            exact h))
        · simp only [hr, if_false, Except.ok.injEq] at h
          subst h
          exact k1

theorem keeps_cush_fg_resume {s t : State} {p : JobPtr} {ret : Int} {b : Bool}
    (h : cush_fg_resume s p ret = .ok (t, b)) : Keeps s t := by
  unfold cush_fg_resume at h
  simp only [bind, Except.bind, pure, Except.pure] at h
  cases hd : deref s p with
  | error e => simp [hd] at h
  | ok j =>
    simp only [hd] at h
    have k0 : Keeps s { { s with tty_attrs := j.saved_tty_state } with tty_pgrp := pid_at j 0 } :=
      ⟨rfl, fun _ j1 h => ⟨j1, h, rfl, rfl, rfl⟩, fun _ _ h => h, fun _ h => h⟩
    cases hc : print_cmdline { { s with tty_attrs := j.saved_tty_state } with
        tty_pgrp := pid_at j 0 } j.pipe with
    | error e => simp [hc] at h
    | ok s3 =>
      simp only [hc] at h
      have k1 : Keeps s (killpg (printf s3 "\n") (pid_at j 0) SIGCONT ret) :=
        ((k0.andThen (print_cmdline_prints hc).keeps).andThen (keeps_printf s3 _)).andThen
          (keeps_killpg _ _ _ _)
      by_cases hr : ret = 0
      · simp only [hr, if_true] at h
        subst hr
        cases hd2 : deref (killpg (printf s3 "\n") (pid_at j 0) SIGCONT 0) p with
        | error e => simp [hd2] at h
        | ok j2 =>
          simp only [hd2, Except.ok.injEq, Prod.mk.injEq] at h
          obtain ⟨h, _⟩ := h
          subst h
          have k2 : Keeps s (store (killpg (printf s3 "\n") (pid_at j 0) SIGCONT 0) p
              { j2 with status := .FOREGROUND }) :=
            k1.andThen (keeps_store (deref_ok.1 hd2) rfl rfl rfl)
          exact k2.andThen
            ⟨rfl, fun _ j1 h => ⟨j1, h, rfl, rfl, rfl⟩, fun _ _ h => h, fun _ h => h⟩
      · simp only [hr, if_false, Except.ok.injEq, Prod.mk.injEq] at h
        obtain ⟨h, _⟩ := h
        subst h
        exact k1

theorem find_job_of_pid_inv (s : State) (pid : Pid) :
    ∀ (l : List JobPtr) (acc r : Option JobPtr), find_job_of_pid s pid l acc = .ok r →
      r = acc ∨ ∃ p j, r = some p ∧ p ∈ l ∧ s.heap p = some j ∧
        pids_scan pid j.pids MAXJOBS = true := by
  intro l
  induction l with
  | nil =>
    intro acc r h
    simp only [find_job_of_pid, Except.ok.injEq] at h
    exact Or.inl h.symm
  | cons a rest ih =>
    intro acc r h
    simp only [find_job_of_pid, bind, Except.bind] at h
    cases hd : deref s a with
    | error e => simp [hd] at h
    | ok ja =>
      simp only [hd] at h
      rcases ih _ _ h with hr | ⟨p, j, h1, h2, h3, h4⟩
      · by_cases hs : pids_scan pid ja.pids MAXJOBS = true
        · right
          exact ⟨a, ja, by simpa [hs] using hr, List.mem_cons_self _ _, deref_ok.1 hd, hs⟩
        · left
          simpa [hs] using hr
      · right
        exact ⟨p, j, h1, List.mem_cons_of_mem _ h2, h3, h4⟩

/-- Whenever the reconciler returns, either it found no job and only printed its note, or
it found the job at `p`, whose array holds the pid, and the record at `p` became
`reconciled` while the rest of the registry stayed. -/
theorem handle_child_status_inv {s t : State} {pid : Pid} {status : Int}
    (h : handle_child_status s pid status = .ok t) :
    t = printf s "HANDLE CHILD STATUS: JOB NOT FOUND\n" ∨
    ∃ p j, s.heap p = some j ∧ p ∈ s.job_list ∧ pids_scan pid j.pids MAXJOBS = true ∧
      UpdatesOnly s t p (reconciled j status s.tty_attrs) := by
  unfold handle_child_status at h
  simp only [bind, Except.bind, pure, Except.pure] at h
  cases hf : find_job_of_pid s pid s.job_list none with
  | error e => simp [hf] at h
  | ok r =>
    simp only [hf] at h
    cases r with
    | none =>
      simp only [Except.ok.injEq] at h
      exact Or.inl h.symm
    | some p =>
      right
      rcases find_job_of_pid_inv s pid _ _ _ hf with hr | ⟨p1, j, h1, h2, h3, h4⟩
      · cases hr
      · cases h1
        refine ⟨p, j, h3, h2, h4, ?_⟩
        simp only [deref_of_heap h3] at h
        by_cases hE : WIFEXITED status = true
        · simp only [hE, if_true, reconciled] at h ⊢
          by_cases hF : j.status = .FOREGROUND ∧ status = 0
          · simp only [hF, and_self, if_true, Except.ok.injEq] at h ⊢
            subst h
            exact ⟨rfl, rfl, rfl, rfl, rfl, rfl, rfl⟩
          · simp only [hF, if_false] at h ⊢
            by_cases hB : j.status = .BACKGROUND
            · simp only [hB, if_true, deref_of_heap (store_heap_self _ _ _), store_store] at h ⊢
              exact (updatesOnly_store s p _).of_prints (print_job_prints h)
            · simp only [hB, if_false, Except.ok.injEq] at h ⊢
              subst h
              exact updatesOnly_store s p _
        · simp only [hE, reconciled, Bool.false_eq_true, if_false] at h ⊢
          by_cases hS : WIFSIGNALED status = true
          · simp only [hS, if_true, deref_of_heap (store_heap_self _ _ _), store_store] at h ⊢
            by_cases hB : j.status = .BACKGROUND
            · simp only [hB, if_true, Except.ok.injEq] at h ⊢
              subst h
              exact ⟨rfl, rfl, rfl, rfl, rfl, rfl, rfl⟩
            · simp only [hB, if_false, Except.ok.injEq] at h ⊢
              subst h
              exact ⟨rfl, rfl, rfl, rfl, rfl, rfl, rfl⟩
          · simp only [hS, Bool.false_eq_true, if_false] at h ⊢
            by_cases hT : WIFSTOPPED status = true
            · simp only [hT, if_true] at h ⊢
              by_cases hF : j.status = .FOREGROUND
              · simp only [hF, if_true, termstate_save, bind, Except.bind, deref_of_heap h3, pure,
                  Except.pure, deref_of_heap (store_heap_self _ _ _), store_store] at h ⊢
                by_cases hsig : WSTOPSIG status = SIGTSTP
                · simp only [hsig, if_true] at h
                  exact (updatesOnly_store s p _).of_prints (print_job_prints h)
                · simp only [hsig, if_false, Except.ok.injEq] at h
                  subst h
                  exact updatesOnly_store s p _
              · simp only [hF, if_false, deref_of_heap h3] at h ⊢
                by_cases hsig : WSTOPSIG status = SIGTSTP
                · simp only [hsig, if_true] at h
                  exact (updatesOnly_store s p _).of_prints (print_job_prints h)
                · simp only [hsig, if_false, Except.ok.injEq] at h
                  subst h
                  exact updatesOnly_store s p _
            · simp only [hT, Bool.false_eq_true, if_false, Except.ok.injEq] at h ⊢
              subst h
              refine ⟨?_, rfl, rfl, rfl, rfl, rfl, rfl⟩
              funext q
              by_cases hq : q = p <;> simp [hq, h3]

theorem reconciled_pids (j : job) (status : Int) (attrs : termios) :
    (reconciled j status attrs).pids = j.pids := by
  unfold reconciled
  repeat' split
  all_goals rfl

theorem reconciled_pipe (j : job) (status : Int) (attrs : termios) :
    (reconciled j status attrs).pipe = j.pipe := by
  unfold reconciled
  repeat' split
  all_goals rfl

theorem reconciled_alive (j : job) (status : Int) (attrs : termios) :
    (reconciled j status attrs).num_processes_alive =
      if WIFEXITED status || WIFSIGNALED status then j.num_processes_alive - 1
      else j.num_processes_alive := by
  unfold reconciled
  by_cases hE : WIFEXITED status = true
  · simp only [hE, if_true, Bool.true_or]
    repeat' split
    all_goals rfl
  · by_cases hS : WIFSIGNALED status = true
    · simp only [hE, hS, if_true, Bool.or_true]
      repeat' split
      all_goals rfl
    · simp only [hE, hS, Bool.or_self]
      repeat' split
      all_goals rfl

/-- Whenever `register_child` returns, the record at `p` got the child in the first free
slot of `pids` and one more live member; the rest of the registry stayed. -/
theorem register_child_inv {s t : State} {p : JobPtr} {bg : Bool} {pid : Pid}
    (h : register_child s p bg pid = .ok t) :
    ∃ j j1, s.heap p = some j ∧ 0 ≤ findEmptyPIDSlot j ∧
      j1.pids = pids_set j.pids (findEmptyPIDSlot j).toNat pid ∧
      j1.num_processes_alive = j.num_processes_alive + 1 ∧ j1.pipe = j.pipe ∧ j1.jid = j.jid ∧
      t.heap = (fun q => if q = p then some j1 else s.heap q) ∧ t.brk = s.brk ∧
      t.job_list = s.job_list ∧ t.jid2job = s.jid2job := by
  unfold register_child at h
  simp only [bind, Except.bind, pure, Except.pure] at h
  cases hd : deref s p with
  | error e => simp [hd] at h
  | ok j =>
    simp only [hd] at h
    by_cases hi : findEmptyPIDSlot j < 0
    · simp [hi, throw, throwThe, MonadExceptOf.throw] at h
    · simp only [hi, if_false] at h
      cases bg with
      | false =>
        simp only [Bool.false_eq_true, if_false, Except.ok.injEq] at h
        subst h
        exact ⟨j, { j with pids := pids_set j.pids (findEmptyPIDSlot j).toNat pid,
                           num_processes_alive := j.num_processes_alive + 1 },
          deref_ok.1 hd, by omega, rfl, rfl, rfl, rfl, rfl, rfl, rfl, rfl⟩
      | true =>
        simp only [if_true, store_store] at h
        have hd3 : deref (printf (store s p
            { j with pids := pids_set j.pids (findEmptyPIDSlot j).toNat pid,
                     num_processes_alive := j.num_processes_alive + 1,
                     status := .BACKGROUND })
            ("[" ++ fmt_u j.jid ++ "] " ++ fmt_u pid ++ "\n")) p =
            .ok { j with pids := pids_set j.pids (findEmptyPIDSlot j).toNat pid,
                         num_processes_alive := j.num_processes_alive + 1,
                         status := .BACKGROUND } :=
          deref_of_heap (by simp [printf, emit, store])
        simp only [hd3, Except.ok.injEq] at h
        subst h
        refine ⟨j, { j with pids := pids_set j.pids (findEmptyPIDSlot j).toNat pid,
                            num_processes_alive := j.num_processes_alive + 1,
                            status := .BACKGROUND, saved_tty_state := s.tty_attrs },
          deref_ok.1 hd, by omega, rfl, rfl, rfl, rfl, ?_, rfl, rfl, rfl⟩
        funext q
        by_cases hq : q = p <;> simp [printf, emit, store, hq]

theorem add_job_inv {s t : State} {pipe : ast_pipeline} {p : JobPtr}
    (h : add_job s pipe = .ok (t, p)) :
    ∃ i, p = s.brk ∧ 1 ≤ i ∧ i < MAXJOBS ∧ s.jid2job i = none ∧
      t.heap = (fun q => if q = s.brk then some { fresh_job pipe with jid := (i : Int) }
                         else s.heap q) ∧
      t.brk = s.brk + 1 ∧ t.job_list = s.job_list ++ [s.brk] ∧
      t.jid2job = (fun k => if k = i then some s.brk else s.jid2job k) := by
  cases hs : add_job_scan s.jid2job 1 (MAXJOBS - 1) with
  | none =>
    have : add_job s pipe = .error .aborted := by
      unfold add_job
      simp only [list_push_back, store]
      rw [hs]
    rw [this] at h
    cases h
  | some i =>
    rw [add_job_of_scan s pipe i hs] at h
    simp only [Except.ok.injEq, Prod.mk.injEq] at h
    obtain ⟨h1, h2⟩ := h
    obtain ⟨a1, a2, a3, _⟩ := add_job_scan_some _ _ _ hs
    have hM : 1 + (MAXJOBS - 1) = MAXJOBS := by decide
    refine ⟨i, h2.symm, a1, by omega, a3, ?_, ?_, ?_, ?_⟩
    · subst h1
      funext q
      by_cases hq : q = s.brk <;> simp [store, set_slot, list_push_back, hq]
    · subst h1; rfl
    · subst h1; rfl
    · subst h1; rfl

/-! ## Theorems: accounting of live members -/

theorem countP_le_of_imp {α : Type} (p q : α → Bool) :
    ∀ l : List α, (∀ x ∈ l, p x = true → q x = true) → l.countP p ≤ l.countP q := by
  intro l
  induction l with
  | nil => intro _; simp
  | cons a r ih =>
    intro h
    have hr := ih (fun x hx => h x (List.mem_cons_of_mem _ hx))
    have ha := h a (List.mem_cons_self _ _)
    simp only [List.countP_cons]
    cases hp : p a <;> cases hq : q a
    · simpa using hr
    · simp only [Bool.false_eq_true, if_false, if_true]; omega
    · rw [hp] at ha; exact absurd (ha rfl) (by simp [hq])
    · simpa using hr

theorem countP_lt_of_mem {α : Type} (p q : α → Bool) (a : α) :
    ∀ l : List α, (∀ x ∈ l, p x = true → q x = true) → a ∈ l → p a = false → q a = true →
      l.countP p + 1 ≤ l.countP q := by
  intro l
  induction l with
  | nil => intro _ h; simp at h
  | cons b r ih =>
    intro h hmem hpa hqa
    have himp := fun x hx => h x (List.mem_cons_of_mem _ hx)
    simp only [List.countP_cons]
    by_cases hab : a = b
    · subst hab
      have := countP_le_of_imp p q r himp
      simp only [hpa, hqa, if_true, Bool.false_eq_true, if_false]
      omega
    · have hr : a ∈ r := by
        rcases List.mem_cons.1 hmem with h1 | h1
        · exact absurd h1 hab
        · exact h1
      have h3 := ih himp hr hpa hqa
      have hb := h b (List.mem_cons_self _ _)
      cases hp : p b <;> cases hq : q b
      · simpa using h3
      · simp only [Bool.false_eq_true, if_false, if_true]; omega
      · rw [hp] at hb; exact absurd (hb rfl) (by simp [hq])
      · simpa using h3

theorem countP_set_le {α : Type} (p : α → Bool) (v : α) :
    ∀ (l : List α) (i : Nat), (l.set i v).countP p ≤ l.countP p + 1 := by
  intro l
  induction l with
  | nil => intro i; simp
  | cons a r ih =>
    intro i
    cases i with
    | zero =>
      simp only [List.set_cons_zero, List.countP_cons]
      split <;> split <;> omega
    | succ k =>
      have := ih k
      simp only [List.set_cons_succ, List.countP_cons]
      split <;> omega

theorem live_members_pids_set (live : List Pid) (l : List Pid) (i : Nat) (pid : Pid)
    (h0 : ∀ x ∈ live, x ≠ 0) (hpid : pid ≠ 0) (hnew : pid ∉ l) :
    (pids_set l i pid).countP (fun x => decide (x ∈ pid :: live)) ≤
      l.countP (fun x => decide (x ∈ live)) + 1 := by
  have hsame : l.countP (fun x => decide (x ∈ pid :: live)) ≤
      l.countP (fun x => decide (x ∈ live)) := by
    apply countP_le_of_imp
    intro x hx hmem
    simp only [decide_eq_true_eq, List.mem_cons] at hmem ⊢
    rcases hmem with h1 | h1
    · exact absurd (h1 ▸ hx) hnew
    · exact h1
  unfold pids_set
  split
  · exact (countP_set_le _ pid l i).trans (by omega)
  · have hz : (List.replicate (i - l.length) (0 : Pid)).countP
        (fun x => decide (x ∈ pid :: live)) = 0 := by
      rw [List.countP_eq_zero]
      intro x hx
      have hx0 : x = 0 := (List.mem_replicate.1 hx).2
      subst hx0
      simp only [decide_eq_true_eq, List.mem_cons, not_or]
      exact ⟨fun e => hpid e.symm, fun hm => h0 0 hm rfl⟩
    simp only [List.countP_append, hz, List.countP_cons, List.countP_nil]
    split <;> omega

theorem reachable_accounted : ∀ w, Reachable w → Accounted w := by
  intro w hw
  induction hw with
  | init attrs pgrp =>
    exact ⟨List.nodup_nil, fun x hx => by simp at hx, fun q j h => by simp [State.init] at h,
      fun q j h => by simp [State.init] at h⟩
  | step w op w1 _ hal hap ih =>
    have keep : ∀ t : State, Keeps w.st t → Accounted { w with st := t } := by
      intro t k
      refine ⟨ih.nodup, ih.nonzero, ?_, ?_⟩
      · intro q j1 h
        obtain ⟨j, hj, _, _, _⟩ := k.heap q j1 h
        have := ih.below q j hj
        show q < t.brk
        rw [k.brk]
        exact this
      · intro q j1 h
        obtain ⟨j, hj, a1, _, a3⟩ := k.heap q j1 h
        have := ih.counted q j hj
        show (live_members w.live j1 : Int) ≤ _
        unfold live_members at this ⊢
        rw [a1, a3]
        exact this
    cases op with
    | launch pipe =>
      simp only [Op.apply] at hap
      cases ha : add_job w.st pipe with
      | error e => simp [ha, Except.map] at hap
      | ok r =>
        obtain ⟨t, p⟩ := r
        simp only [ha, Except.map, Except.ok.injEq] at hap
        subst hap
        obtain ⟨i, _, _, _, _, hheap, hbrk, _, _⟩ := add_job_inv ha
        refine ⟨ih.nodup, ih.nonzero, ?_, ?_⟩
        · intro q j h
          show q < t.brk
          rw [hbrk]
          simp only [hheap] at h
          by_cases hq : q = w.st.brk
          · rw [hq]; exact Nat.lt_succ_self _
          · simp only [if_neg hq] at h
            exact Nat.lt_succ_of_lt (ih.below q j h)
        · intro q j h
          simp only [hheap] at h
          by_cases hq : q = w.st.brk
          · simp only [hq, if_true, Option.some.injEq] at h
            subst h
            simp [live_members, fresh_job]
          · simp only [if_neg hq] at h
            exact ih.counted q j h
    | spawned p bg pid =>
      simp only [Op.allowed, Bool.and_eq_true, decide_eq_true_eq] at hal
      obtain ⟨⟨hpos, hnl⟩, hun⟩ := hal
      simp only [Op.apply] at hap
      cases hr : register_child w.st p bg pid with
      | error e => simp [hr, Except.map] at hap
      | ok t =>
        simp only [hr, Except.map, Except.ok.injEq] at hap
        subst hap
        obtain ⟨j, j1, hj, _, hpids, halive, _, _, hheap, hbrk, _, _⟩ := register_child_inv hr
        have hfresh : ∀ q jq, w.st.heap q = some jq → pid ∉ jq.pids := by
          intro q jq hq
          have hlt := ih.below q jq hq
          unfold unrecorded at hun
          rw [List.all_eq_true] at hun
          have := hun q (List.mem_range.2 hlt)
          simp only [hq, decide_eq_true_eq] at this
          exact this
        refine ⟨List.nodup_cons.2 ⟨hnl, ih.nodup⟩, ?_, ?_, ?_⟩
        · intro x hx
          rcases List.mem_cons.1 hx with h1 | h1
          · rw [h1]; exact ne_of_gt hpos
          · exact ih.nonzero x h1
        · intro q jq h
          show q < t.brk
          rw [hbrk]
          simp only [hheap] at h
          by_cases hq : q = p
          · subst hq; exact ih.below q j hj
          · simp only [if_neg hq] at h
            exact ih.below q jq h
        · intro q jq h
          simp only [hheap] at h
          show (live_members (pid :: w.live) jq : Int) ≤ _
          by_cases hq : q = p
          · simp only [hq, if_true, Option.some.injEq] at h
            subst h
            have h1 := live_members_pids_set w.live j.pids (findEmptyPIDSlot j).toNat pid
              ih.nonzero (ne_of_gt hpos) (hfresh p j hj)
            have h2 := ih.counted p j hj
            unfold live_members at h2 ⊢
            rw [hpids, halive]
            omega
          · simp only [if_neg hq] at h
            have h2 := ih.counted q jq h
            have h3 : live_members (pid :: w.live) jq ≤ live_members w.live jq := by
              apply countP_le_of_imp
              intro x hx hmem
              simp only [decide_eq_true_eq, List.mem_cons] at hmem ⊢
              rcases hmem with h1 | h1
              · exact absurd (h1 ▸ hx) (hfresh q jq h)
              · exact h1
            omega
    | child pid status =>
      simp only [Op.allowed, Bool.or_eq_true, Bool.not_eq_true', decide_eq_true_eq] at hal
      simp only [Op.apply] at hap
      cases hr : handle_child_status w.st pid status with
      | error e => simp [hr, Except.map] at hap
      | ok t =>
        simp only [hr, Except.map, Except.ok.injEq] at hap
        subst hap
        have hsub : ∀ x, x ∈ (if (WIFEXITED status || WIFSIGNALED status) = true
            then w.live.erase pid else w.live) → x ∈ w.live := by
          intro x hx
          split at hx
          · exact List.mem_of_mem_erase hx
          · exact hx
        have hmono : ∀ jq : job, live_members (if (WIFEXITED status || WIFSIGNALED status) = true
            then w.live.erase pid else w.live) jq ≤ live_members w.live jq := by
          intro jq
          apply countP_le_of_imp
          intro x _ hmem
          simp only [decide_eq_true_eq] at hmem ⊢
          exact hsub x hmem
        have hnd : (if (WIFEXITED status || WIFSIGNALED status) = true
            then w.live.erase pid else w.live).Nodup := by
          split
          · exact ih.nodup.erase pid
          · exact ih.nodup
        rcases handle_child_status_inv hr with hnf | ⟨p, j, hj, _, hscan, u⟩
        · refine ⟨hnd, fun x hx => ih.nonzero x (hsub x hx), ?_, ?_⟩
          · intro q jq h
            subst hnf
            exact ih.below q jq h
          · intro q jq h
            subst hnf
            exact (Int.ofNat_le.2 (hmono jq)).trans (ih.counted q jq h)
        · refine ⟨hnd, fun x hx => ih.nonzero x (hsub x hx), ?_, ?_⟩
          · intro q jq h
            show q < t.brk
            rw [u.brk]
            simp only [u.heap] at h
            by_cases hq : q = p
            · subst hq; exact ih.below q j hj
            · simp only [if_neg hq] at h
              exact ih.below q jq h
          · intro q jq h
            simp only [u.heap] at h
            show (live_members _ jq : Int) ≤ _
            by_cases hq : q = p
            · simp only [hq, if_true, Option.some.injEq] at h
              subst h
              have h2 := ih.counted p j hj
              rw [reconciled_alive]
              unfold live_members at h2 ⊢
              rw [reconciled_pids]
              by_cases hx : (WIFEXITED status || WIFSIGNALED status) = true
              · simp only [hx, if_true]
                have hlive : pid ∈ w.live := by
                  rcases hal with h1 | h1
                  · rw [h1] at hx; cases hx
                  · exact h1
                have hne : pid ≠ 0 := ih.nonzero pid hlive
                have hmem : pid ∈ j.pids := pids_scan_mem hscan hne
                have := countP_lt_of_mem (fun x => decide (x ∈ w.live.erase pid))
                  (fun x => decide (x ∈ w.live)) pid j.pids
                  (fun x _ hm => by
                    simp only [decide_eq_true_eq] at hm ⊢
                    exact List.mem_of_mem_erase hm)
                  hmem
                  (by simp only [decide_eq_false_iff_not]
                      exact fun hm => (List.Nodup.mem_erase_iff ih.nodup).1 hm |>.1 rfl)
                  (by simpa using hlive)
                omega
              · simp only [hx]
                exact h2
            · simp only [if_neg hq] at h
              exact (Int.ofNat_le.2 (hmono jq)).trans (ih.counted q jq h)
    | bg arg ret =>
      simp only [Op.apply] at hap
      cases hr : cush_bg w.st arg ret with
      | error e => simp [hr, Except.map] at hap
      | ok t =>
        simp only [hr, Except.map, Except.ok.injEq] at hap
        subst hap
        exact keep t (keeps_cush_bg hr)
    | stop arg ret =>
      simp only [Op.apply] at hap
      cases hr : cush_stop w.st arg ret with
      | error e => simp [hr, Except.map] at hap
      | ok t =>
        simp only [hr, Except.map, Except.ok.injEq] at hap
        subst hap
        exact keep t (keeps_cush_stop hr)
    | kill arg ret =>
      simp only [Op.apply] at hap
      cases hr : cush_kill w.st arg ret with
      | error e => simp [hr, Except.map] at hap
      | ok t =>
        simp only [hr, Except.map, Except.ok.injEq] at hap
        subst hap
        exact keep t (keeps_cush_kill hr)
    | fg_resume p ret =>
      simp only [Op.apply] at hap
      cases hr : cush_fg_resume w.st p ret with
      | error e => simp [hr, Except.map] at hap
      | ok r =>
        obtain ⟨t, b⟩ := r
        simp only [hr, Except.map, Except.ok.injEq] at hap
        subst hap
        exact keep t (keeps_cush_fg_resume hr)
    | jobs =>
      simp only [Op.apply] at hap
      cases hr : cush_jobs w.st with
      | error e => simp [hr, Except.map] at hap
      | ok t =>
        simp only [hr, Except.map, Except.ok.injEq] at hap
        subst hap
        exact keep t (onlyPrints_cush_jobs_loop _ _ _ _ _ hr).keeps
    | delete p =>
      simp only [Op.apply] at hap
      cases hr : (list_remove w.st p >>= fun t => delete_job t p) with
      | error e => simp [hr, Except.map] at hap
      | ok t =>
        simp only [hr, Except.map, Except.ok.injEq] at hap
        subst hap
        exact keep t (keeps_remove_delete hr)
    | collect =>
      simp only [Op.apply] at hap
      cases hr : removeFinishedJobs w.st with
      | error e => simp [hr, Except.map] at hap
      | ok t =>
        simp only [hr, Except.map, Except.ok.injEq] at hap
        subst hap
        exact keep t (keeps_removeFinishedJobs hr)
    | reclaim =>
      simp only [Op.apply, Except.ok.injEq] at hap
      subst hap
      exact keep _ ⟨rfl, fun _ j1 h => ⟨j1, h, rfl, rfl, rfl⟩, fun _ _ h => h, fun _ h => h⟩
    | tty attrs =>
      simp only [Op.apply, Except.ok.injEq] at hap
      subst hap
      exact keep _ ⟨rfl, fun _ j1 h => ⟨j1, h, rfl, rfl, rfl⟩, fun _ _ h => h, fun _ h => h⟩
    | print o =>
      simp only [Op.apply, Except.ok.injEq] at hap
      subst hap
      exact keep _ (keeps_emit _ o)

theorem reachable_run : ∀ (ops : List Op) (w w1 : World), Reachable w →
    run_allowed w ops = true → run w ops = .ok w1 → Reachable w1 := by
  intro ops
  induction ops with
  | nil =>
    intro w w1 hw _ h
    simp only [run, Except.ok.injEq] at h
    exact h ▸ hw
  | cons op rest ih =>
    intro w w1 hw hal h
    simp only [run_allowed, Bool.and_eq_true] at hal
    simp only [run, bind, Except.bind] at h
    cases ha : op.apply w with
    | error e => simp [ha] at h
    | ok w2 =>
      simp only [ha] at h hal
      exact ih w2 w1 (Reachable.step w op w2 hw hal.1 ha) hal.2 h

theorem keeps_alive_le {s t : State} (k : Keeps s t) (q : JobPtr) (j j1 : job)
    (h : s.heap q = some j) (h1 : t.heap q = some j1) :
    j1.num_processes_alive ≤ j.num_processes_alive := by
  obtain ⟨j2, hj2, _, _, a3⟩ := k.heap q j1 h1
  rw [h] at hj2
  cases hj2
  exact le_of_eq a3

/-- An operation that does not register a spawned child raises the count of no job. -/
theorem step_alive_le (w : World) (op : Op) (w1 : World) (hw : Accounted w)
    (hop : op.spawns = false) (hap : op.apply w = .ok w1) (q : JobPtr) (j j1 : job)
    (h : w.st.heap q = some j) (h1 : w1.st.heap q = some j1) :
    j1.num_processes_alive ≤ j.num_processes_alive := by
  cases op with
  | launch pipe =>
    simp only [Op.apply] at hap
    cases ha : add_job w.st pipe with
    | error e => simp [ha, Except.map] at hap
    | ok r =>
      obtain ⟨t, p⟩ := r
      simp only [ha, Except.map, Except.ok.injEq] at hap
      subst hap
      obtain ⟨i, _, _, _, _, hheap, _, _, _⟩ := add_job_inv ha
      have hq : q ≠ w.st.brk := fun e => absurd (hw.below q j h) (e ▸ Nat.lt_irrefl _)
      have h2 : t.heap q = some j1 := h1
      rw [hheap] at h2
      simp only [if_neg hq] at h2
      rw [h] at h2
      cases h2
      exact le_refl _
  | spawned p bg pid => simp [Op.spawns] at hop
  | child pid status =>
    simp only [Op.apply] at hap
    cases hr : handle_child_status w.st pid status with
    | error e => simp [hr, Except.map] at hap
    | ok t =>
      simp only [hr, Except.map, Except.ok.injEq] at hap
      subst hap
      have h2 : t.heap q = some j1 := h1
      rcases handle_child_status_inv hr with hnf | ⟨p, jp, hj, _, _, u⟩
      · subst hnf
        have h3 : w.st.heap q = some j1 := h2
        rw [h] at h3
        cases h3
        exact le_refl _
      · rw [u.heap] at h2
        by_cases hq : q = p
        · subst hq
          simp only [if_true, Option.some.injEq] at h2
          rw [h] at hj
          cases hj
          subst h2
          rw [reconciled_alive]
          split
          · exact Int.sub_le_self _ (by decide)
          · exact le_refl _
        · simp only [if_neg hq] at h2
          rw [h] at h2
          cases h2
          exact le_refl _
  | bg arg ret =>
    simp only [Op.apply] at hap
    cases hr : cush_bg w.st arg ret with
    | error e => simp [hr, Except.map] at hap
    | ok t =>
      simp only [hr, Except.map, Except.ok.injEq] at hap
      subst hap
      exact keeps_alive_le (keeps_cush_bg hr) q j j1 h h1
  | stop arg ret =>
    simp only [Op.apply] at hap
    cases hr : cush_stop w.st arg ret with
    | error e => simp [hr, Except.map] at hap
    | ok t =>
      simp only [hr, Except.map, Except.ok.injEq] at hap
      subst hap
      exact keeps_alive_le (keeps_cush_stop hr) q j j1 h h1
  | kill arg ret =>
    simp only [Op.apply] at hap
    cases hr : cush_kill w.st arg ret with
    | error e => simp [hr, Except.map] at hap
    | ok t =>
      simp only [hr, Except.map, Except.ok.injEq] at hap
      subst hap
      exact keeps_alive_le (keeps_cush_kill hr) q j j1 h h1
  | fg_resume p ret =>
    simp only [Op.apply] at hap
    cases hr : cush_fg_resume w.st p ret with
    | error e => simp [hr, Except.map] at hap
    | ok r =>
      obtain ⟨t, b⟩ := r
      simp only [hr, Except.map, Except.ok.injEq] at hap
      subst hap
      exact keeps_alive_le (keeps_cush_fg_resume hr) q j j1 h h1
  | jobs =>
    simp only [Op.apply] at hap
    cases hr : cush_jobs w.st with
    | error e => simp [hr, Except.map] at hap
    | ok t =>
      simp only [hr, Except.map, Except.ok.injEq] at hap
      subst hap
      exact keeps_alive_le (onlyPrints_cush_jobs_loop _ _ _ _ _ hr).keeps q j j1 h h1
  | delete p =>
    simp only [Op.apply] at hap
    cases hr : (list_remove w.st p >>= fun t => delete_job t p) with
    | error e => simp [hr, Except.map] at hap
    | ok t =>
      simp only [hr, Except.map, Except.ok.injEq] at hap
      subst hap
      exact keeps_alive_le (keeps_remove_delete hr) q j j1 h h1
  | collect =>
    simp only [Op.apply] at hap
    cases hr : removeFinishedJobs w.st with
    | error e => simp [hr, Except.map] at hap
    | ok t =>
      simp only [hr, Except.map, Except.ok.injEq] at hap
      subst hap
      exact keeps_alive_le (keeps_removeFinishedJobs hr) q j j1 h h1
  | reclaim =>
    simp only [Op.apply, Except.ok.injEq] at hap
    subst hap
    have h2 : w.st.heap q = some j1 := h1
    rw [h] at h2; cases h2; exact le_refl _
  | tty attrs =>
    simp only [Op.apply, Except.ok.injEq] at hap
    subst hap
    have h2 : w.st.heap q = some j1 := h1
    rw [h] at h2; cases h2; exact le_refl _
  | print o =>
    simp only [Op.apply, Except.ok.injEq] at hap
    subst hap
    have h2 : w.st.heap q = some j1 := h1
    rw [h] at h2; cases h2; exact le_refl _

/-- C5: in every state of a run in which only live children are reaped as exited or
terminated (each child at most once) and spawned children get ids no job records, every
job has `num_processes_alive >= 0`; an operation other than the registration of a spawned
child raises the count of no job; and for the job that `handle_child_status` finds for the
pid, an exited or terminated event lowers the count by exactly 1 while every other event,
a stopped one included, leaves it as it was, the counts of all other records being
untouched. -/
theorem alive_count_accounting :
    (∀ w, Reachable w → ∀ q j, w.st.heap q = some j → 0 ≤ j.num_processes_alive) ∧
    (∀ (w : World) (op : Op) (w1 : World), Reachable w → op.spawns = false →
      op.apply w = .ok w1 →
      ∀ (q : JobPtr) (j j1 : job), w.st.heap q = some j → w1.st.heap q = some j1 →
        j1.num_processes_alive ≤ j.num_processes_alive) ∧
    (∀ s pid status p j, Owns s p pid → s.heap p = some j → j.pipe.has_names = true →
      ∃ t, handle_child_status s pid status = .ok t ∧
        alive_at t p = some (if WIFEXITED status || WIFSIGNALED status
                             then j.num_processes_alive - 1 else j.num_processes_alive) ∧
        (WIFSTOPPED status = true → alive_at t p = some j.num_processes_alive) ∧
        ∀ q, q ≠ p → t.heap q = s.heap q) := by
  refine ⟨?_, ?_, ?_⟩
  · intro w hw q j h
    exact le_trans (Int.ofNat_nonneg _) ((reachable_accounted w hw).counted q j h)
  · intro w op w1 hw hop hap q j j1 h h1
    exact step_alive_le w op w1 (reachable_accounted w hw) hop hap q j j1 h h1
  · intro s pid status p j hown hp hnames
    obtain ⟨t, e, u⟩ := handle_child_status_owner s pid status p j (find_job_of_owner hown)
      hp hnames
    have ha : alive_at t p = some (if WIFEXITED status || WIFSIGNALED status
        then j.num_processes_alive - 1 else j.num_processes_alive) := by
      simp only [alive_at, u.heap, if_true, Option.map_some', reconciled_alive]
    refine ⟨t, e, ha, ?_, ?_⟩
    · intro hstop
      obtain ⟨hE, hS⟩ := stopped_not_exited hstop
      rw [ha, hE, hS]
      rfl
    · intro q hq
      rw [u.heap]
      simp only [if_neg hq]

theorem alive_count_accounting_witness :
    ∃ w, run boot sleep_ops = .ok w ∧ alive_at w.st 0 = some 0 ∧
      ∀ q j, w.st.heap q = some j → 0 ≤ j.num_processes_alive :=
  ⟨_, rfl, rfl, alive_count_accounting.1 _
    (reachable_run sleep_ops boot _ (Reachable.init 7 1000) (by decide) rfl)⟩

/-! ## Theorems: reuse of job ids -/

/-- An operation that creates no job fills no slot of `jid2job`. -/
theorem apply_slots (w : World) (op : Op) (w1 : World) (hop : op.creates = false)
    (hap : op.apply w = .ok w1) (i : Nat) (q : JobPtr) (h : w1.st.jid2job i = some q) :
    w.st.jid2job i = some q := by
  cases op with
  | launch pipe => simp [Op.creates] at hop
  | spawned p bg pid =>
    simp only [Op.apply] at hap
    cases hr : register_child w.st p bg pid with
    | error e => simp [hr, Except.map] at hap
    | ok t =>
      simp only [hr, Except.map, Except.ok.injEq] at hap
      subst hap
      obtain ⟨_, _, _, _, _, _, _, _, _, _, _, hs⟩ := register_child_inv hr
      have h2 : t.jid2job i = some q := h
      rw [hs] at h2
      exact h2
  | child pid status =>
    simp only [Op.apply] at hap
    cases hr : handle_child_status w.st pid status with
    | error e => simp [hr, Except.map] at hap
    | ok t =>
      simp only [hr, Except.map, Except.ok.injEq] at hap
      subst hap
      have h2 : t.jid2job i = some q := h
      rcases handle_child_status_inv hr with hnf | ⟨p, jp, _, _, _, u⟩
      · subst hnf; exact h2
      · rw [u.jid2job] at h2; exact h2
  | bg arg ret =>
    simp only [Op.apply] at hap
    cases hr : cush_bg w.st arg ret with
    | error e => simp [hr, Except.map] at hap
    | ok t =>
      simp only [hr, Except.map, Except.ok.injEq] at hap
      subst hap
      exact (keeps_cush_bg hr).slots i q h
  | stop arg ret =>
    simp only [Op.apply] at hap
    cases hr : cush_stop w.st arg ret with
    | error e => simp [hr, Except.map] at hap
    | ok t =>
      simp only [hr, Except.map, Except.ok.injEq] at hap
      subst hap
      exact (keeps_cush_stop hr).slots i q h
  | kill arg ret =>
    simp only [Op.apply] at hap
    cases hr : cush_kill w.st arg ret with
    | error e => simp [hr, Except.map] at hap
    | ok t =>
      simp only [hr, Except.map, Except.ok.injEq] at hap
      subst hap
      exact (keeps_cush_kill hr).slots i q h
  | fg_resume p ret =>
    simp only [Op.apply] at hap
    cases hr : cush_fg_resume w.st p ret with
    | error e => simp [hr, Except.map] at hap
    | ok r =>
      obtain ⟨t, b⟩ := r
      simp only [hr, Except.map, Except.ok.injEq] at hap
      subst hap
      exact (keeps_cush_fg_resume hr).slots i q h
  | jobs =>
    simp only [Op.apply] at hap
    cases hr : cush_jobs w.st with
    | error e => simp [hr, Except.map] at hap
    | ok t =>
      simp only [hr, Except.map, Except.ok.injEq] at hap
      subst hap
      exact (onlyPrints_cush_jobs_loop _ _ _ _ _ hr).keeps.slots i q h
  | delete p =>
    simp only [Op.apply] at hap
    cases hr : (list_remove w.st p >>= fun t => delete_job t p) with
    | error e => simp [hr, Except.map] at hap
    | ok t =>
      simp only [hr, Except.map, Except.ok.injEq] at hap
      subst hap
      exact (keeps_remove_delete hr).slots i q h
  | collect =>
    simp only [Op.apply] at hap
    cases hr : removeFinishedJobs w.st with
    | error e => simp [hr, Except.map] at hap
    | ok t =>
      simp only [hr, Except.map, Except.ok.injEq] at hap
      subst hap
      exact (keeps_removeFinishedJobs hr).slots i q h
  | reclaim =>
    simp only [Op.apply, Except.ok.injEq] at hap
    subst hap
    exact h
  | tty attrs =>
    simp only [Op.apply, Except.ok.injEq] at hap
    subst hap
    exact h
  | print o =>
    simp only [Op.apply, Except.ok.injEq] at hap
    subst hap
    exact h

theorem run_slots : ∀ (ops : List Op) (w w1 : World), (∀ op ∈ ops, op.creates = false) →
    run w ops = .ok w1 → ∀ i, w.st.jid2job i = none → w1.st.jid2job i = none := by
  intro ops
  induction ops with
  | nil =>
    intro w w1 _ h i hi
    simp only [run, Except.ok.injEq] at h
    exact h ▸ hi
  | cons op rest ih =>
    intro w w1 hall h i hi
    simp only [run, bind, Except.bind] at h
    cases ha : op.apply w with
    | error e => simp [ha] at h
    | ok w2 =>
      simp only [ha] at h
      refine ih w2 w1 (fun o ho => hall o (List.mem_cons_of_mem _ ho)) h i ?_
      cases hs : w2.st.jid2job i with
      | none => rfl
      | some q =>
        have := apply_slots w op w2 (hall op (List.mem_cons_self _ _)) ha i q hs
        rw [hi] at this
        cases this

theorem get_job_from_jid_of_slot {s : State} {k : Nat} (hk1 : 1 ≤ k) (hk2 : k < MAXJOBS) :
    get_job_from_jid s (k : Int) = s.jid2job k := by
  have : (0 : Int) < (k : Int) ∧ (k : Int) < (MAXJOBS : Int) := by
    constructor <;> omega
  simp [get_job_from_jid, this]

/-- C7: deleting the job registered under id `k` returns, and from then on
`get_job_from_jid(k)` returns nothing, also after any further operations of a run that
create no job; lookups of every other id give what they gave before the deletion; and a
job created next gets id `k` when every smaller id is held. -/
theorem delete_job_frees_id (s : State) (p : JobPtr) (j : job) (k : Nat)
    (hk1 : 1 ≤ k) (hk2 : k < MAXJOBS) (hp : s.heap p = some j) (hj : j.jid = (k : Int))
    (hreg : s.jid2job k = some p) :
    ∃ t, delete_job s p = .ok t ∧
      get_job_from_jid t k = none ∧
      (∀ i : Int, i ≠ (k : Int) → get_job_from_jid t i = get_job_from_jid s i) ∧
      (∀ (live : List Pid) (ops : List Op) (w1 : World), (∀ op ∈ ops, op.creates = false) →
        run { st := t, live := live } ops = .ok w1 → get_job_from_jid w1.st k = none) ∧
      (∀ pipe, (∀ m, 1 ≤ m → m < k → t.jid2job m ≠ none) →
        ∃ u, add_job t pipe = .ok (u, t.brk) ∧ get_job_from_jid u k = some t.brk) := by
  have hkn : (k : Int).toNat = k := Int.toNat_natCast k
  have hd : delete_job s p = .ok
      { set_slot (store s p { j with jid := -1 }) k none with
        heap := fun r => if r = p then none
                         else (set_slot (store s p { j with jid := -1 }) k none).heap r } := by
    unfold delete_job
    have h1 : ¬ ((k : Int) = -1) := by omega
    have h2 : ¬ ((k : Int) < 0 ∨ (MAXJOBS : Int) ≤ (k : Int)) := by omega
    simp only [bind, Except.bind, deref_of_heap hp, hj, h1, h2, if_false, hkn, hreg, pure,
      Except.pure]
  have hslot : ∀ t : State, t = { set_slot (store s p { j with jid := -1 }) k none with
        heap := fun r => if r = p then none
                         else (set_slot (store s p { j with jid := -1 }) k none).heap r } →
      t.jid2job k = none ∧ ∀ i, i ≠ k → t.jid2job i = s.jid2job i := by
    intro t ht
    subst ht
    constructor
    · simp [set_slot]
    · intro i hi
      simp [set_slot, store, hi]
  refine ⟨_, hd, ?_, ?_, ?_, ?_⟩
  · rw [get_job_from_jid_of_slot hk1 hk2]
    exact (hslot _ rfl).1
  · intro i hi
    unfold get_job_from_jid
    by_cases hr : 0 < i ∧ i < (MAXJOBS : Int)
    · rw [if_pos hr, if_pos hr]
      apply (hslot _ rfl).2
      intro e
      apply hi
      omega
    · rw [if_neg hr, if_neg hr]
  · intro live ops w1 hall hrun
    rw [get_job_from_jid_of_slot hk1 hk2]
    exact run_slots ops _ w1 hall hrun k (hslot _ rfl).1
  · intro pipe hmin
    obtain ⟨u, e, _, hlook, _⟩ := add_job_least _ pipe k hk1 hk2 (hslot _ rfl).1 hmin
    exact ⟨u, e, hlook⟩

theorem delete_job_frees_id_witness :
    ∃ t, delete_job (single_job .STOPPED) 0 = .ok t ∧
      get_job_from_jid t (1 : Nat) = none ∧
      (∀ i : Int, i ≠ ((1 : Nat) : Int) →
        get_job_from_jid t i = get_job_from_jid (single_job .STOPPED) i) ∧
      (∀ (live : List Pid) (ops : List Op) (w1 : World), (∀ op ∈ ops, op.creates = false) →
        run { st := t, live := live } ops = .ok w1 → get_job_from_jid w1.st (1 : Nat) = none) ∧
      (∀ pipe, (∀ m, 1 ≤ m → m < 1 → t.jid2job m ≠ none) →
        ∃ u, add_job t pipe = .ok (u, t.brk) ∧ get_job_from_jid u (1 : Nat) = some t.brk) :=
  delete_job_frees_id (single_job .STOPPED) 0 (vim_job .STOPPED) 1 (by decide) (by decide)
    rfl rfl rfl

/-! ## Theorems: where the code departs from the specification -/

/-- C1 (the code departs from the claim): after `sleep 1 &` twice and the exit of both
children the registry holds two `FINISHED` jobs, ids 1 and 2; `removeFinishedJobs` then
removes job 1 only, because `list_size(&job_list)` in the loop condition has dropped to the
value of `cnt`, and returns with job 2 still in `job_list` and in `jid2job` with status
`FINISHED`. -/
theorem removeFinishedJobs_keeps_finished_job :
    ∃ s t, two_done = .ok s ∧ s.job_list = [0, 1] ∧
      get_job_from_jid s 1 = some 0 ∧ get_job_from_jid s 2 = some 1 ∧
      status_at s 0 = some .FINISHED ∧ status_at s 1 = some .FINISHED ∧
      removeFinishedJobs s = .ok t ∧
      get_job_from_jid t 1 = none ∧
      t.job_list = [1] ∧ get_job_from_jid t 2 = some 1 ∧ status_at t 1 = some .FINISHED := by
  refine ⟨_, _, rfl, ?_, ?_, ?_, ?_, ?_, rfl, ?_, ?_, ?_, ?_⟩ <;> decide

/-- C2 (the code departs from the claim): the background job of `sleep 1 | sleep 5 &` has
two live members; when the first of them exits, `handle_child_status` leaves one live
member, yet sets the status to `FINISHED` and prints the `Done` line. And when the only
member of a background job is terminated by signal 15 the job becomes `FINISHED` but no
job line is printed, only the description of the signal. -/
theorem background_job_finished_early :
    (∃ s t, pair_in_background = .ok s ∧
      status_at s 0 = some .BACKGROUND ∧ alive_at s 0 = some 2 ∧
      handle_child_status s 101 0 = .ok t ∧
      alive_at t 0 = some 1 ∧ status_at t 0 = some .FINISHED ∧
      t.out = s.out ++ [.text "[1]\tDone\t\t", .text "sleep", .text " 1", .text "| ",
        .text "sleep", .text " 5", .text ")\n"]) ∧
    (∃ s t, one_in_background = .ok s ∧
      status_at s 0 = some .BACKGROUND ∧ alive_at s 0 = some 1 ∧
      handle_child_status s 101 15 = .ok t ∧
      alive_at t 0 = some 0 ∧ status_at t 0 = some .FINISHED ∧
      t.out = s.out ++ [.sigdesc 15]) := by
  constructor
  · refine ⟨_, _, rfl, ?_, ?_, rfl, ?_, ?_, ?_⟩ <;> decide
  · refine ⟨_, _, rfl, ?_, ?_, rfl, ?_, ?_, ?_⟩ <;> decide

/-- C3 (the code departs from the claim): for the command line `sleep 100 | nosuch`, whose
second program cannot be executed, the job has one live member (child 101, never reaped)
when the stage loop ends, and the spawn-failure path of `interpret` unlinks and deletes it
all the same. -/
theorem spawn_failure_deletes_live_job :
    ∃ s l t,
      interpret_stages (simple_pipeline [["sleep", "100"], ["nosuch"]] false) 2
        (State.init 7 1000) (locals.start 2)
        (simple_pipeline [["sleep", "100"], ["nosuch"]] false).commands
        [spawn_ok 101, spawn_fails] = .ok (s, l) ∧
      l.job = some 0 ∧ l.returnCode = 2 ∧
      get_job_from_jid s 1 = some 0 ∧ alive_at s 0 = some 1 ∧
      interpret_finish (close_pipes 2 s l) l [] = .ok t ∧
      interpret_pipeline (State.init 7 1000)
        (simple_pipeline [["sleep", "100"], ["nosuch"]] false)
        { stages := [spawn_ok 101, spawn_fails], reaps := [] } = .ok t ∧
      t.heap 0 = none ∧ t.job_list = [] ∧ get_job_from_jid t 1 = none := by
  refine ⟨_, _, _, rfl, ?_, ?_, ?_, ?_, rfl, rfl, ?_, ?_, ?_⟩ <;> decide

/-- C4 (the code departs from the claim): with the stopped job of `vim` registered under
id 1, the command line `sleep 5 | fg 1` first creates and spawns its own job, id 2, with
status `FOREGROUND`, and its second stage, the builtin `fg`, then marks job 1 `FOREGROUND`
as well: when `cush_fg` calls `wait_for_job` two registered jobs are `FOREGROUND`. -/
theorem two_foreground_jobs :
    ∃ s s1 l t,
      vim_stopped = .ok s ∧ s.job_list = [0] ∧ status_at s 0 = some .STOPPED ∧
      foreground_count s = 0 ∧
      interpret_stage (simple_pipeline [["sleep", "5"], ["fg", "1"]] false) 2 s
        (locals.start 2) { argv := ["sleep", "5"], dup_stderr_to_stdout := false }
        (spawn_ok 102) = .ok (s1, l) ∧
      get_job_from_jid s1 (atoi "1") = some 0 ∧
      cush_fg_resume s1 0 0 = .ok (t, true) ∧
      t.job_list = [0, 1] ∧
      get_job_from_jid t 1 = some 0 ∧ get_job_from_jid t 2 = some 1 ∧
      status_at t 0 = some .FOREGROUND ∧ status_at t 1 = some .FOREGROUND ∧
      foreground_count t = 2 := by
  refine ⟨_, _, _, _, rfl, ?_, ?_, ?_, rfl, ?_, rfl, ?_, ?_, ?_, ?_, ?_, ?_⟩ <;> decide

/-! ## Theorems: the builtins on a registered job -/

theorem found_registered {s : State} {jid : Int} {p : JobPtr} (hc : Consistent s)
    (h : get_job_from_jid s jid = some p) :
    0 < jid ∧ jid < (MAXJOBS : Int) ∧ s.jid2job jid.toNat = some p ∧ p ∈ s.job_list ∧
      ∃ j, s.heap p = some j ∧ j.jid = jid := by
  unfold get_job_from_jid at h
  by_cases hr : 0 < jid ∧ jid < (MAXJOBS : Int)
  · rw [if_pos hr] at h
    obtain ⟨hl, j, hj, hjid⟩ := hc.slots _ _ h
    refine ⟨hr.1, hr.2, h, hl, j, hj, ?_⟩
    rw [hjid]
    exact Int.toNat_of_nonneg (le_of_lt hr.1)
  · rw [if_neg hr] at h
    cases h

/-- C13: for a job that `get_job_from_jid` finds, `cush_bg` returns, and all it changes in
the registry is the status of that job, which becomes `BACKGROUND` when `killpg` reports
that the group took the continue signal and stays as it was otherwise: the id, the count
of live members, the members, the saved terminal state and the pipeline of the job, every
other record, `job_list`, `jid2job`, and the foreground group and the attributes of the
terminal are as before. -/
theorem bg_changes_status_only (s : State) (a : String) (ret : Int) (p : JobPtr) (j : job)
    (hfind : get_job_from_jid s (atoi a) = some p) (hp : s.heap p = some j)
    (hnames : j.pipe.has_names = true) :
    ∃ t, cush_bg s (some a) ret = .ok t ∧
      t.heap p = some { j with status := if ret = 0 then .BACKGROUND else j.status } ∧
      (∀ q, q ≠ p → t.heap q = s.heap q) ∧
      t.job_list = s.job_list ∧ t.jid2job = s.jid2job ∧
      t.tty_pgrp = s.tty_pgrp ∧ t.tty_attrs = s.tty_attrs ∧
      t.shell_tty_state = s.shell_tty_state := by
  obtain ⟨s1, e1, c, hc⟩ := print_cmdline_ok s j.pipe hnames
  subst hc
  unfold cush_bg
  simp only [hfind, bind, Except.bind, deref_of_heap hp, e1, pure, Except.pure]
  by_cases hr : ret = 0
  · subst hr
    have hd : deref (killpg (printf { s with out := s.out ++ c } "\n") (pid_at j 0) SIGCONT 0) p
        = .ok j := deref_of_heap hp
    simp only [if_true, hd]
    refine ⟨_, rfl, by simp [store], ?_, rfl, rfl, rfl, rfl, rfl⟩
    intro q hq
    simp [store, killpg, printf, emit, hq]
  · simp only [hr, if_false]
    refine ⟨_, rfl, ?_, fun q _ => rfl, rfl, rfl, rfl, rfl, rfl⟩
    show s.heap p = _
    rw [hp]

theorem bg_changes_status_only_witness :
    ∃ t, cush_bg (single_job .STOPPED) (some "1") 0 = .ok t ∧
      t.heap 0 = some { vim_job .STOPPED with status := .BACKGROUND } ∧
      (∀ q, q ≠ 0 → t.heap q = (single_job .STOPPED).heap q) ∧
      t.job_list = [0] ∧ t.jid2job = (single_job .STOPPED).jid2job ∧
      t.tty_pgrp = 1000 ∧ t.tty_attrs = 7 ∧ t.shell_tty_state = 7 :=
  bg_changes_status_only (single_job .STOPPED) "1" 0 0 (vim_job .STOPPED) (by decide) rfl
    (by decide)

theorem delete_registered {s : State} {p : JobPtr} {j : job} (hp : s.heap p = some j)
    (h1 : 1 ≤ j.jid) (h2 : j.jid < (MAXJOBS : Int)) (hslot : s.jid2job j.jid.toNat = some p)
    (hl : p ∈ s.job_list) :
    (list_remove s p >>= fun u => delete_job u p) = .ok (s.drop p j.jid.toNat) := by
  have e1 : list_remove s p = .ok { s with job_list := s.job_list.erase p } := by
    unfold list_remove
    rw [if_pos hl]
  have hp1 : ({ s with job_list := s.job_list.erase p } : State).heap p = some j := hp
  have hne : ¬ (j.jid = -1) := by omega
  have hin : ¬ (j.jid < 0 ∨ (MAXJOBS : Int) ≤ j.jid) := by omega
  have hs1 : ({ s with job_list := s.job_list.erase p } : State).jid2job j.jid.toNat = some p :=
    hslot
  simp only [bind, Except.bind, e1]
  unfold delete_job
  simp only [bind, Except.bind, deref_of_heap hp1, hne, hin, if_false, hs1, hslot, deref, hp,
    pure, Except.pure, State.drop, store, set_slot, Except.ok.injEq, State.mk.injEq, and_true,
    true_and]
  funext r
  by_cases hr : r = p <;> simp [hr]

theorem consistent_drop {s : State} {p : JobPtr} {j : job} (hc : Consistent s)
    (hp : s.heap p = some j) (hslot : s.jid2job j.jid.toNat = some p) :
    Consistent (s.drop p j.jid.toNat) := by
  refine ⟨hc.nodup.erase p, ?_, ?_⟩
  · intro q hq
    have hqp : q ≠ p := fun e => (List.Nodup.mem_erase_iff hc.nodup).1 hq |>.1 e
    obtain ⟨jq, hjq, a1, a2, a3⟩ := hc.listed q (List.mem_of_mem_erase hq)
    refine ⟨jq, by simp [State.drop, hqp, hjq], a1, a2, ?_⟩
    have hk : jq.jid.toNat ≠ j.jid.toNat := by
      intro e
      rw [e, hslot] at a3
      exact hqp (Option.some.inj a3).symm
    simp [State.drop, hk, a3]
  · intro i q hi
    simp only [State.drop] at hi
    by_cases hik : i = j.jid.toNat
    · simp [hik] at hi
    · simp only [if_neg hik] at hi
      obtain ⟨hl, jq, hjq, hjid⟩ := hc.slots i q hi
      have hqp : q ≠ p := by
        intro e
        subst e
        rw [hp] at hjq
        cases hjq
        apply hik
        rw [hjid]
        exact (Int.toNat_natCast i).symm
      refine ⟨(List.mem_erase_of_ne hqp).2 hl, jq, ?_, hjid⟩
      simp [State.drop, hqp, hjq]

/-- C14: for a registered job whose group takes the terminate signal, `cush_kill` returns
at once, without a reap and whatever the status and the count of live members of the job:
its record is freed, `get_job_from_jid` of its id returns nothing, no slot of `jid2job`
(which is what the `jobs` listing walks) and no element of `job_list` refers to it, and
every other record, slot and list element is as before. -/
theorem kill_removes_job (s : State) (a : String) (p : JobPtr) (hc : Consistent s)
    (hfind : get_job_from_jid s (atoi a) = some p) :
    ∃ t, cush_kill s (some a) 0 = .ok t ∧
      t.heap p = none ∧ get_job_from_jid t (atoi a) = none ∧
      (∀ i, t.jid2job i ≠ some p) ∧ p ∉ t.job_list ∧
      (∀ q, q ≠ p → t.heap q = s.heap q) ∧
      (∀ q, q ≠ p → (q ∈ t.job_list ↔ q ∈ s.job_list)) ∧
      (∀ i : Int, i ≠ atoi a → get_job_from_jid t i = get_job_from_jid s i) ∧
      Consistent t := by
  obtain ⟨h0, hM, hslot, hl, j, hp, hjid⟩ := found_registered hc hfind
  have hslot1 : s.jid2job j.jid.toNat = some p := by rw [hjid]; exact hslot
  have hc1 : Consistent (killpg s (pid_at j 0) SIGTERM 0) := ⟨hc.nodup, hc.listed, hc.slots⟩
  have e := delete_registered (s := killpg s (pid_at j 0) SIGTERM 0) hp (by omega) (by omega)
    hslot1 hl
  simp only [bind, Except.bind] at e
  refine ⟨(killpg s (pid_at j 0) SIGTERM 0).drop p j.jid.toNat, ?_, ?_, ?_, ?_, ?_, ?_, ?_, ?_,
    consistent_drop hc1 hp hslot1⟩
  · unfold cush_kill
    simp only [hfind, bind, Except.bind, deref_of_heap hp, if_true]
    exact e
  · simp [State.drop]
  · unfold get_job_from_jid
    rw [if_pos ⟨h0, hM⟩]
    simp [State.drop, hjid]
  · intro i hi
    simp only [State.drop, killpg] at hi
    by_cases hik : i = j.jid.toNat
    · simp [hik] at hi
    · simp only [if_neg hik] at hi
      obtain ⟨_, jq, hjq, hq⟩ := hc.slots i p hi
      rw [hp] at hjq
      cases hjq
      apply hik
      rw [hq]
      exact (Int.toNat_natCast i).symm
  · simp only [State.drop, killpg]
    exact fun hm => (List.Nodup.mem_erase_iff hc.nodup).1 hm |>.1 rfl
  · intro q hq
    simp [State.drop, killpg, hq]
  · intro q hq
    simp only [State.drop, killpg]
    exact List.mem_erase_of_ne hq
  · intro i hi
    unfold get_job_from_jid
    by_cases hr : 0 < i ∧ i < (MAXJOBS : Int)
    · rw [if_pos hr, if_pos hr]
      have : i.toNat ≠ j.jid.toNat := by
        rw [hjid]
        intro e
        apply hi
        omega
      simp [State.drop, killpg, this]
    · rw [if_neg hr, if_neg hr]

theorem kill_removes_job_witness :
    ∃ t, cush_kill (single_job .STOPPED) (some "1") 0 = .ok t ∧
      t.heap 0 = none ∧ get_job_from_jid t (atoi "1") = none ∧
      (∀ i, t.jid2job i ≠ some 0) ∧ 0 ∉ t.job_list ∧
      (∀ q, q ≠ 0 → t.heap q = (single_job .STOPPED).heap q) ∧
      (∀ q, q ≠ 0 → (q ∈ t.job_list ↔ q ∈ (single_job .STOPPED).job_list)) ∧
      (∀ i : Int, i ≠ atoi "1" →
        get_job_from_jid t i = get_job_from_jid (single_job .STOPPED) i) ∧
      Consistent t :=
  kill_removes_job (single_job .STOPPED) "1" 0
    ⟨by decide,
      fun p hp => by
        have hp0 : p = 0 := by simpa [single_job, State.init] using hp
        subst hp0
        exact ⟨vim_job .STOPPED, rfl, by decide, by decide, by decide⟩,
      fun i p hi => by
        have h1 : i = 1 ∧ p = 0 := by
          simp only [single_job, State.init] at hi
          by_cases h : i = 1
          · simp only [h, if_true, Option.some.injEq] at hi
            exact ⟨h, hi.symm⟩
          · simp [h] at hi
        obtain ⟨rfl, rfl⟩ := h1
        exact ⟨by decide, vim_job .STOPPED, rfl, by decide⟩⟩
    (by decide)

/-! ## Theorems: the foreground waiter -/

theorem Retouches.self (s : State) : Retouches s s :=
  ⟨rfl, rfl, rfl, fun _ j h => ⟨j, h, rfl, rfl⟩, fun _ h => h⟩

theorem Retouches.chain {s t u : State} (h1 : Retouches s t) (h2 : Retouches t u) :
    Retouches s u := by
  refine ⟨h2.brk.trans h1.brk, h2.job_list.trans h1.job_list, h2.jid2job.trans h1.jid2job,
    ?_, fun q h => h2.free q (h1.free q h)⟩
  intro q j h
  obtain ⟨j1, hj1, a1, a2⟩ := h1.kept q j h
  obtain ⟨j2, hj2, b1, b2⟩ := h2.kept q j1 hj1
  exact ⟨j2, hj2, b1.trans a1, b2.trans a2⟩

theorem OnlyPrints.inPlace {s t : State} (h : OnlyPrints s t) : Retouches s t := by
  obtain ⟨c, rfl⟩ := h
  exact ⟨rfl, rfl, rfl, fun _ j h => ⟨j, h, rfl, rfl⟩, fun _ h => h⟩

theorem UpdatesOnly.toRetouches {s t : State} {p : JobPtr} {j j1 : job}
    (u : UpdatesOnly s t p j1) (hp : s.heap p = some j) (h1 : j1.jid = j.jid)
    (h2 : j1.pipe = j.pipe) : Retouches s t := by
  refine ⟨u.brk, u.job_list, u.jid2job, ?_, ?_⟩
  · intro q jq hq
    rw [u.heap]
    by_cases hqp : q = p
    · subst hqp
      rw [hp] at hq
      cases hq
      exact ⟨j1, by simp, h1, h2⟩
    · exact ⟨jq, by simp [hqp, hq], rfl, rfl⟩
  · intro q hq
    rw [u.heap]
    by_cases hqp : q = p
    · subst hqp
      rw [hp] at hq
      cases hq
    · simp [hqp, hq]

theorem reconciled_jid (j : job) (status : Int) (attrs : termios) :
    (reconciled j status attrs).jid = j.jid := by
  unfold reconciled
  repeat' split
  all_goals rfl

theorem handle_child_status_retouches {s t : State} {pid : Pid} {status : Int}
    (h : handle_child_status s pid status = .ok t) : Retouches s t := by
  rcases handle_child_status_inv h with hnf | ⟨p, j, hj, _, _, u⟩
  · subst hnf
    exact (onlyPrints_printf s _).inPlace
  · exact u.toRetouches hj (reconciled_jid _ _ _) (reconciled_pipe _ _ _)

theorem retouches_tty (s : State) (a : termios) : Retouches s { s with tty_attrs := a } :=
  ⟨rfl, rfl, rfl, fun _ j h => ⟨j, h, rfl, rfl⟩, fun _ h => h⟩

theorem consistent_of_retouches {s t : State} (hc : Consistent s) (r : Retouches s t) :
    Consistent t := by
  refine ⟨r.job_list ▸ hc.nodup, ?_, ?_⟩
  · intro p hp
    rw [r.job_list] at hp
    obtain ⟨j, hj, a1, a2, a3⟩ := hc.listed p hp
    obtain ⟨j1, hj1, b1, _⟩ := r.kept p j hj
    refine ⟨j1, hj1, by omega, by omega, ?_⟩
    rw [r.jid2job, b1]
    exact a3
  · intro i p hi
    rw [r.jid2job] at hi
    obtain ⟨hl, j, hj, hjid⟩ := hc.slots i p hi
    obtain ⟨j1, hj1, b1, _⟩ := r.kept p j hj
    exact ⟨r.job_list ▸ hl, j1, hj1, b1.trans hjid⟩

theorem reaped_retouches {p : JobPtr} {s t : State} {used : List reap}
    (h : Reaped p s used t) : Retouches s t := by
  induction h with
  | none s => exact Retouches.self s
  | next s s1 t r used _ _ hh _ ih =>
    exact ((retouches_tty s r.attrs).chain (handle_child_status_retouches hh)).chain ih

theorem waiting_iff {s : State} {p : JobPtr} :
    waiting s p = true ↔ ∃ j, s.heap p = some j ∧ j.status = .FOREGROUND ∧
      0 < j.num_processes_alive := by
  unfold waiting
  cases h : s.heap p with
  | none => simp
  | some j => simp

theorem wait_for_job_idle {s : State} {p : JobPtr} {j : job} (reaps : List reap)
    (hp : s.heap p = some j) (h : ¬ (j.status = .FOREGROUND ∧ 0 < j.num_processes_alive)) :
    wait_for_job p s reaps = .ok (s, reaps) := by
  cases reaps with
  | nil => simp only [wait_for_job, bind, Except.bind, deref_of_heap hp, h, if_false, pure,
      Except.pure]
  | cons r rest => simp only [wait_for_job, bind, Except.bind, deref_of_heap hp, h, if_false,
      pure, Except.pure]

theorem wait_for_job_step {s : State} {p : JobPtr} (r : reap) (rest : List reap)
    (h : waiting s p = true) (hr : r.child ≠ -1) :
    wait_for_job p s (r :: rest) =
      (handle_child_status { s with tty_attrs := r.attrs } r.child r.status >>=
        fun s1 => wait_for_job p s1 rest) := by
  obtain ⟨j, hp, h1, h2⟩ := waiting_iff.1 h
  simp only [wait_for_job, bind, Except.bind, deref_of_heap hp, h1, h2, and_self, if_true, hr,
    ne_eq, not_false_eq_true]

theorem wait_for_job_returns (p : JobPtr) : ∀ (reaps : List reap) (s t : State)
    (rest : List reap), wait_for_job p s reaps = .ok (t, rest) →
    ∃ used, reaps = used ++ rest ∧ Reaped p s used t ∧
      ∃ j, t.heap p = some j ∧ ¬ (j.status = .FOREGROUND ∧ 0 < j.num_processes_alive) := by
  intro reaps
  induction reaps with
  | nil =>
    intro s t rest h
    simp only [wait_for_job, bind, Except.bind, pure, Except.pure] at h
    cases hd : deref s p with
    | error e => simp [hd] at h
    | ok j =>
      simp only [hd] at h
      by_cases hw : j.status = .FOREGROUND ∧ 0 < j.num_processes_alive
      · simp [hw, throw, throwThe, MonadExceptOf.throw] at h
      · simp only [hw, if_false, Except.ok.injEq, Prod.mk.injEq] at h
        obtain ⟨rfl, rfl⟩ := h
        exact ⟨[], rfl, Reaped.none s, j, deref_ok.1 hd, hw⟩
  | cons r rs ih =>
    intro s t rest h
    by_cases hw : waiting s p = true
    · by_cases hr : r.child = -1
      · obtain ⟨j, hp, h1, h2⟩ := waiting_iff.1 hw
        simp [wait_for_job, bind, Except.bind, deref_of_heap hp, h1, h2, hr, throw, throwThe,
          MonadExceptOf.throw] at h
      · rw [wait_for_job_step r rs hw hr] at h
        simp only [bind, Except.bind] at h
        cases hh : handle_child_status { s with tty_attrs := r.attrs } r.child r.status with
        | error e => simp [hh] at h
        | ok s1 =>
          simp only [hh] at h
          obtain ⟨used, e, hre, hfin⟩ := ih s1 t rest h
          exact ⟨r :: used, by rw [e]; rfl, Reaped.next s s1 t r used hw hr hh hre, hfin⟩
    · simp only [wait_for_job, bind, Except.bind, pure, Except.pure] at h
      cases hd : deref s p with
      | error e => simp [hd] at h
      | ok j =>
        have hn : ¬ (j.status = .FOREGROUND ∧ 0 < j.num_processes_alive) := by
          intro hc
          exact hw (waiting_iff.2 ⟨j, deref_ok.1 hd, hc.1, hc.2⟩)
        simp only [hd, hn, if_false, Except.ok.injEq, Prod.mk.injEq] at h
        obtain ⟨rfl, rfl⟩ := h
        exact ⟨[], rfl, Reaped.none s, j, deref_ok.1 hd, hn⟩

theorem wait_for_job_of_reaped (p : JobPtr) {s t : State} {used : List reap}
    (h : Reaped p s used t) : ∀ (rest : List reap) (j : job), t.heap p = some j →
      ¬ (j.status = .FOREGROUND ∧ 0 < j.num_processes_alive) →
      wait_for_job p s (used ++ rest) = .ok (t, rest) := by
  induction h with
  | none s => intro rest j hp hn; exact wait_for_job_idle rest hp hn
  | next s s1 t r used hw hr hh _ ih =>
    intro rest j hp hn
    rw [List.cons_append, wait_for_job_step r _ hw hr]
    simp only [bind, Except.bind, hh]
    exact ih rest j hp hn

theorem deref_error {s : State} {p : JobPtr} {e : Halt} (h : deref s p = .error e) :
    e = .undefined := by
  unfold deref at h
  split at h
  · cases h
  · cases h; rfl

theorem print_argv_error {s : State} {argv : List String} {e : Halt}
    (h : print_argv s argv = .error e) : e = .undefined := by
  cases argv with
  | nil => simp only [print_argv] at h; cases h; rfl
  | cons a r => simp [print_argv] at h

theorem print_cmdline_loop_error (cmds : List ast_command) :
    ∀ (s : State) (first : Bool) (e : Halt), print_cmdline_loop s first cmds = .error e →
      e = .undefined := by
  induction cmds with
  | nil => intro s first e h; simp [print_cmdline_loop] at h
  | cons c r ih =>
    intro s first e h
    simp only [print_cmdline_loop, bind, Except.bind] at h
    split at h
    · rename_i e1 he1
      cases h
      exact print_argv_error he1
    · exact ih _ _ _ h

theorem print_job_error {s : State} {p : JobPtr} {e : Halt} (h : print_job s p = .error e) :
    e = .undefined := by
  simp only [print_job, bind, Except.bind, pure, Except.pure] at h
  split at h
  · rename_i e1 he1
    cases h
    exact deref_error he1
  · split at h
    · rename_i e1 he1
      cases h
      exact print_cmdline_loop_error _ _ _ _ he1
    · cases h

theorem find_job_of_pid_error (s : State) (pid : Pid) :
    ∀ (l : List JobPtr) (acc : Option JobPtr) (e : Halt),
      find_job_of_pid s pid l acc = .error e → e = .undefined := by
  intro l
  induction l with
  | nil => intro acc e h; simp [find_job_of_pid] at h
  | cons a rest ih =>
    intro acc e h
    simp only [find_job_of_pid, bind, Except.bind] at h
    split at h
    · rename_i e1 he1
      cases h
      exact deref_error he1
    · exact ih _ _ h

theorem handle_child_status_error {s : State} {pid : Pid} {status : Int} {e : Halt}
    (h : handle_child_status s pid status = .error e) : e = .undefined := by
  unfold handle_child_status at h
  simp only [bind, Except.bind, pure, Except.pure] at h
  cases hf : find_job_of_pid s pid s.job_list none with
  | error e1 =>
    simp only [hf] at h
    cases h
    exact find_job_of_pid_error _ _ _ _ _ hf
  | ok r =>
    simp only [hf] at h
    cases r with
    | none => cases h
    | some p =>
      simp only at h
      cases hd : deref s p with
      | error e1 =>
        simp only [hd] at h
        cases h
        exact deref_error hd
      | ok j =>
        simp only [hd] at h
        have hp := deref_ok.1 hd
        by_cases hE : WIFEXITED status = true
        · simp only [hE, if_true] at h
          by_cases hF : j.status = .FOREGROUND ∧ status = 0
          · simp [hF] at h
          · simp only [hF, if_false] at h
            by_cases hB : j.status = .BACKGROUND
            · simp only [hB, if_true, deref_of_heap (store_heap_self _ _ _)] at h
              exact print_job_error h
            · simp [hB] at h
        · simp only [hE, Bool.false_eq_true, if_false] at h
          by_cases hS : WIFSIGNALED status = true
          · simp only [hS, if_true, deref_of_heap (store_heap_self _ _ _)] at h
            cases h
          · simp only [hS, Bool.false_eq_true, if_false] at h
            by_cases hT : WIFSTOPPED status = true
            · simp only [hT, if_true] at h
              by_cases hF : j.status = .FOREGROUND
              · simp only [hF, if_true, termstate_save, bind, Except.bind, hd, pure,
                  Except.pure, deref_of_heap (store_heap_self _ _ _)] at h
                by_cases hsig : WSTOPSIG status = SIGTSTP
                · simp only [hsig, if_true] at h
                  exact print_job_error h
                · simp [hsig] at h
              · simp only [hF, if_false, hd] at h
                by_cases hsig : WSTOPSIG status = SIGTSTP
                · simp only [hsig, if_true] at h
                  exact print_job_error h
                · simp [hsig] at h
            · simp [hT] at h

theorem wait_for_job_fatal (p : JobPtr) : ∀ (reaps : List reap) (s : State),
    wait_for_job p s reaps = .error .fatal →
    ∃ used r rest u, reaps = used ++ r :: rest ∧ Reaped p s used u ∧ waiting u p = true ∧
      r.child = -1 := by
  intro reaps
  induction reaps with
  | nil =>
    intro s h
    simp only [wait_for_job, bind, Except.bind, pure, Except.pure] at h
    cases hd : deref s p with
    | error e =>
      simp only [hd] at h
      cases h
      cases deref_error hd
    | ok j =>
      simp only [hd] at h
      split at h
      · cases h
      · cases h
  | cons r rs ih =>
    intro s h
    by_cases hw : waiting s p = true
    · by_cases hr : r.child = -1
      · exact ⟨[], r, rs, s, rfl, Reaped.none s, hw, hr⟩
      · rw [wait_for_job_step r rs hw hr] at h
        simp only [bind, Except.bind] at h
        cases hh : handle_child_status { s with tty_attrs := r.attrs } r.child r.status with
        | error e =>
          simp only [hh] at h
          cases h
          cases handle_child_status_error hh
        | ok s1 =>
          simp only [hh] at h
          obtain ⟨used, r1, rest, u, e, hre, hwu, hr1⟩ := ih s1 h
          exact ⟨r :: used, r1, rest, u, by rw [e]; rfl,
            Reaped.next s s1 u r used hw hr hh hre, hwu, hr1⟩
    · simp only [wait_for_job, bind, Except.bind, pure, Except.pure] at h
      cases hd : deref s p with
      | error e =>
        simp only [hd] at h
        cases h
        cases deref_error hd
      | ok j =>
        have hn : ¬ (j.status = .FOREGROUND ∧ 0 < j.num_processes_alive) := by
          intro hc
          exact hw (waiting_iff.2 ⟨j, deref_ok.1 hd, hc.1, hc.2⟩)
        simp [hd, hn] at h

theorem wait_for_job_fatal_of (p : JobPtr) {s u : State} {used : List reap}
    (h : Reaped p s used u) : ∀ (r : reap) (rest : List reap), waiting u p = true →
      r.child = -1 → wait_for_job p s (used ++ r :: rest) = .error .fatal := by
  induction h with
  | none s =>
    intro r rest hw hr
    obtain ⟨j, hp, h1, h2⟩ := waiting_iff.1 hw
    simp [wait_for_job, bind, Except.bind, deref_of_heap hp, h1, h2, hr, throw, throwThe,
      MonadExceptOf.throw]
  | next s s1 t r0 used hw0 hr0 hh _ ih =>
    intro r rest hw hr
    rw [List.cons_append, wait_for_job_step r0 _ hw0 hr0]
    simp only [bind, Except.bind, hh]
    exact ih r rest hw hr

/-- C11: `wait_for_job` on a job that is not `FOREGROUND` or has no live member returns at
once and consumes no reap. It returns exactly when a run of successful reaps, each made
while the job was `FOREGROUND` with live members and each handed to `handle_child_status`
in arrival order, ends in a state where the job is not `FOREGROUND` or has no live member;
the reaps not used are left. It ends the shell with the fatal error exactly when, after
such a run, the job is still `FOREGROUND` with live members and the next reap fails. -/
theorem wait_for_job_spec (p : JobPtr) (s : State) (reaps : List reap) :
    (∀ j, s.heap p = some j → ¬ (j.status = .FOREGROUND ∧ 0 < j.num_processes_alive) →
      wait_for_job p s reaps = .ok (s, reaps)) ∧
    (∀ t rest, wait_for_job p s reaps = .ok (t, rest) ↔
      ∃ used, reaps = used ++ rest ∧ Reaped p s used t ∧
        ∃ j, t.heap p = some j ∧ ¬ (j.status = .FOREGROUND ∧ 0 < j.num_processes_alive)) ∧
    (wait_for_job p s reaps = .error .fatal ↔
      ∃ used r rest u, reaps = used ++ r :: rest ∧ Reaped p s used u ∧ waiting u p = true ∧
        r.child = -1) := by
  refine ⟨fun j hp hn => wait_for_job_idle reaps hp hn, ?_, ?_⟩
  · intro t rest
    constructor
    · exact wait_for_job_returns p reaps s t rest
    · rintro ⟨used, rfl, hre, j, hp, hn⟩
      exact wait_for_job_of_reaped p hre rest j hp hn
  · constructor
    · exact wait_for_job_fatal p reaps s
    · rintro ⟨used, r, rest, u, rfl, hre, hw, hr⟩
      exact wait_for_job_fatal_of p hre r rest hw hr

theorem wait_for_job_spec_witness :
    wait_for_job 0 (single_job .STOPPED) [⟨101, 0, 7⟩] =
      .ok (single_job .STOPPED, [⟨101, 0, 7⟩]) :=
  (wait_for_job_spec 0 (single_job .STOPPED) [⟨101, 0, 7⟩]).1 (vim_job .STOPPED) rfl (by decide)

/-! ## Theorems: the builtin `fg` -/

theorem cush_fg_resume_ok (s : State) (p : JobPtr) (j : job) (hp : s.heap p = some j)
    (hnames : j.pipe.has_names = true) :
    ∃ s1 c, cush_fg_resume s p 0 = .ok (s1, true) ∧
      s1 = { s with
             heap := fun q => if q = p then some { j with status := .FOREGROUND } else s.heap q
             tty_attrs := j.saved_tty_state
             tty_pgrp := pid_at j 0
             out := s.out ++ c
             signals := s.signals ++ [(pid_at j 0, SIGCONT, 0)] } := by
  obtain ⟨s3, e3, c, hc⟩ := print_cmdline_ok
    { { s with tty_attrs := j.saved_tty_state } with tty_pgrp := pid_at j 0 } j.pipe hnames
  subst hc
  refine ⟨_, c ++ [.text "\n"], ?_, rfl⟩
  unfold cush_fg_resume
  simp only [bind, Except.bind, deref_of_heap hp, e3, pure, Except.pure, if_true]
  have hd : deref (killpg (printf { { { s with tty_attrs := j.saved_tty_state } with
      tty_pgrp := pid_at j 0 } with out := s.out ++ c } "\n") (pid_at j 0) SIGCONT 0) p = .ok j :=
    deref_of_heap hp
  simp only [hd, Except.ok.injEq, Prod.mk.injEq, and_true]
  simp [termstate_give_terminal_to, store, killpg, printf, emit, List.append_assoc]

theorem consistent_single_job (st : job_status) : Consistent (single_job st) := by
  refine ⟨by simp [single_job, State.init], ?_, ?_⟩
  · intro p hp
    have hp0 : p = 0 := by simpa [single_job, State.init] using hp
    subst hp0
    exact ⟨vim_job st, rfl, by simp [vim_job], by simp [vim_job, MAXJOBS],
      by simp [vim_job, single_job]⟩
  · intro i p hi
    have h1 : i = 1 ∧ p = 0 := by
      simp only [single_job, State.init] at hi
      by_cases h : i = 1
      · simp only [h, if_true, Option.some.injEq] at hi
        exact ⟨h, hi.symm⟩
      · simp [h] at hi
    obtain ⟨rfl, rfl⟩ := h1
    exact ⟨by simp [single_job, State.init], vim_job st, rfl, by simp [vim_job]⟩

/-- C12: for a registered job whose group takes the continue signal, `cush_fg` first makes
the job `FOREGROUND` and then runs `wait_for_job` on it; whenever that wait returns,
`cush_fg` returns, and the job has been deleted (record freed, id not found, not listed)
exactly when its status was still `FOREGROUND` after the wait; otherwise the state is the
one the wait left, in which the job is registered under the same id with a status other
than `FOREGROUND`. -/
theorem fg_deletes_iff_still_foreground (s : State) (a : String) (p : JobPtr) (j : job)
    (reaps : List reap) (hc : Consistent s) (hfind : get_job_from_jid s (atoi a) = some p)
    (hp : s.heap p = some j) (hnames : j.pipe.has_names = true) :
    ∃ s1, cush_fg_resume s p 0 = .ok (s1, true) ∧ status_at s1 p = some .FOREGROUND ∧
      ∀ s2 rest, wait_for_job p s1 reaps = .ok (s2, rest) →
        (status_at s2 p = some .FOREGROUND →
          cush_fg s (some a) 0 reaps = .ok (s2.drop p (atoi a).toNat, rest) ∧
          get_job_from_jid (s2.drop p (atoi a).toNat) (atoi a) = none ∧
          p ∉ (s2.drop p (atoi a).toNat).job_list) ∧
        (status_at s2 p ≠ some .FOREGROUND →
          cush_fg s (some a) 0 reaps = .ok (s2, rest) ∧
          get_job_from_jid s2 (atoi a) = some p ∧ p ∈ s2.job_list ∧
          ∃ j2, s2.heap p = some j2 ∧ j2.jid = atoi a ∧ j2.status ≠ .FOREGROUND) := by
  obtain ⟨h0, hM, hslot, hl, j0, hp0, hjid⟩ := found_registered hc hfind
  rw [hp] at hp0
  cases hp0
  obtain ⟨s1, c, e1, hs1⟩ := cush_fg_resume_ok s p j hp hnames
  have hr1 : Retouches s s1 := by
    subst hs1
    refine ⟨rfl, rfl, rfl, ?_, ?_⟩
    · intro q jq hq
      by_cases hqp : q = p
      · subst hqp
        rw [hp] at hq
        cases hq
        exact ⟨{ j with status := .FOREGROUND }, by simp, rfl, rfl⟩
      · exact ⟨jq, by simp [hqp, hq], rfl, rfl⟩
    · intro q hq
      by_cases hqp : q = p
      · subst hqp
        rw [hp] at hq
        cases hq
      · simp [hqp, hq]
  refine ⟨s1, e1, by subst hs1; simp [status_at], ?_⟩
  intro s2 rest hw
  obtain ⟨used, _, hre, j2, hj2, _⟩ := wait_for_job_returns p reaps s1 s2 rest hw
  have hr2 : Retouches s s2 := hr1.chain (reaped_retouches hre)
  have hc2 : Consistent s2 := consistent_of_retouches hc hr2
  obtain ⟨j2', hj2', hjid2, _⟩ := hr2.kept p j hp
  rw [hj2] at hj2'
  cases hj2'
  have hslot2 : s2.jid2job j2.jid.toNat = some p := by
    rw [hr2.jid2job, hjid2, hjid]
    exact hslot
  have hl2 : p ∈ s2.job_list := by rw [hr2.job_list]; exact hl
  have hfg : cush_fg s (some a) 0 reaps = (cush_fg_finish s2 p).map fun t => (t, rest) := by
    unfold cush_fg
    simp only [hfind, bind, Except.bind, e1, if_true, hw, pure, Except.pure]
    cases cush_fg_finish s2 p <;> rfl
  constructor
  · intro hst
    have hF : j2.status = .FOREGROUND := by
      simpa [status_at, hj2] using hst
    have hdel := delete_registered hj2 (by omega) (by omega) hslot2 hl2
    simp only [bind, Except.bind] at hdel
    have hfin : cush_fg_finish s2 p = .ok (s2.drop p (atoi a).toNat) := by
      unfold cush_fg_finish
      simp only [bind, Except.bind, deref_of_heap hj2, hF, if_true]
      rw [← hjid, ← hjid2]
      exact hdel
    refine ⟨by rw [hfg, hfin]; rfl, ?_, ?_⟩
    · unfold get_job_from_jid
      rw [if_pos ⟨h0, hM⟩]
      simp [State.drop]
    · simp only [State.drop]
      exact fun hm => (List.Nodup.mem_erase_iff hc2.nodup).1 hm |>.1 rfl
  · intro hst
    have hF : j2.status ≠ .FOREGROUND := by
      intro e
      apply hst
      simp [status_at, hj2, e]
    have hfin : cush_fg_finish s2 p = .ok s2 := by
      unfold cush_fg_finish
      simp only [bind, Except.bind, deref_of_heap hj2, hF, if_false, pure, Except.pure]
    refine ⟨by rw [hfg, hfin]; rfl, ?_, hl2, j2, hj2, hjid2.trans hjid, hF⟩
    unfold get_job_from_jid
    rw [if_pos ⟨h0, hM⟩, hr2.jid2job]
    exact hslot

theorem fg_deletes_iff_still_foreground_witness :
    ∃ t, cush_fg (single_job .STOPPED) (some "1") 0 [⟨101, 0, 7⟩] = .ok (t, []) ∧
      get_job_from_jid t (atoi "1") = none ∧ 0 ∉ t.job_list := by
  obtain ⟨s1, e1, _, h⟩ := fg_deletes_iff_still_foreground (single_job .STOPPED) "1" 0
    (vim_job .STOPPED) [⟨101, 0, 7⟩] (consistent_single_job .STOPPED) (by decide) rfl (by decide)
  have hs1 : s1 = (match cush_fg_resume (single_job .STOPPED) 0 0 with
      | .ok r => r.1
      | .error _ => single_job .STOPPED) := by rw [e1]
  subst hs1
  exact ⟨_, (h _ _ rfl).1 (by decide)⟩

/-! ## Theorems: where the launcher departs from the specification -/

/-- C19 (the code departs from the claim): for the three-stage pipeline `cat | sort | wc`
the launcher calls `pipe2` once, in the first stage and for row 0 of `pipeArray`; row 1 is
never written, so the second stage duplicates onto descriptor 1 and the third stage onto
descriptor 0 a value that no `pipe2` produced, and the closing loops close the two ends of
the one pipe and two such values. The claim requires two pipes for three stages. -/
theorem one_pipe_for_three_stages :
    ∃ s l,
      interpret_stages (simple_pipeline [["cat"], ["sort"], ["wc"]] false) 3
        (State.init 7 1000) (locals.start 3)
        (simple_pipeline [["cat"], ["sort"], ["wc"]] false).commands
        [spawn_ok_fds 101 3 4, spawn_ok_fds 102 5 6, spawn_ok_fds 103 7 8] = .ok (s, l) ∧
      s.fd_calls = [.pipe2 0 (some (3, 4))] ∧
      l.pipeArray = [some (3, 4), none] ∧
      s.spawns.map (fun c => (c.file, c.actions, c.ret)) =
        [("cat", [.adddup2 (some 4) 1], 0),
         ("sort", [.adddup2 none 1, .adddup2 (some 3) 0], 0),
         ("wc", [.adddup2 none 0], 0)] ∧
      (close_pipes 3 s l).fd_calls =
        [.pipe2 0 (some (3, 4)), .close (some 3), .close (some 4), .close none, .close none] := by
  refine ⟨_, _, rfl, ?_, ?_, ?_, ?_⟩ <;> decide

/-- C20 (the claim as worded fails): for the pipeline `nosuch | sleep 5`, whose first
program cannot be executed, the stage loop goes on after the failed spawn: `sleep` is
spawned and registered as a member of the job (child 102), `returnCode` is overwritten
with 0, and `interpret` waits for the job and ends without having printed its failure
message. -/
theorem spawn_goes_on_after_failure :
    ∃ s l t,
      interpret_stages (simple_pipeline [["nosuch"], ["sleep", "5"]] false) 2
        (State.init 7 1000) (locals.start 2)
        (simple_pipeline [["nosuch"], ["sleep", "5"]] false).commands
        [spawn_fails, spawn_ok 102] = .ok (s, l) ∧
      s.spawns.map (fun c => (c.file, c.ret)) = [("nosuch", 2), ("sleep", 0)] ∧
      pids_at s 0 = some [102] ∧ alive_at s 0 = some 1 ∧ l.returnCode = 0 ∧
      interpret_pipeline (State.init 7 1000)
        (simple_pipeline [["nosuch"], ["sleep", "5"]] false)
        { stages := [spawn_fails, spawn_ok 102], reaps := [⟨102, 0, 7⟩] } = .ok t ∧
      t.out = [] := by
  refine ⟨_, _, _, rfl, ?_, ?_, ?_, ?_, rfl, ?_⟩ <;> decide

/-! ## Theorems: the stage loop on external pipelines -/

theorem findEmptyPIDSlot_scan_full : ∀ (l : List Pid) (i n : Nat), (∀ x ∈ l, x ≠ 0) →
    l.length < n → findEmptyPIDSlot_scan l i n = ((i + l.length : Nat) : Int) := by
  intro l
  induction l with
  | nil =>
    intro i n _ hn
    cases n with
    | zero => simp at hn
    | succ m => simp [findEmptyPIDSlot_scan]
  | cons x xs ih =>
    intro i n hx hn
    cases n with
    | zero => simp at hn
    | succ m =>
      have hx0 : x ≠ 0 := hx x (List.mem_cons_self _ _)
      simp only [findEmptyPIDSlot_scan, hx0, if_false]
      rw [ih (i + 1) m (fun y hy => hx y (List.mem_cons_of_mem _ hy))
        (by simpa using hn)]
      simp only [List.length_cons]
      congr 1
      omega

theorem pids_set_end (l : List Pid) (v : Pid) : pids_set l l.length v = l ++ [v] := by
  simp [pids_set]

theorem register_child_ok (s : State) (p : JobPtr) (j : job) (bg : Bool) (pid : Pid)
    (hp : s.heap p = some j) (hnz : ∀ x ∈ j.pids, x ≠ 0) (hlen : j.pids.length < MAXJOBS) :
    register_child s p bg pid = .ok
      { s with
        heap := fun q => if q = p then some (with_child j bg s.tty_attrs pid) else s.heap q
        out := s.out ++ (if bg then [.text ("[" ++ fmt_u j.jid ++ "] " ++ fmt_u pid ++ "\n")]
                         else []) } := by
  have hidx : findEmptyPIDSlot j = ((j.pids.length : Nat) : Int) := by
    unfold findEmptyPIDSlot
    rw [findEmptyPIDSlot_scan_full j.pids 0 MAXJOBS hnz hlen]
    simp
  have hneg : ¬ (((j.pids.length : Nat) : Int) < 0) := by omega
  unfold register_child
  simp only [bind, Except.bind, deref_of_heap hp, hidx, hneg, if_false, pure, Except.pure,
    Int.toNat_natCast, pids_set_end]
  cases bg with
  | false =>
    simp only [Bool.false_eq_true, if_false, Except.ok.injEq, store, with_child,
      List.append_nil]
  | true =>
    simp only [if_true, store_store]
    have hd3 : deref (printf (store s p
        { j with pids := j.pids ++ [pid], num_processes_alive := j.num_processes_alive + 1,
                 status := .BACKGROUND })
        ("[" ++ fmt_u j.jid ++ "] " ++ fmt_u pid ++ "\n")) p =
        .ok { j with pids := j.pids ++ [pid], num_processes_alive := j.num_processes_alive + 1,
                     status := .BACKGROUND } :=
      deref_of_heap (by simp [printf, emit, store])
    rw [hd3]
    simp only [Except.ok.injEq, store, printf, emit, with_child, State.mk.injEq, and_true,
      true_and, if_true]
    funext q
    by_cases hq : q = p <;> simp [hq]

theorem interpret_stage_external (pipe : ast_pipeline) (n : Nat) (s : State) (l : locals)
    (cmd : ast_command) (env : stage_env) (h : cmd.external = true) :
    ∃ name, cmd.argv.head? = some name ∧ interpret_stage pipe n s l cmd env =
      (spawn_stage pipe n s l cmd name env).map fun r => (r.1, { r.2 with cnt := r.2.cnt + 1 }) := by
  unfold ast_command.external at h
  cases hargv : cmd.argv with
  | nil => simp [hargv] at h
  | cons name rest =>
    simp only [hargv, builtin_names, Bool.not_eq_true', List.contains_cons, List.contains_nil,
      Bool.or_false, Bool.or_eq_false_iff, beq_eq_false_iff_ne, ne_eq] at h
    obtain ⟨h1, h2, h3, h4, h5, h6, h7, h8, h9⟩ := h
    refine ⟨name, rfl, ?_⟩
    unfold interpret_stage
    simp only [hargv, h1, h2, h3, h4, h5, h6, h7, h8, h9, if_false, bind, Except.bind,
      Except.map]
    cases spawn_stage pipe n s l cmd name env with
    | error e => rfl
    | ok r => rfl

theorem spawn_stage_later (pipe : ast_pipeline) (n : Nat) (s : State) (l : locals)
    (cmd : ast_command) (name : String) (env : stage_env) (p : JobPtr) (j : job)
    (hcnt : l.cnt ≠ 0) (hjob : l.job = some p) (hp : s.heap p = some j) :
    ∃ u, LogsOnly s u ∧
      spawn_stage pipe n s l cmd name env =
        if env.spawn_ret = 0 then
          (register_child u p pipe.bg_job env.childPID).map fun t =>
            (t, { l with returnCode := env.spawn_ret })
        else .ok (u, { l with returnCode := env.spawn_ret }) := by
  by_cases hret : env.spawn_ret = 0
  · by_cases hlast : l.cnt + 1 = n
    · apply Exists.intro
      apply And.intro
      rotate_left
      ·
        unfold spawn_stage
        simp only [hcnt, hlast, hjob, hret, decide_False, decide_True, Bool.false_eq_true, if_false,
          if_true, bind, Except.bind, deref_of_heap hp, pure, Except.pure, not_false_eq_true,
          true_and, and_true, not_true_eq_false, false_and, and_false, Except.map]
        rfl
      · exact ⟨_, _, _, rfl⟩
    · apply Exists.intro
      apply And.intro
      rotate_left
      ·
        unfold spawn_stage
        simp only [hcnt, hlast, hjob, hret, decide_False, decide_True, Bool.false_eq_true, if_false,
          if_true, bind, Except.bind, deref_of_heap hp, pure, Except.pure, not_false_eq_true,
          true_and, and_true, not_true_eq_false, false_and, and_false, Except.map]
        rfl
      · exact ⟨_, _, _, rfl⟩
  · by_cases hlast : l.cnt + 1 = n
    · apply Exists.intro
      apply And.intro
      rotate_left
      ·
        unfold spawn_stage
        simp only [hcnt, hlast, hjob, hret, decide_False, decide_True, Bool.false_eq_true, if_false,
          if_true, bind, Except.bind, deref_of_heap hp, pure, Except.pure, not_false_eq_true,
          true_and, and_true, not_true_eq_false, false_and, and_false]
        rfl
      · exact ⟨_, _, _, rfl⟩
    · apply Exists.intro
      apply And.intro
      rotate_left
      ·
        unfold spawn_stage
        simp only [hcnt, hlast, hjob, hret, decide_False, decide_True, Bool.false_eq_true, if_false,
          if_true, bind, Except.bind, deref_of_heap hp, pure, Except.pure, not_false_eq_true,
          true_and, and_true, not_true_eq_false, false_and, and_false]
        rfl
      · exact ⟨_, _, _, rfl⟩

theorem spawned_pids_append (a b : List stage_env) :
    spawned_pids (a ++ b) = spawned_pids a ++ spawned_pids b := by
  simp [spawned_pids]

theorem spawned_pids_ok (e : stage_env) (h : e.spawn_ret = 0) :
    spawned_pids [e] = [e.childPID] := by
  simp [spawned_pids, h]

theorem spawned_pids_failed (e : stage_env) (h : e.spawn_ret ≠ 0) :
    spawned_pids [e] = [] := by
  simp [spawned_pids, h]

theorem launched_failed (pipe : ast_pipeline) (i : Int) (a : termios) (done : List stage_env)
    (e : stage_env) (h : e.spawn_ret ≠ 0) :
    launched pipe i a (done ++ [e]) = launched pipe i a done := by
  simp [launched, spawned_pids_append, spawned_pids_failed e h]

theorem launched_ok (pipe : ast_pipeline) (i : Int) (a : termios) (done : List stage_env)
    (e : stage_env) (h : e.spawn_ret = 0) :
    launched pipe i a (done ++ [e]) =
      with_child (launched pipe i a done) pipe.bg_job a e.childPID := by
  cases hbg : pipe.bg_job <;>
    simp [launched, with_child, spawned_pids_append, spawned_pids_ok e h, hbg]

theorem acknowledged_failed (pipe : ast_pipeline) (i : Int) (done : List stage_env)
    (e : stage_env) (h : e.spawn_ret ≠ 0) :
    acknowledged pipe i (done ++ [e]) = acknowledged pipe i done := by
  simp [acknowledged, spawned_pids_append, spawned_pids_failed e h]

theorem acknowledged_ok (pipe : ast_pipeline) (i : Int) (done : List stage_env)
    (e : stage_env) (h : e.spawn_ret = 0) :
    acknowledged pipe i (done ++ [e]) = acknowledged pipe i done ++
      (if pipe.bg_job then [.text ("[" ++ fmt_u i ++ "] " ++ fmt_u e.childPID ++ "\n")]
       else []) := by
  cases hbg : pipe.bg_job <;>
    simp [acknowledged, spawned_pids_append, spawned_pids_ok e h, hbg]

theorem add_job_with_job (s : State) (pipe : ast_pipeline) (i : Nat) (a : termios)
    (h : add_job_scan s.jid2job 1 (MAXJOBS - 1) = some i) :
    add_job s pipe = .ok (s.with_job i (launched pipe i a []) [], s.brk) := by
  rw [add_job_of_scan s pipe i h]
  simp only [store, set_slot, list_push_back, fresh_job, State.with_job, launched, spawned_pids,
    List.filter_nil, List.map_nil, ne_eq, not_true_eq_false, and_false, if_false,
    List.length_nil, Nat.cast_zero, List.append_nil, Except.ok.injEq, Prod.mk.injEq, and_true,
    State.mk.injEq, true_and]
  funext q
  by_cases hq : q = s.brk <;> simp [hq]

theorem spawn_outcome (pipe : ast_pipeline) (s0 : State) (i : Nat) (done : List stage_env)
    (e : stage_env) (u : State)
    (hlog : LogsOnly (s0.with_job i (launched pipe i s0.tty_attrs done)
      (acknowledged pipe i done)) u)
    (hnz : ∀ x ∈ spawned_pids done, x ≠ 0)
    (hlen : (spawned_pids (done ++ [e])).length ≤ MAXJOBS) :
    ∃ t1, LogsOnly (s0.with_job i (launched pipe i s0.tty_attrs (done ++ [e]))
        (acknowledged pipe i (done ++ [e]))) t1 ∧
      (if e.spawn_ret = 0 then register_child u s0.brk pipe.bg_job e.childPID else .ok u)
        = .ok t1 := by
  by_cases hret : e.spawn_ret = 0
  · obtain ⟨sp, fd, pg, rfl⟩ := hlog
    have hl : (launched pipe i s0.tty_attrs done).pids.length < MAXJOBS := by
      rw [spawned_pids_append, spawned_pids_ok e hret] at hlen
      simp only [List.length_append, List.length_singleton] at hlen
      exact hlen
    have hreg := register_child_ok
      { s0.with_job i (launched pipe i s0.tty_attrs done) (acknowledged pipe i done) with
        spawns := sp, fd_calls := fd, tty_pgrp := pg } s0.brk
      (launched pipe i s0.tty_attrs done) pipe.bg_job e.childPID
      (by simp [State.with_job]) hnz hl
    refine ⟨_, ⟨sp, fd, pg, ?_⟩, by rw [if_pos hret]; exact hreg⟩
    simp only [State.with_job, launched_ok pipe i s0.tty_attrs done e hret,
      acknowledged_ok pipe i done e hret, State.mk.injEq, true_and, and_true,
      List.append_assoc]
    refine ⟨?_, ?_⟩
    · funext q
      by_cases hq : q = s0.brk <;> simp [hq]
    · simp [launched]
  · refine ⟨u, ?_, by rw [if_neg hret]⟩
    rw [launched_failed pipe i s0.tty_attrs done e hret, acknowledged_failed pipe i done e hret]
    exact hlog

theorem spawn_stage_first (pipe : ast_pipeline) (n : Nat) (s : State) (l : locals)
    (cmd : ast_command) (name : String) (env : stage_env) (p : JobPtr) (s1 : State)
    (hcnt : l.cnt = 0) (hadd : add_job s pipe = .ok (s1, p)) :
    ∃ u l1, LogsOnly s1 u ∧ l1.job = some p ∧ l1.cnt = 0 ∧ l1.returnCode = env.spawn_ret ∧
      spawn_stage pipe n s l cmd name env =
        if env.spawn_ret = 0 then
          (register_child u p pipe.bg_job env.childPID).map fun t => (t, l1)
        else .ok (u, l1) := by
  by_cases hret : env.spawn_ret = 0
  · by_cases hlast : (0 : Nat) + 1 = n
    · apply Exists.intro
      apply Exists.intro
      refine ⟨?_, ?_, ?_, ?_, ?_⟩
      rotate_left 4
      · unfold spawn_stage
        simp only [hcnt, hlast, hadd, hret, decide_False, decide_True, Bool.false_eq_true,
          if_false, if_true, bind, Except.bind, pure, Except.pure, not_false_eq_true,
          true_and, and_true, not_true_eq_false, false_and, and_false, Except.map]
        rfl
      · exact ⟨_, _, _, rfl⟩
      · rfl
      · rfl
      · exact hret.symm
    · apply Exists.intro
      apply Exists.intro
      refine ⟨?_, ?_, ?_, ?_, ?_⟩
      rotate_left 4
      · unfold spawn_stage
        simp only [hcnt, hlast, hadd, hret, decide_False, decide_True, Bool.false_eq_true,
          if_false, if_true, bind, Except.bind, pure, Except.pure, not_false_eq_true,
          true_and, and_true, not_true_eq_false, false_and, and_false, Except.map]
        rfl
      · exact ⟨_, _, _, rfl⟩
      · rfl
      · rfl
      · exact hret.symm
  · by_cases hlast : (0 : Nat) + 1 = n
    · apply Exists.intro
      apply Exists.intro
      refine ⟨?_, ?_, ?_, ?_, ?_⟩
      rotate_left 4
      · unfold spawn_stage
        simp only [hcnt, hlast, hadd, hret, decide_False, decide_True, Bool.false_eq_true,
          if_false, if_true, bind, Except.bind, pure, Except.pure, not_false_eq_true,
          true_and, and_true, not_true_eq_false, false_and, and_false]
        rfl
      · exact ⟨_, _, _, rfl⟩
      · rfl
      · rfl
      · rfl
    · apply Exists.intro
      apply Exists.intro
      refine ⟨?_, ?_, ?_, ?_, ?_⟩
      rotate_left 4
      · unfold spawn_stage
        simp only [hcnt, hlast, hadd, hret, decide_False, decide_True, Bool.false_eq_true,
          if_false, if_true, bind, Except.bind, pure, Except.pure, not_false_eq_true,
          true_and, and_true, not_true_eq_false, false_and, and_false]
        rfl
      · exact ⟨_, _, _, rfl⟩
      · rfl
      · rfl
      · rfl


theorem external_stage_later (pipe : ast_pipeline) (n : Nat) (s0 : State) (i : Nat)
    (done : List stage_env) (e : stage_env) (t : State) (l : locals) (cmd : ast_command)
    (hext : cmd.external = true)
    (hlog : LogsOnly (s0.with_job i (launched pipe i s0.tty_attrs done)
      (acknowledged pipe i done)) t)
    (hjob : l.job = some s0.brk) (hcnt : l.cnt ≠ 0)
    (hnz : ∀ x ∈ spawned_pids done, x ≠ 0)
    (hlen : (spawned_pids (done ++ [e])).length ≤ MAXJOBS) :
    ∃ t1 l1, interpret_stage pipe n t l cmd e = .ok (t1, l1) ∧
      LogsOnly (s0.with_job i (launched pipe i s0.tty_attrs (done ++ [e]))
        (acknowledged pipe i (done ++ [e]))) t1 ∧
      l1.job = some s0.brk ∧ l1.cnt = l.cnt + 1 ∧ l1.returnCode = e.spawn_ret := by
  obtain ⟨name, _, hst⟩ := interpret_stage_external pipe n t l cmd e hext
  have hp : t.heap s0.brk = some (launched pipe i s0.tty_attrs done) := by
    obtain ⟨sp, fd, pg, rfl⟩ := hlog
    simp [State.with_job]
  obtain ⟨u, hu, hsp⟩ := spawn_stage_later pipe n t l cmd name e s0.brk _ hcnt hjob hp
  have hlog1 : LogsOnly (s0.with_job i (launched pipe i s0.tty_attrs done)
      (acknowledged pipe i done)) u := by
    obtain ⟨sp, fd, pg, rfl⟩ := hlog
    obtain ⟨sp1, fd1, pg1, rfl⟩ := hu
    exact ⟨sp1, fd1, pg1, rfl⟩
  obtain ⟨t1, ht1, hreg⟩ := spawn_outcome pipe s0 i done e u hlog1 hnz hlen
  refine ⟨t1, { l with returnCode := e.spawn_ret, cnt := l.cnt + 1 }, ?_, ht1, hjob, rfl, rfl⟩
  rw [hst, hsp]
  by_cases hret : e.spawn_ret = 0
  · rw [if_pos hret] at hreg ⊢
    rw [hreg]
    rfl
  · rw [if_neg hret] at hreg ⊢
    cases hreg
    rfl

theorem external_stage_first (pipe : ast_pipeline) (n : Nat) (s0 : State) (i : Nat)
    (e : stage_env) (l : locals) (cmd : ast_command)
    (hext : cmd.external = true)
    (hscan : add_job_scan s0.jid2job 1 (MAXJOBS - 1) = some i)
    (hcnt : l.cnt = 0) :
    ∃ t1 l1, interpret_stage pipe n s0 l cmd e = .ok (t1, l1) ∧
      LogsOnly (s0.with_job i (launched pipe i s0.tty_attrs [e])
        (acknowledged pipe i [e])) t1 ∧
      l1.job = some s0.brk ∧ l1.cnt = 1 ∧ l1.returnCode = e.spawn_ret := by
  obtain ⟨name, _, hst⟩ := interpret_stage_external pipe n s0 l cmd e hext
  obtain ⟨u, l1, hu, hj, hc, hr, hsp⟩ := spawn_stage_first pipe n s0 l cmd name e s0.brk _ hcnt
    (add_job_with_job s0 pipe i s0.tty_attrs hscan)
  have hlen : (spawned_pids ([] ++ [e])).length ≤ MAXJOBS := by
    have h1 : (spawned_pids [e]).length ≤ 1 := by
      unfold spawned_pids
      rw [List.length_map]
      exact List.length_filter_le _ _
    have h2 : 1 ≤ MAXJOBS := by decide
    exact le_trans h1 h2
  have hack : acknowledged pipe (i : Int) [] = [] := by
    simp [acknowledged, spawned_pids]
  rw [← hack] at hu
  obtain ⟨t1, ht1, hreg⟩ := spawn_outcome pipe s0 i [] e u hu (by simp [spawned_pids]) hlen
  refine ⟨t1, { l1 with cnt := l1.cnt + 1 }, ?_, ht1, hj, by simp [hc], hr⟩
  rw [hst, hsp]
  by_cases hret : e.spawn_ret = 0
  · rw [if_pos hret] at hreg ⊢
    rw [hreg]
    rfl
  · rw [if_neg hret] at hreg ⊢
    cases hreg
    rfl

theorem last_ret_cons (e : stage_env) (es : List stage_env) (d : Int) :
    ((e :: es).getLast?.map fun x => x.spawn_ret).getD d =
      (es.getLast?.map fun x => x.spawn_ret).getD e.spawn_ret := by
  cases es with
  | nil => rfl
  | cons e1 es1 =>
    rw [List.getLast?_cons_cons, List.getLast?_eq_getLast _ (List.cons_ne_nil _ _)]
    rfl

theorem external_stages_later (pipe : ast_pipeline) (n : Nat) (s0 : State) (i : Nat) :
    ∀ (cmds : List ast_command) (envs done : List stage_env) (t : State) (l : locals),
      (∀ c ∈ cmds, c.external = true) → envs.length = cmds.length →
      LogsOnly (s0.with_job i (launched pipe i s0.tty_attrs done)
        (acknowledged pipe i done)) t →
      l.job = some s0.brk → l.cnt ≠ 0 →
      (∀ x ∈ spawned_pids (done ++ envs), x ≠ 0) →
      (spawned_pids (done ++ envs)).length ≤ MAXJOBS →
      ∃ t1 l1, interpret_stages pipe n t l cmds envs = .ok (t1, l1) ∧
        LogsOnly (s0.with_job i (launched pipe i s0.tty_attrs (done ++ envs))
          (acknowledged pipe i (done ++ envs))) t1 ∧
        l1.job = some s0.brk ∧ l1.cnt = l.cnt + cmds.length ∧
        l1.returnCode = (envs.getLast?.map fun e => e.spawn_ret).getD l.returnCode := by
  intro cmds
  induction cmds with
  | nil =>
    intro envs done t l _ hlen hlog hjob _ _ _
    have he : envs = [] := List.length_eq_zero.mp hlen
    subst he
    refine ⟨t, l, rfl, ?_, hjob, rfl, rfl⟩
    rw [List.append_nil]
    exact hlog
  | cons c cs ih =>
    intro envs done t l hext hlen hlog hjob hcnt hnz hmax
    cases envs with
    | nil => simp at hlen
    | cons e es =>
      have hsplit : done ++ e :: es = (done ++ [e]) ++ es := by simp
      have hsub : ∀ x ∈ spawned_pids (done ++ [e]), x ∈ spawned_pids (done ++ e :: es) := by
        intro x hx
        rw [hsplit, spawned_pids_append]
        exact List.mem_append_left _ hx
      have hnz1 : ∀ x ∈ spawned_pids done, x ≠ 0 := by
        intro x hx
        apply hnz x
        rw [spawned_pids_append]
        exact List.mem_append_left _ hx
      have hmax1 : (spawned_pids (done ++ [e])).length ≤ MAXJOBS := by
        rw [hsplit, spawned_pids_append, List.length_append] at hmax
        exact le_trans (Nat.le_add_right _ _) hmax
      obtain ⟨t1, l1, hst, hlog1, hjob1, hcnt1, hret1⟩ :=
        external_stage_later pipe n s0 i done e t l c (hext c (List.mem_cons_self _ _))
          hlog hjob hcnt hnz1 hmax1
      obtain ⟨t2, l2, hst2, hlog2, hjob2, hcnt2, hret2⟩ :=
        ih es (done ++ [e]) t1 l1 (fun c hc => hext c (List.mem_cons_of_mem _ hc))
          (by simpa using hlen) hlog1 hjob1 (by rw [hcnt1]; exact Nat.succ_ne_zero _)
          (by rw [← hsplit]; exact hnz) (by rw [← hsplit]; exact hmax)
      refine ⟨t2, l2, ?_, ?_, hjob2, ?_, ?_⟩
      · unfold interpret_stages
        simp only [List.headD_cons, List.tail_cons, bind, Except.bind, hst]
        exact hst2
      · rw [hsplit]
        exact hlog2
      · rw [hcnt2, hcnt1, List.length_cons]
        omega
      · rw [hret2, hret1, last_ret_cons]

theorem external_stages (pipe : ast_pipeline) (n : Nat) (s0 : State) (i : Nat)
    (cmds : List ast_command) (envs : List stage_env) (l : locals)
    (hne : cmds ≠ []) (hext : ∀ c ∈ cmds, c.external = true)
    (hlen : envs.length = cmds.length)
    (hscan : add_job_scan s0.jid2job 1 (MAXJOBS - 1) = some i)
    (hcnt : l.cnt = 0)
    (hnz : ∀ x ∈ spawned_pids envs, x ≠ 0)
    (hmax : (spawned_pids envs).length ≤ MAXJOBS) :
    ∃ t1 l1, interpret_stages pipe n s0 l cmds envs = .ok (t1, l1) ∧
      LogsOnly (s0.with_job i (launched pipe i s0.tty_attrs envs)
        (acknowledged pipe i envs)) t1 ∧
      l1.job = some s0.brk ∧ l1.cnt = cmds.length ∧
      l1.returnCode = (envs.getLast?.map fun e => e.spawn_ret).getD 0 := by
  cases cmds with
  | nil => exact absurd rfl hne
  | cons c cs =>
    cases envs with
    | nil => simp at hlen
    | cons e es =>
      obtain ⟨t1, l1, hst, hlog1, hjob1, hcnt1, hret1⟩ :=
        external_stage_first pipe n s0 i e l c (hext c (List.mem_cons_self _ _)) hscan hcnt
      obtain ⟨t2, l2, hst2, hlog2, hjob2, hcnt2, hret2⟩ :=
        external_stages_later pipe n s0 i cs es [e] t1 l1
          (fun c hc => hext c (List.mem_cons_of_mem _ hc)) (by simpa using hlen) hlog1 hjob1
          (by rw [hcnt1]; exact Nat.succ_ne_zero _) hnz hmax
      refine ⟨t2, l2, ?_, hlog2, hjob2, ?_, ?_⟩
      · unfold interpret_stages
        simp only [List.headD_cons, List.tail_cons, bind, Except.bind, hst]
        exact hst2
      · rw [hcnt2, hcnt1, List.length_cons]
        omega
      · rw [hret2, hret1, last_ret_cons]

theorem spawned_pids_nonzero (envs : List stage_env)
    (h : ∀ e ∈ envs, e.spawn_ret = 0 → e.childPID ≠ 0) : ∀ x ∈ spawned_pids envs, x ≠ 0 := by
  intro x hx
  unfold spawned_pids at hx
  obtain ⟨e, he, rfl⟩ := List.mem_map.mp hx
  have h1 := List.mem_filter.mp he
  exact h e h1.1 (by simpa using h1.2)

theorem spawned_pids_length_le (envs : List stage_env) :
    (spawned_pids envs).length ≤ envs.length := by
  unfold spawned_pids
  rw [List.length_map]
  exact List.length_filter_le _ _

theorem scan_of_least (s : State) (i : Nat) (h1 : 1 ≤ i) (h2 : i < MAXJOBS)
    (hfree : s.jid2job i = none) (hmin : ∀ m, 1 ≤ m → m < i → s.jid2job m ≠ none) :
    add_job_scan s.jid2job 1 (MAXJOBS - 1) = some i :=
  add_job_scan_least _ 1 i h1 (by have : (1:Nat) + (MAXJOBS - 1) = MAXJOBS := by decide
                                  omega) hfree hmin

/-- C18 (the claim as worded fails): in the foreground pipeline `sleep 100 | stop 1`, whose
first stage is an external command, the second stage is the builtin `stop`, which acts on
the job the first stage has just created (`killpg` returns 0). When the stage loop ends the job has the member
101 and one live process, but its status is `STOPPED`, not `FOREGROUND`. -/
theorem stop_stage_changes_status :
    (simple_pipeline [["sleep", "100"], ["stop", "1"]] false).bg_job = false ∧
    ((simple_pipeline [["sleep", "100"], ["stop", "1"]] false).commands.head?.map
      fun c => c.external) = some true ∧
    ∃ t l,
      interpret_stages (simple_pipeline [["sleep", "100"], ["stop", "1"]] false) 2
        (State.init 7 1000) (locals.start 2)
        (simple_pipeline [["sleep", "100"], ["stop", "1"]] false).commands
        [spawn_ok 101, { stage_env.absent with killpg_ret := 0 }] = .ok (t, l) ∧
      l.job = some 0 ∧ pids_at t 0 = some [101] ∧ alive_at t 0 = some 1 ∧
      status_at t 0 = some .STOPPED := by
  refine ⟨rfl, by decide, _, _, rfl, ?_, ?_, ?_, ?_⟩ <;> decide

/-- C18 (amended): for every pipeline all of whose stages are external commands, run in a
registry where `i` is the smallest free job id, with child ids different from 0 and at most
`MAXJOBS` stages: the stage loop of `interpret` returns, its job is the record allocated at
`s.brk` with id `i`, the job's `num_processes_alive` is the number of stages whose spawn
returned 0, its `pids` are the child ids of exactly those stages in stage order, and its
status is `BACKGROUND` with the terminal attributes as `saved_tty_state` when the pipeline
is a background pipeline and at least one stage spawned, and `FOREGROUND` otherwise. -/
theorem stage_loop_registers_spawned (s : State) (pipe : ast_pipeline) (i : Nat)
    (envs : List stage_env)
    (hne : pipe.commands ≠ [])
    (hext : ∀ c ∈ pipe.commands, c.external = true)
    (hlen : envs.length = pipe.commands.length)
    (h1 : 1 ≤ i) (h2 : i < MAXJOBS) (hfree : s.jid2job i = none)
    (hmin : ∀ m, 1 ≤ m → m < i → s.jid2job m ≠ none)
    (hnz : ∀ e ∈ envs, e.spawn_ret = 0 → e.childPID ≠ 0)
    (hmax : pipe.commands.length ≤ MAXJOBS) :
    ∃ t l j,
      interpret_stages pipe pipe.commands.length s (locals.start pipe.commands.length)
        pipe.commands envs = .ok (t, l) ∧
      l.job = some s.brk ∧ t.heap s.brk = some j ∧ j.jid = (i : Int) ∧ j.pipe = pipe ∧
      j.num_processes_alive = (((envs.filter fun e => e.spawn_ret = 0).length : Nat) : Int) ∧
      j.pids = (envs.filter fun e => e.spawn_ret = 0).map (fun e => e.childPID) ∧
      (pipe.bg_job = true ∧ (∃ e ∈ envs, e.spawn_ret = 0) →
        j.status = .BACKGROUND ∧ j.saved_tty_state = s.tty_attrs) ∧
      (¬ (pipe.bg_job = true ∧ ∃ e ∈ envs, e.spawn_ret = 0) → j.status = .FOREGROUND) := by
  obtain ⟨t, l, hrun, hlog, hjob, _, _⟩ :=
    external_stages pipe pipe.commands.length s i pipe.commands envs
      (locals.start pipe.commands.length) hne hext hlen (scan_of_least s i h1 h2 hfree hmin) rfl
      (spawned_pids_nonzero envs hnz)
      (le_trans (spawned_pids_length_le envs) (hlen ▸ hmax))
  have hsp : (∃ e ∈ envs, e.spawn_ret = 0) ↔ spawned_pids envs ≠ [] := by
    unfold spawned_pids
    simp [List.filter_eq_nil_iff]
  refine ⟨t, l, launched pipe i s.tty_attrs envs, hrun, hjob, ?_, rfl, rfl, ?_, rfl, ?_, ?_⟩
  · obtain ⟨sp, fd, pg, rfl⟩ := hlog
    simp [State.with_job]
  · simp [launched, spawned_pids]
  · intro h
    have h3 : pipe.bg_job = true ∧ spawned_pids envs ≠ [] := ⟨h.1, hsp.mp h.2⟩
    simp only [launched, h3, and_self, if_true, ne_eq, not_false_eq_true]
  · intro h
    have h3 : ¬ (pipe.bg_job = true ∧ spawned_pids envs ≠ []) := fun h4 => h ⟨h4.1, hsp.mpr h4.2⟩
    simp only [launched, h3, if_false]

/-- The background pipeline `nosuch | sleep 5 | cat &` in the empty registry: the job gets
id 1, the members 102 and 103 of the two stages that spawned, two live processes, status
`BACKGROUND` and the terminal attributes 7. -/
theorem stage_loop_registers_spawned_witness :
    ∃ t l j,
      interpret_stages (simple_pipeline [["nosuch"], ["sleep", "5"], ["cat"]] true) 3
        (State.init 7 1000) (locals.start 3)
        (simple_pipeline [["nosuch"], ["sleep", "5"], ["cat"]] true).commands
        [spawn_fails, spawn_ok 102, spawn_ok 103] = .ok (t, l) ∧
      t.heap 0 = some j ∧ j.num_processes_alive = 2 ∧ j.pids = [102, 103] ∧
      j.status = .BACKGROUND ∧ j.saved_tty_state = 7 :=
  let ⟨t, l, j, e, _, hj, _, _, ha, hp, hb, _⟩ :=
    stage_loop_registers_spawned (State.init 7 1000)
      (simple_pipeline [["nosuch"], ["sleep", "5"], ["cat"]] true) 1
      [spawn_fails, spawn_ok 102, spawn_ok 103]
      (by decide) (by decide) (by decide) (by decide) (by decide) (by decide)
      (fun m h1 h2 => by omega) (by decide) (by decide)
  ⟨t, l, j, e, hj, ha, hp, hb ⟨rfl, spawn_ok 102, by decide, rfl⟩⟩

/-! ## Theorems: a foreground pipeline that runs to its end -/

theorem LogsOnly.sameRegistry {s u : State} (h : LogsOnly s u) : SameRegistry s u := by
  obtain ⟨sp, fd, pg, rfl⟩ := h
  exact ⟨rfl, rfl, rfl, rfl⟩

theorem SameRegistry.consistent {s u : State} (h : SameRegistry s u) (hc : Consistent s) :
    Consistent u := by
  obtain ⟨h1, h2, h3, _⟩ := h
  refine ⟨h2 ▸ hc.nodup, ?_, ?_⟩
  · intro p hp
    rw [h2] at hp
    rw [h1, h3]
    exact hc.listed p hp
  · intro i p hi
    rw [h3] at hi
    rw [h1, h2]
    exact hc.slots i p hi

theorem member_exit (s0 : State) (i : Nat) (J : job) (st : State) (pid : Pid) (status : Int)
    (hreg : SameRegistry (s0.with_job i J []) st)
    (halloc : ∀ q ∈ s0.job_list, ∃ j, s0.heap q = some j)
    (hfg : J.status = .FOREGROUND) (hmem : pid ∈ J.pids) (hlen : J.pids.length ≤ MAXJOBS)
    (hE : WIFEXITED status = true) :
    ∃ st1, handle_child_status st pid status = .ok st1 ∧
      SameRegistry
        (s0.with_job i { J with num_processes_alive := J.num_processes_alive - 1 } []) st1 := by
  obtain ⟨r1, r2, r3, r4⟩ := hreg
  have hp : st.heap s0.brk = some J := by rw [r1]; simp [State.with_job]
  have hown : Owns st s0.brk pid := by
    refine ⟨s0.job_list, [], J, by rw [r2]; rfl, hp, ?_, ?_, by simp⟩
    · obtain ⟨k, hk, hget⟩ := List.getElem_of_mem hmem
      refine ⟨k, lt_of_lt_of_le hk hlen, ?_⟩
      unfold pid_at
      rw [List.getD_eq_getElem _ _ hk]
      exact hget
    · intro q hq
      obtain ⟨j, hj⟩ := halloc q hq
      rw [r1]
      by_cases hqb : q = s0.brk
      · exact ⟨J, by simp [State.with_job, hqb]⟩
      · exact ⟨j, by simp [State.with_job, hqb, hj]⟩
  have hfind := find_job_of_owner hown
  unfold handle_child_status
  simp only [bind, Except.bind, hfind, deref_of_heap hp, pure, Except.pure, hE, if_true, hfg,
    true_and]
  by_cases h0 : status = 0
  · simp only [h0, if_true]
    refine ⟨_, rfl, ?_, r2, r3, r4⟩
    simp only [termstate_sample, store, r1, State.with_job]
    funext q
    by_cases hq : q = s0.brk <;> simp [hq]
  · simp only [h0, if_false]
    have hnb : ¬ (job_status.FOREGROUND = job_status.BACKGROUND) := by decide
    simp only [hnb, if_false]
    refine ⟨_, rfl, ?_, r2, r3, r4⟩
    simp only [store, r1, State.with_job]
    funext q
    by_cases hq : q = s0.brk <;> simp [hq]

theorem wait_members (s0 : State) (i : Nat) (rest : List reap)
    (halloc : ∀ q ∈ s0.job_list, ∃ j, s0.heap q = some j) :
    ∀ (reaps : List reap) (J : job) (st : State),
      SameRegistry (s0.with_job i J []) st →
      J.status = .FOREGROUND → J.pids.length ≤ MAXJOBS →
      J.num_processes_alive = ((reaps.length : Nat) : Int) →
      (∀ r ∈ reaps, r.child ∈ J.pids ∧ r.child ≠ -1 ∧ WIFEXITED r.status = true) →
      ∃ st1, wait_for_job s0.brk st (reaps ++ rest) = .ok (st1, rest) ∧
        SameRegistry (s0.with_job i { J with num_processes_alive := 0 } []) st1 := by
  intro reaps
  induction reaps with
  | nil =>
    intro J st hreg hfg _ hal _
    have hp : st.heap s0.brk = some J := by rw [hreg.1]; simp [State.with_job]
    refine ⟨st, ?_, ?_⟩
    · rw [List.nil_append]
      refine wait_for_job_idle rest hp ?_
      rw [hal]
      simp
    · have hJ : { J with num_processes_alive := 0 } = J := by
        cases J
        simp only [List.length_nil, Nat.cast_zero] at hal
        simp only [job.mk.injEq, true_and, and_true]
        exact hal.symm
      rw [hJ]
      exact hreg
  | cons r rs ih =>
    intro J st hreg hfg hlen hal hr
    have hp : st.heap s0.brk = some J := by rw [hreg.1]; simp [State.with_job]
    obtain ⟨hm, hne, hE⟩ := hr r (List.mem_cons_self _ _)
    have hw : waiting st s0.brk = true := by
      rw [waiting_iff]
      refine ⟨J, hp, hfg, ?_⟩
      rw [hal, List.length_cons]
      exact Int.natCast_pos.mpr (Nat.succ_pos _)
    have hreg1 : SameRegistry (s0.with_job i J []) { st with tty_attrs := r.attrs } :=
      ⟨hreg.1, hreg.2.1, hreg.2.2.1, hreg.2.2.2⟩
    obtain ⟨st1, hh, hreg2⟩ :=
      member_exit s0 i J _ r.child r.status hreg1 halloc hfg hm hlen hE
    obtain ⟨st2, hwait, hreg3⟩ :=
      ih { J with num_processes_alive := J.num_processes_alive - 1 } st1 hreg2 hfg hlen
        (by simp only [hal, List.length_cons]; push_cast; omega)
        (fun x hx => hr x (List.mem_cons_of_mem _ hx))
    refine ⟨st2, ?_, hreg3⟩
    rw [List.cons_append, wait_for_job_step r _ hw hne]
    simp only [bind, Except.bind, hh]
    exact hwait

theorem Collected.idle (s : State) : Collected s s :=
  ⟨fun _ h => ⟨h, rfl⟩, fun _ h1 h2 => absurd h1 h2, rfl⟩

theorem Collected.after {s u t : State} (h1 : Collected s u) (h2 : Collected u t) :
    Collected s t := by
  refine ⟨?_, ?_, h2.out.trans h1.out⟩
  · intro q hq
    obtain ⟨a1, a2⟩ := h2.kept q hq
    obtain ⟨b1, b2⟩ := h1.kept q a1
    exact ⟨b1, a2.trans b2⟩
  · intro q hq hnt
    by_cases hu : q ∈ u.job_list
    · have h3 := h2.gone q hu hnt
      unfold status_at at h3 ⊢
      rw [← (h1.kept q hu).2]
      exact h3
    · exact h1.gone q hq hu

theorem collected_drop {s : State} {a : JobPtr} {ja : job} (k : Nat) (hc : Consistent s)
    (ha : s.heap a = some ja) (hfin : ja.status = .FINISHED) : Collected s (s.drop a k) := by
  refine ⟨?_, ?_, rfl⟩
  · intro q hq
    have hq1 := (List.Nodup.mem_erase_iff hc.nodup).1 hq
    exact ⟨hq1.2, by simp [State.drop, hq1.1]⟩
  · intro q hq hnq
    have hqa : q = a := by
      by_contra hne
      exact hnq ((List.Nodup.mem_erase_iff hc.nodup).2 ⟨hne, hq⟩)
    subst hqa
    simp [status_at, ha, hfin]

theorem removeFinishedJobs_loop_collects :
    ∀ (fuel : Nat) (s : State) (cnt j : Nat), Consistent s →
      ∃ t, removeFinishedJobs_loop fuel s cnt j = .ok t ∧ Collected s t ∧ Consistent t := by
  intro fuel
  induction fuel with
  | zero =>
    intro s cnt j hc
    exact ⟨s, rfl, Collected.idle s, hc⟩
  | succ n ih =>
    intro s cnt j hc
    unfold removeFinishedJobs_loop
    by_cases hcond : cnt < list_size s ∧ j < MAXJOBS
    · rw [if_pos hcond]
      cases hslot : s.jid2job j with
      | none =>
        simp only []
        exact ih s cnt (j + 1) hc
      | some a =>
        obtain ⟨hl, ja, hja, hjid⟩ := hc.slots j a hslot
        obtain ⟨ja1, hja1, b1, b2, b3⟩ := hc.listed a hl
        have hsame : ja1 = ja := Option.some.inj (hja1.symm.trans hja)
        subst hsame
        simp only [bind, Except.bind, deref_of_heap hja]
        by_cases hfin : ja1.status = .FINISHED
        · rw [if_pos hfin]
          have hdel := delete_registered hja b1 b2 b3 hl
          simp only [bind, Except.bind] at hdel
          rw [hdel]
          simp only []
          obtain ⟨t, e, hcol, hct⟩ := ih (s.drop a ja1.jid.toNat) (cnt + 1) (j + 1)
            (consistent_drop hc hja b3)
          exact ⟨t, e, (collected_drop _ hc hja hfin).after hcol, hct⟩
        · rw [if_neg hfin]
          simp only [pure, Except.pure]
          exact ih s (cnt + 1) (j + 1) hc
    · rw [if_neg hcond]
      exact ⟨s, rfl, Collected.idle s, hc⟩

theorem removeFinishedJobs_collects (s : State) (hc : Consistent s) :
    ∃ t, removeFinishedJobs s = .ok t ∧ Collected s t ∧ Consistent t :=
  removeFinishedJobs_loop_collects _ s 0 0 hc

theorem spawned_pids_all (envs : List stage_env) (h : ∀ e ∈ envs, e.spawn_ret = 0) :
    spawned_pids envs = envs.map fun e => e.childPID := by
  unfold spawned_pids
  rw [List.filter_eq_self.mpr (fun e he => by simpa using h e he)]

theorem close_pipes_same (n : Nat) (s : State) (l : locals) :
    SameRegistry s (close_pipes n s l) := by
  unfold close_pipes
  by_cases h : 1 < n
  · rw [if_pos h]
    exact ⟨rfl, rfl, rfl, rfl⟩
  · rw [if_neg h]
    exact ⟨rfl, rfl, rfl, rfl⟩

theorem SameRegistry.next {s u t : State} (h1 : SameRegistry s u) (h2 : SameRegistry u t) :
    SameRegistry s t :=
  ⟨h2.1.trans h1.1, h2.2.1.trans h1.2.1, h2.2.2.1.trans h1.2.2.1, h2.2.2.2.trans h1.2.2.2⟩

theorem Collected.of_same {s u t : State} (h : SameRegistry s u) (hcol : Collected u t) :
    Collected s t := by
  obtain ⟨r1, r2, _, r4⟩ := h
  refine ⟨?_, ?_, hcol.out.trans r4⟩
  · intro q hq
    obtain ⟨a1, a2⟩ := hcol.kept q hq
    exact ⟨r2 ▸ a1, by rw [a2, r1]⟩
  · intro q hq hnq
    have h3 := hcol.gone q (by rw [r2]; exact hq) hnq
    unfold status_at at h3 ⊢
    rw [← r1]
    exact h3

theorem finish_after_exits (s : State) (i : Nat) (J : job) (st : State) (l : locals)
    (mine rest : List reap)
    (hc : Consistent s) (hfresh : s.heap s.brk = none)
    (h1 : 1 ≤ i) (h2 : i < MAXJOBS) (hfree : s.jid2job i = none)
    (hreg : SameRegistry (s.with_job i J []) st)
    (hjid : J.jid = (i : Int)) (hfg : J.status = .FOREGROUND)
    (hlen : J.pids.length ≤ MAXJOBS)
    (hal : J.num_processes_alive = ((mine.length : Nat) : Int))
    (hr : ∀ r ∈ mine, r.child ∈ J.pids ∧ r.child ≠ -1 ∧ WIFEXITED r.status = true)
    (hret : l.returnCode = 0) (hjob : l.job = some s.brk) :
    ∃ t, interpret_finish st l (mine ++ rest) = .ok t ∧ t.heap s.brk = none ∧
      Consistent t ∧ Collected s t := by
  have halloc : ∀ q ∈ s.job_list, ∃ j, s.heap q = some j := by
    intro q hq
    obtain ⟨j, hj, _⟩ := hc.listed q hq
    exact ⟨j, hj⟩
  have hnl : s.brk ∉ s.job_list := by
    intro hq
    obtain ⟨j, hj⟩ := halloc _ hq
    rw [hfresh] at hj
    cases hj
  obtain ⟨st1, hwait, hreg1⟩ := wait_members s i rest halloc mine J st hreg hfg hlen hal hr
  have hp : st.heap s.brk = some J := by rw [hreg.1]; simp [State.with_job]
  obtain ⟨r1, r2, r3, r4⟩ := hreg1
  have hp1 : st1.heap s.brk = some { J with num_processes_alive := 0 } := by
    rw [r1]; simp [State.with_job]
  have hi : (i : Int).toNat = i := Int.toNat_natCast i
  have hdel := @delete_registered st1 s.brk { J with num_processes_alive := 0 } hp1
    (by simp only [hjid]; omega) (by simp only [hjid]; omega)
    (by simp only [hjid, hi, r3]; simp [State.with_job])
    (by rw [r2]; simp [State.with_job])
  simp only [bind, Except.bind, hjid, hi] at hdel
  have hsame : SameRegistry s (st1.drop s.brk i) := by
    refine ⟨?_, ?_, ?_, ?_⟩
    · simp only [State.drop, r1, State.with_job]
      funext q
      by_cases hq : q = s.brk
      · simp [hq, hfresh]
      · simp [hq]
    · simp only [State.drop, r2, State.with_job]
      rw [List.erase_append_right _ hnl]
      simp
    · simp only [State.drop, r3, State.with_job]
      funext k
      by_cases hk : k = i
      · simp [hk, hfree]
      · simp [hk]
    · simp only [State.drop, r4, State.with_job, List.append_nil]
  obtain ⟨t3, hrem, hcol, hct⟩ := removeFinishedJobs_collects _ (hsame.consistent hc)
  refine ⟨termstate_give_terminal_back_to_shell t3, ?_, ?_, ⟨hct.nodup, hct.listed, hct.slots⟩,
    ?_⟩
  · unfold interpret_finish
    simp only [hret, ne_eq, not_true_eq_false, if_false, hjob, bind, Except.bind,
      deref_of_heap hp, hfg, if_true, hwait, deref_of_heap hp1, hdel, hrem, pure, Except.pure]
  · cases hh : t3.heap s.brk with
    | none => exact hh
    | some j3 =>
      obtain ⟨j, hj, _⟩ := (keeps_removeFinishedJobs hrem).heap _ _ hh
      simp [State.drop] at hj
  · have hcol1 := Collected.of_same hsame hcol
    exact ⟨hcol1.kept, hcol1.gone, hcol1.out⟩

/-- C16: a foreground pipeline all of whose stages are external commands is run in a
well-formed registry with a free job id; every stage spawns, and the reaps of the wait are
the exits of the members, each member once, in any order and with any exit code (`mine`;
what the environment would report after them is `rest`). Then `interpret`'s body for the
pipeline returns; the record of the job it created is freed, the job is not in `job_list`
and no slot of `jid2job` points to it; nothing was printed, so no status line for the job;
every job still listed was listed before with the same record, and every job that was
listed before and is no longer listed had the status `FINISHED`. -/
theorem foreground_pipeline_leaves_no_job (s : State) (pipe : ast_pipeline)
    (env : pipeline_env) (mine rest : List reap)
    (hc : Consistent s) (hfresh : s.heap s.brk = none)
    (hid : ∃ k, 1 ≤ k ∧ k < MAXJOBS ∧ s.jid2job k = none)
    (hne : pipe.commands ≠ []) (hext : ∀ c ∈ pipe.commands, c.external = true)
    (hfg : pipe.bg_job = false)
    (hlen : env.stages.length = pipe.commands.length)
    (hmax : pipe.commands.length ≤ MAXJOBS)
    (hall : ∀ e ∈ env.stages, e.spawn_ret = 0 ∧ 0 < e.childPID)
    (hreaps : env.reaps = mine ++ rest)
    (hperm : (mine.map fun r => r.child).Perm (env.stages.map fun e => e.childPID))
    (hexit : ∀ r ∈ mine, WIFEXITED r.status = true) :
    ∃ t, interpret_pipeline s pipe env = .ok t ∧
      t.heap s.brk = none ∧ s.brk ∉ t.job_list ∧ (∀ k, t.jid2job k ≠ some s.brk) ∧
      t.out = s.out ∧
      (∀ q ∈ t.job_list, q ∈ s.job_list ∧ t.heap q = s.heap q) ∧
      (∀ q ∈ s.job_list, q ∉ t.job_list → status_at s q = some .FINISHED) := by
  have hM : 1 + (MAXJOBS - 1) = MAXJOBS := by decide
  obtain ⟨i, hscan⟩ : ∃ i, add_job_scan s.jid2job 1 (MAXJOBS - 1) = some i := by
    cases h : add_job_scan s.jid2job 1 (MAXJOBS - 1) with
    | some i => exact ⟨i, rfl⟩
    | none =>
      obtain ⟨k, k1, k2, k3⟩ := hid
      exact absurd k3 ((add_job_scan_none _ _).1 h k k1 (by rw [hM]; exact k2))
  obtain ⟨h1, h2, hfree, _⟩ := add_job_scan_some _ _ _ hscan
  rw [hM] at h2
  have hret0 : ∀ e ∈ env.stages, e.spawn_ret = 0 := fun e he => (hall e he).1
  have hpids := spawned_pids_all env.stages hret0
  have hnz : ∀ x ∈ spawned_pids env.stages, x ≠ 0 :=
    spawned_pids_nonzero env.stages (fun e he _ => ne_of_gt (hall e he).2)
  have hmx : (spawned_pids env.stages).length ≤ MAXJOBS :=
    le_trans (spawned_pids_length_le env.stages) (hlen ▸ hmax)
  obtain ⟨t1, l1, hrun, hlog, hjob, _, hret⟩ :=
    external_stages pipe pipe.commands.length s i pipe.commands env.stages
      (locals.start pipe.commands.length) hne hext hlen hscan rfl hnz hmx
  have hack : acknowledged pipe (i : Int) env.stages = [] := by simp [acknowledged, hfg]
  rw [hack] at hlog
  have hl0 : l1.returnCode = 0 := by
    rw [hret]
    cases hlast : env.stages.getLast? with
    | none => rfl
    | some e => exact hret0 e (List.mem_of_mem_getLast? (by rw [hlast]; exact rfl))
  have hreg := hlog.sameRegistry.next (close_pipes_same pipe.commands.length t1 l1)
  have hJfg : (launched pipe i s.tty_attrs env.stages).status = .FOREGROUND := by
    simp [launched, hfg]
  have hml : mine.length = env.stages.length := by
    have := hperm.length_eq
    simpa using this
  obtain ⟨t, hfin, hnone, hct, hcol⟩ :=
    finish_after_exits s i (launched pipe i s.tty_attrs env.stages) _ l1 mine rest hc hfresh
      h1 h2 hfree hreg rfl hJfg hmx
      (by simp [launched, hpids, hml])
      (by
        intro r hr
        have hm : r.child ∈ env.stages.map fun e => e.childPID :=
          hperm.mem_iff.1 (List.mem_map_of_mem _ hr)
        refine ⟨by simp only [launched, hpids]; exact hm, ?_, hexit r hr⟩
        obtain ⟨e, he, hce⟩ := List.mem_map.1 hm
        intro hneg
        have hpos := (hall e he).2
        rw [hce, hneg] at hpos
        exact absurd hpos (by decide))
      hl0 hjob
  have hnl : s.brk ∉ t.job_list := by
    intro hq
    obtain ⟨j, hj, _⟩ := hct.listed _ hq
    rw [hnone] at hj
    cases hj
  refine ⟨t, ?_, hnone, hnl, ?_, hcol.out, hcol.kept, hcol.gone⟩
  · unfold interpret_pipeline
    simp only [bind, Except.bind, hrun, hreaps]
    exact hfin
  · intro k hk
    exact hnl (hct.slots k _ hk).1

/-- The spec's scenario `false`: with the stopped job 1 of `vim` registered, the foreground
pipeline `false` spawns child 102, which exits with code 1 (raw status 256). -/
theorem foreground_pipeline_leaves_no_job_witness :
    ∃ t, interpret_pipeline (single_job .STOPPED) (simple_pipeline [["false"]] false)
        { stages := [spawn_ok 102], reaps := [⟨102, 256, 7⟩] } = .ok t ∧
      t.heap 1 = none ∧ 1 ∉ t.job_list ∧ (∀ k, t.jid2job k ≠ some 1) ∧
      t.out = [] ∧
      (∀ q ∈ t.job_list, q ∈ [0] ∧ t.heap q = (single_job .STOPPED).heap q) ∧
      (∀ q ∈ (single_job .STOPPED).job_list, q ∉ t.job_list →
        status_at (single_job .STOPPED) q = some .FINISHED) :=
  foreground_pipeline_leaves_no_job (single_job .STOPPED) (simple_pipeline [["false"]] false)
    { stages := [spawn_ok 102], reaps := [⟨102, 256, 7⟩] } [⟨102, 256, 7⟩] []
    (consistent_single_job .STOPPED) (by simp [single_job, State.init])
    ⟨2, by decide, by decide, by simp [single_job, State.init]⟩
    (by decide) (by decide) rfl rfl (by decide) (by decide) rfl (List.Perm.refl _) (by decide)

/-! ## Theorems: the saved terminal state -/

/-- C17 (the code departs from the claim): with the stopped job 1 of `vim` registered, the
command line `emacs | fg 2 | fg 1 | cat &` creates job 2 (record 1) for `emacs`; its stage
`fg 2` makes job 2 `FOREGROUND`, and the stopped event of its member 102 is reconciled with
terminal attributes 11, so that `saved_tty_state` is 11 when the stage ends (state `s3`).
The stage `fg 1` then changes the
terminal attributes to 13, and the registration of `cat` as a member of the background
pipeline overwrites `saved_tty_state` of job 2 with 13. A later `fg 2` sets the terminal
attributes to 13, not to 11. -/
theorem saved_state_overwritten_after_stop :
    ∃ s1 l1 s2 s3 l3 t u,
      interpret_stages resumed_in_pipeline 4 (single_job .STOPPED) (locals.start 4)
        (resumed_in_pipeline.commands.take 1) resumed_in_pipeline_env.stages = .ok (s1, l1) ∧
      cush_fg_resume s1 1 0 = .ok (s2, true) ∧ status_at s2 1 = some .FOREGROUND ∧
      WIFSTOPPED 5247 = true ∧
      handle_child_status { s2 with tty_attrs := 11 } 102 5247 = .ok s3 ∧
      status_at s3 1 = some .STOPPED ∧ saved_at s3 1 = some 11 ∧
      interpret_stages resumed_in_pipeline 4 (single_job .STOPPED) (locals.start 4)
        (resumed_in_pipeline.commands.take 2) resumed_in_pipeline_env.stages = .ok (s3, l3) ∧
      interpret_pipeline (single_job .STOPPED) resumed_in_pipeline resumed_in_pipeline_env
        = .ok t ∧
      get_job_from_jid t 2 = some 1 ∧ saved_at t 1 = some 13 ∧
      cush_fg_resume t 1 0 = .ok (u, true) ∧ u.tty_attrs = 13 := by
  refine ⟨_, _, _, _, _, _, _, rfl, rfl, ?_, ?_, rfl, ?_, ?_, rfl, rfl, ?_, ?_, rfl, ?_⟩ <;> decide

/-! ## Theorems: a pipeline with a failing spawn -/

theorem drop_new_job (s : State) (i : Nat) (J : job) (st : State)
    (hc : Consistent s) (hfresh : s.heap s.brk = none) (hfree : s.jid2job i = none)
    (h1 : st.heap = fun q => if q = s.brk then some J else s.heap q)
    (h2 : st.job_list = s.job_list ++ [s.brk])
    (h3 : st.jid2job = fun k => if k = i then some s.brk else s.jid2job k) :
    Consistent (st.drop s.brk i) ∧ (st.drop s.brk i).job_list = s.job_list ∧
      (st.drop s.brk i).heap = s.heap := by
  have hnl : s.brk ∉ s.job_list := by
    intro hq
    obtain ⟨j, hj, _⟩ := hc.listed _ hq
    rw [hfresh] at hj
    cases hj
  have e1 : (st.drop s.brk i).heap = s.heap := by
    simp only [State.drop, h1]
    funext q
    by_cases hq : q = s.brk
    · simp [hq, hfresh]
    · simp [hq]
  have e2 : (st.drop s.brk i).job_list = s.job_list := by
    simp only [State.drop, h2]
    rw [List.erase_append_right _ hnl]
    simp
  have e3 : (st.drop s.brk i).jid2job = s.jid2job := by
    simp only [State.drop, h3]
    funext k
    by_cases hk : k = i
    · simp [hk, hfree]
    · simp [hk]
  refine ⟨⟨e2 ▸ hc.nodup, ?_, ?_⟩, e2, e1⟩
  · intro p hp
    rw [e2] at hp
    rw [e1, e3]
    exact hc.listed p hp
  · intro k p hk
    rw [e3] at hk
    rw [e1, e2]
    exact hc.slots k p hk

theorem finish_after_failure (s : State) (i : Nat) (J : job) (acks : List Output) (st : State)
    (l : locals) (reaps : List reap)
    (hc : Consistent s) (hfresh : s.heap s.brk = none)
    (h1 : 1 ≤ i) (h2 : i < MAXJOBS) (hfree : s.jid2job i = none)
    (hreg : SameRegistry (s.with_job i J acks) st) (hjid : J.jid = (i : Int))
    (hret : l.returnCode ≠ 0) (hjob : l.job = some s.brk) :
    ∃ t, interpret_finish st l reaps = .ok t ∧
      t.out = s.out ++ acks ++ [.text "no such file or directory\n"] := by
  obtain ⟨r1, r2, r3, r4⟩ := hreg
  have hi : (i : Int).toNat = i := Int.toNat_natCast i
  have hp : (printf st "no such file or directory\n").heap s.brk = some J := by
    simp [printf, emit, r1, State.with_job]
  have hdel := @delete_registered (printf st "no such file or directory\n") s.brk J hp
    (by simp only [hjid]; omega) (by simp only [hjid]; omega)
    (by simp only [hjid, hi, printf, emit, r3]; simp [State.with_job])
    (by simp only [printf, emit, r2]; simp [State.with_job])
  simp only [bind, Except.bind, hjid, hi] at hdel
  obtain ⟨hcd, _, _⟩ := drop_new_job s i J (printf st "no such file or directory\n") hc hfresh
    hfree (by simp only [printf, emit, r1, State.with_job])
    (by simp only [printf, emit, r2, State.with_job])
    (by simp only [printf, emit, r3, State.with_job])
  obtain ⟨t3, hrem, hcol, _⟩ := removeFinishedJobs_collects _ hcd
  refine ⟨termstate_give_terminal_back_to_shell t3, ?_, ?_⟩
  · unfold interpret_finish
    simp only [hret, ne_eq, not_false_eq_true, if_true, hjob, bind, Except.bind, hdel, hrem,
      pure, Except.pure]
  · have : t3.out = s.out ++ acks ++ [.text "no such file or directory\n"] := by
      rw [hcol.out]
      simp only [State.drop, printf, emit, r4, State.with_job]
    exact this

theorem register_child_spawns {s t : State} {p : JobPtr} {bg : Bool} {pid : Pid}
    (h : register_child s p bg pid = .ok t) : t.spawns = s.spawns := by
  unfold register_child at h
  simp only [bind, Except.bind, pure, Except.pure] at h
  cases hd : deref s p with
  | error e => simp [hd] at h
  | ok j =>
    simp only [hd] at h
    by_cases hneg : findEmptyPIDSlot j < 0
    · simp [hneg, throw, throwThe, MonadExceptOf.throw] at h
    · simp only [hneg, if_false] at h
      cases bg with
      | false =>
        simp only [Bool.false_eq_true, if_false, Except.ok.injEq] at h
        subst h
        rfl
      | true =>
        simp only [if_true] at h
        split at h
        · simp at h
        · simp only [Except.ok.injEq] at h
          subst h
          rfl

theorem add_job_spawns {s t : State} {pipe : ast_pipeline} {p : JobPtr}
    (h : add_job s pipe = .ok (t, p)) : t.spawns = s.spawns := by
  cases hs : add_job_scan s.jid2job 1 (MAXJOBS - 1) with
  | none =>
    have hM : 1 + (MAXJOBS - 1) = MAXJOBS := by decide
    have : add_job s pipe = .error .aborted :=
      (add_job_aborts_iff s pipe).2 fun i a b =>
        (add_job_scan_none _ _).1 hs i a (by rw [hM]; exact b)
    rw [this] at h
    cases h
  | some i =>
    rw [add_job_of_scan s pipe i hs] at h
    simp only [Except.ok.injEq, Prod.mk.injEq] at h
    rw [← h.1]
    rfl

theorem spawn_stage_spawns {pipe : ast_pipeline} {n : Nat} {s t : State} {l l1 : locals}
    {cmd : ast_command} {name : String} {env : stage_env}
    (h : spawn_stage pipe n s l cmd name env = .ok (t, l1)) :
    t.spawns.map spawn_call.outcome =
      s.spawns.map spawn_call.outcome ++ [(name, env.spawn_ret)] := by
  by_cases hcnt : l.cnt = 0
  · cases hadd : add_job s pipe with
    | error e =>
      unfold spawn_stage at h
      simp [hcnt, hadd, bind, Except.bind] at h
    | ok r =>
      obtain ⟨s1, p⟩ := r
      have e1 := add_job_spawns hadd
      unfold spawn_stage at h
      by_cases hlast : (0 : Nat) + 1 = n <;> by_cases hret : env.spawn_ret = 0
      all_goals
        simp only [hcnt, hlast, hadd, hret, decide_False, decide_True, Bool.false_eq_true,
          if_false, if_true, bind, Except.bind, pure, Except.pure, not_false_eq_true,
          true_and, and_true, not_true_eq_false, false_and, and_false] at h
      all_goals
        first
        | (simp only [Except.ok.injEq, Prod.mk.injEq] at h
           rw [← h.1]
           simp [spawn_call.outcome, e1])
        | (split at h
           · simp at h
           · rename_i s5 hreg
             simp only [Except.ok.injEq, Prod.mk.injEq] at h
             rw [← h.1, register_child_spawns hreg]
             simp [spawn_call.outcome, e1, hret])
  · unfold spawn_stage at h
    cases hjob : l.job with
    | none => simp [hcnt, hjob, bind, Except.bind, throw, throwThe, MonadExceptOf.throw] at h
    | some p =>
      cases hd : deref s p with
      | error e => simp [hcnt, hjob, hd, bind, Except.bind] at h
      | ok j =>
        by_cases hlast : l.cnt + 1 = n <;> by_cases hret : env.spawn_ret = 0
        all_goals
          simp only [hcnt, hlast, hjob, hd, hret, decide_False, decide_True, Bool.false_eq_true,
            if_false, if_true, bind, Except.bind, pure, Except.pure, not_false_eq_true,
            true_and, and_true, not_true_eq_false, false_and, and_false] at h
        all_goals
          first
          | (simp only [Except.ok.injEq, Prod.mk.injEq] at h
             rw [← h.1]
             simp [spawn_call.outcome])
          | (split at h
             · simp at h
             · rename_i s5 hreg
               simp only [Except.ok.injEq, Prod.mk.injEq] at h
               rw [← h.1, register_child_spawns hreg]
               simp [spawn_call.outcome, hret])

theorem interpret_stages_spawns (pipe : ast_pipeline) (n : Nat) :
    ∀ (cmds : List ast_command) (envs : List stage_env) (s t : State) (l l1 : locals),
      (∀ c ∈ cmds, c.external = true) → envs.length = cmds.length →
      interpret_stages pipe n s l cmds envs = .ok (t, l1) →
      t.spawns.map spawn_call.outcome = s.spawns.map spawn_call.outcome ++
        (cmds.zip envs).map fun ce => (ce.1.argv.headD "", ce.2.spawn_ret) := by
  intro cmds
  induction cmds with
  | nil =>
    intro envs s t l l1 _ _ h
    simp only [interpret_stages, Except.ok.injEq, Prod.mk.injEq] at h
    rw [← h.1]
    simp
  | cons c cs ih =>
    intro envs s t l l1 hext hlen h
    cases envs with
    | nil => simp at hlen
    | cons e es =>
      obtain ⟨name, hname, hst⟩ :=
        interpret_stage_external pipe n s l c e (hext c (List.mem_cons_self _ _))
      unfold interpret_stages at h
      simp only [List.headD_cons, List.tail_cons, bind, Except.bind, hst] at h
      cases hsp : spawn_stage pipe n s l c name e with
      | error err => simp [hsp, Except.map] at h
      | ok r =>
        obtain ⟨s1, l2⟩ := r
        simp only [hsp, Except.map] at h
        have h1 := spawn_stage_spawns hsp
        have h2 := ih es s1 t _ l1 (fun c hc => hext c (List.mem_cons_of_mem _ hc))
          (by simpa using hlen) h
        rw [h2, h1]
        simp [hname]

/-- C20 (amended): a pipeline of external commands is run in a well-formed registry whose
smallest free job id is `i`; the environment's answers are `pre`, then `f` for a stage
whose spawn fails, then `post`. The stage loop goes through every stage all the same: one
call of `posix_spawnp` is recorded per stage, in stage order, with the stage's program and
return code; the job's members are the children of the stages that spawned, those before
and those after the failing one, in stage order, and as many are counted as live. When the
failing stage is the last one,
the pipeline body returns and the output is the acknowledgements of the spawned stages
followed by the line `no such file or directory`. -/
theorem stages_after_failed_spawn (s : State) (pipe : ast_pipeline) (i : Nat)
    (env : pipeline_env) (pre post : List stage_env) (f : stage_env)
    (hc : Consistent s) (hfresh : s.heap s.brk = none)
    (h1 : 1 ≤ i) (h2 : i < MAXJOBS) (hfree : s.jid2job i = none)
    (hmin : ∀ m, 1 ≤ m → m < i → s.jid2job m ≠ none)
    (hext : ∀ c ∈ pipe.commands, c.external = true)
    (hlen : env.stages.length = pipe.commands.length)
    (hmax : pipe.commands.length ≤ MAXJOBS)
    (hsplit : env.stages = pre ++ f :: post) (hf : f.spawn_ret ≠ 0)
    (hnz : ∀ e ∈ env.stages, e.spawn_ret = 0 → e.childPID ≠ 0) :
    (∃ t l j,
      interpret_stages pipe pipe.commands.length s (locals.start pipe.commands.length)
        pipe.commands env.stages = .ok (t, l) ∧
      t.spawns.map spawn_call.outcome = s.spawns.map spawn_call.outcome ++
        (pipe.commands.zip env.stages).map (fun ce => (ce.1.argv.headD "", ce.2.spawn_ret)) ∧
      l.job = some s.brk ∧ t.heap s.brk = some j ∧
      j.pids = spawned_pids pre ++ spawned_pids post ∧
      j.num_processes_alive = ((j.pids.length : Nat) : Int)) ∧
    (post = [] →
      ∃ t, interpret_pipeline s pipe env = .ok t ∧
        t.out = s.out ++ acknowledged pipe i pre ++ [.text "no such file or directory\n"]) := by
  have hne : pipe.commands ≠ [] := by
    intro h0
    rw [h0, hsplit] at hlen
    simp at hlen
  obtain ⟨t, l, hrun, hlog, hjob, _, hret⟩ :=
    external_stages pipe pipe.commands.length s i pipe.commands env.stages
      (locals.start pipe.commands.length) hne hext hlen (scan_of_least s i h1 h2 hfree hmin) rfl
      (spawned_pids_nonzero env.stages hnz)
      (le_trans (spawned_pids_length_le env.stages) (hlen ▸ hmax))
  have hpids : spawned_pids env.stages = spawned_pids pre ++ spawned_pids post := by
    have : pre ++ f :: post = pre ++ ([f] ++ post) := rfl
    rw [hsplit, this, spawned_pids_append, spawned_pids_append, spawned_pids_failed f hf,
      List.nil_append]
  have hl : l.returnCode = (post.getLast?.map fun e => e.spawn_ret).getD f.spawn_ret := by
    rw [hret, hsplit, List.getLast?_append_cons, last_ret_cons]
  have hp : t.heap s.brk = some (launched pipe i s.tty_attrs env.stages) := by
    obtain ⟨sp, fd, pg, rfl⟩ := hlog
    simp [State.with_job]
  refine ⟨⟨t, l, _, hrun, interpret_stages_spawns pipe _ _ _ _ _ _ _ hext hlen hrun, hjob, hp,
    by simp only [launched, hpids], by simp only [launched]⟩, ?_⟩
  intro hpost
  subst hpost
  have hl0 : l.returnCode ≠ 0 := by
    rw [hl]
    exact hf
  have hack : acknowledged pipe (i : Int) env.stages = acknowledged pipe i pre := by
    rw [hsplit]
    exact acknowledged_failed pipe i pre f hf
  rw [hack] at hlog
  obtain ⟨u, hfin, hout⟩ :=
    finish_after_failure s i (launched pipe i s.tty_attrs env.stages) _ _ l env.reaps hc hfresh
      h1 h2 hfree (hlog.sameRegistry.next (close_pipes_same pipe.commands.length t l)) rfl hl0
      hjob
  refine ⟨u, ?_, hout⟩
  unfold interpret_pipeline
  simp only [bind, Except.bind, hrun]
  exact hfin

/-- The foreground pipeline `nosuch | sleep 5` with the stopped job 1 registered: the spawn
of `nosuch` fails, `sleep` is spawned as child 102 and is the one member of job 2. -/
theorem stages_after_failed_spawn_witness :
    ∃ t l j,
      interpret_stages (simple_pipeline [["nosuch"], ["sleep", "5"]] false) 2
        (single_job .STOPPED) (locals.start 2)
        (simple_pipeline [["nosuch"], ["sleep", "5"]] false).commands
        [spawn_fails, spawn_ok 102] = .ok (t, l) ∧
      t.spawns.map spawn_call.outcome = [("nosuch", 2), ("sleep", 0)] ∧
      t.heap 1 = some j ∧ j.pids = [102] ∧ j.num_processes_alive = 1 :=
  let ⟨t, l, j, e, hs, _, hj, hp, ha⟩ :=
    (stages_after_failed_spawn (single_job .STOPPED)
      (simple_pipeline [["nosuch"], ["sleep", "5"]] false) 2
      { stages := [spawn_fails, spawn_ok 102], reaps := [] } [] [spawn_ok 102] spawn_fails
      (consistent_single_job .STOPPED) (by simp [single_job, State.init])
      (by decide) (by decide) (by simp [single_job, State.init])
      (fun m a b => by
        have hm : m = 1 := by omega
        subst hm
        simp [single_job, State.init])
      (by decide) rfl (by decide) rfl (by decide) (by decide)).1
  ⟨t, l, j, e, hs, hj, hp, by rw [ha, hp]; rfl⟩

/-! ## Theorems: the jobs listing -/

theorem join_foldl (l : List String) : ∀ acc : String,
    l.foldl (fun r s => r ++ s) acc = acc ++ String.join l := by
  induction l with
  | nil => intro acc; simp [String.join]
  | cons a r ih =>
    intro acc
    simp only [List.foldl_cons, String.join]
    rw [ih (acc ++ a), ih ("" ++ a)]
    simp [String.append_assoc]

theorem join_cons (a : String) (l : List String) : String.join (a :: l) = a ++ String.join l := by
  have h : String.join (a :: l) = l.foldl (fun r s => r ++ s) ("" ++ a) := rfl
  rw [h, join_foldl l ("" ++ a), String.empty_append]

theorem join_append (l1 l2 : List String) :
    String.join (l1 ++ l2) = String.join l1 ++ String.join l2 := by
  induction l1 with
  | nil => simp [String.join]
  | cons a r ih => simp only [List.cons_append, join_cons, ih, String.append_assoc]

theorem intercalate_go (sep : String) (l : List String) : ∀ acc : String,
    String.intercalate.go acc sep l = acc ++ String.join (l.map fun x => sep ++ x) := by
  induction l with
  | nil => intro acc; simp [String.intercalate.go, String.join]
  | cons a r ih =>
    intro acc
    simp only [String.intercalate.go, List.map_cons, join_cons, ih, String.append_assoc]

theorem join_argv_parts (argv : List String) :
    String.join (argv_parts argv) = String.intercalate " " argv := by
  cases argv with
  | nil => rfl
  | cons a rest =>
    simp only [argv_parts, join_cons, String.intercalate, intercalate_go]

theorem join_cmdline_rest (cmds : List ast_command) :
    String.join (cmdline_parts false cmds) =
      String.join (cmds.map fun c => "| " ++ String.intercalate " " c.argv) := by
  induction cmds with
  | nil => rfl
  | cons c cs ih =>
    simp only [cmdline_parts, Bool.false_eq_true, if_false, join_append, join_cons, ih,
      join_argv_parts, List.map_cons, String.append_assoc]
    simp [String.join]

theorem join_cmdline_parts (pipe : ast_pipeline) :
    String.join (cmdline_parts true pipe.commands) = command_line pipe := by
  unfold command_line
  cases pipe.commands with
  | nil => rfl
  | cons c cs =>
    simp only [cmdline_parts, if_true, List.nil_append, join_append, join_argv_parts,
      join_cmdline_rest, List.map_cons, String.intercalate, intercalate_go, List.map_map]
    rfl

theorem get_status_word (st : job_status) : get_status st = status_word st := by
  cases st <;> rfl

theorem join_job_parts (j : job) : String.join (job_parts j) = status_line j := by
  have h : (")" : String) ++ "\n" = ")\n" := by decide
  simp only [job_parts, status_line, join_cons, join_append, join_cmdline_parts,
    get_status_word, String.append_assoc, h]
  simp [String.join]

theorem printed_nil (s : State) : printed s [] = s := by
  simp [printed]

theorem printed_printed (s : State) (a b : List String) :
    printed (printed s a) b = printed s (a ++ b) := by
  simp [printed]

theorem printf_printed (s : State) (x : String) : printf s x = printed s [x] := rfl

theorem print_argv_rest (rest : List String) : ∀ s : State,
    rest.foldl (fun t x => printf t (" " ++ x)) s = printed s (rest.map fun x => " " ++ x) := by
  induction rest with
  | nil => intro s; exact (printed_nil s).symm
  | cons a r ih =>
    intro s
    rw [List.foldl_cons, ih, printf_printed, printed_printed]
    rfl

theorem print_argv_exact (s : State) (argv : List String) (h : argv.isEmpty = false) :
    print_argv s argv = .ok (printed s (argv_parts argv)) := by
  cases argv with
  | nil => simp at h
  | cons a r =>
    simp only [print_argv]
    rw [print_argv_rest, printf_printed, printed_printed]
    rfl

theorem print_cmdline_loop_exact (cmds : List ast_command) :
    ∀ (s : State) (first : Bool), (cmds.all fun c => !c.argv.isEmpty) = true →
      print_cmdline_loop s first cmds = .ok (printed s (cmdline_parts first cmds)) := by
  induction cmds with
  | nil => intro s first _; simp [print_cmdline_loop, cmdline_parts, printed_nil]
  | cons c r ih =>
    intro s first h
    simp only [List.all_cons, Bool.and_eq_true, Bool.not_eq_true'] at h
    simp only [print_cmdline_loop, bind, Except.bind, print_argv_exact _ _ h.1, ih _ false h.2]
    cases first
    · simp only [Bool.false_eq_true, if_false, printf_printed, printed_printed, cmdline_parts,
        List.append_assoc]
    · simp only [if_true, printed_printed, cmdline_parts, List.nil_append]

theorem print_job_exact (s : State) (p : JobPtr) (j : job) (hp : s.heap p = some j)
    (h : j.pipe.has_names = true) : print_job s p = .ok (printed s (job_parts j)) := by
  simp only [print_job, bind, Except.bind, deref_of_heap hp, print_cmdline,
    print_cmdline_loop_exact _ _ _ h, pure, Except.pure, printf_printed, printed_printed,
    job_parts, List.singleton_append, List.cons_append, List.nil_append]

theorem slot_jobs_perm (s : State) (hc : Consistent s) : (slot_jobs s).Perm s.job_list := by
  have hnd : (slot_jobs s).Nodup := by
    unfold slot_jobs
    refine List.Nodup.filterMap ?_ (List.nodup_range _)
    intro a a1 b ha ha1
    obtain ⟨_, j, hj, hjid⟩ := hc.slots a b ha
    obtain ⟨_, j1, hj1, hjid1⟩ := hc.slots a1 b ha1
    rw [hj] at hj1
    cases hj1
    exact Int.ofNat_inj.mp (hjid.symm.trans hjid1)
  refine (List.perm_ext_iff_of_nodup hnd hc.nodup).2 ?_
  intro p
  unfold slot_jobs
  rw [List.mem_filterMap]
  constructor
  · rintro ⟨k, _, hk⟩
    exact (hc.slots k p hk).1
  · intro hp
    obtain ⟨j, _, a1, a2, a3⟩ := hc.listed p hp
    refine ⟨j.jid.toNat, ?_, a3⟩
    rw [List.mem_range]
    omega

theorem cush_jobs_loop_exact (s : State)
    (hrec : ∀ i p, s.jid2job i = some p → ∃ j, s.heap p = some j ∧ j.pipe.has_names = true) :
    ∀ (fuel i cnt : Nat) (acc : List String), MAXJOBS ≤ fuel + i →
      cnt + ((List.range' i (MAXJOBS - i)).filterMap s.jid2job).length = s.job_list.length →
      cush_jobs_loop fuel (printed s acc) cnt i =
        .ok (printed s (acc ++
          ((List.range' i (MAXJOBS - i)).filterMap s.jid2job).flatMap (parts_at s))) := by
  intro fuel
  induction fuel with
  | zero =>
    intro i cnt acc hf _
    have h0 : MAXJOBS - i = 0 := by omega
    simp [cush_jobs_loop, h0]
  | succ n ih =>
    intro i cnt acc hf hk
    unfold cush_jobs_loop
    have hls : list_size (printed s acc) = s.job_list.length := rfl
    by_cases hcond : cnt < list_size (printed s acc) ∧ i < MAXJOBS
    · rw [if_pos hcond]
      have hsplit : MAXJOBS - i = (MAXJOBS - (i + 1)) + 1 := by omega
      rw [hsplit, List.range'_succ] at hk ⊢
      have hslot : (printed s acc).jid2job i = s.jid2job i := rfl
      rw [hslot]
      cases hs : s.jid2job i with
      | none =>
        rw [List.filterMap_cons_none hs] at hk ⊢
        exact ih (i + 1) cnt acc (by omega) hk
      | some a =>
        obtain ⟨j, hj, hn⟩ := hrec i a hs
        rw [List.filterMap_cons_some hs] at hk ⊢
        rw [List.length_cons] at hk
        have hpa : (printed s acc).heap a = some j := hj
        simp only [bind, Except.bind, print_job_exact _ a j hpa hn, printed_printed]
        rw [ih (i + 1) (cnt + 1) (acc ++ job_parts j) (by omega) (by omega)]
        simp [parts_at, hj]
    · rw [if_neg hcond]
      have hnil : (List.range' i (MAXJOBS - i)).filterMap s.jid2job = [] := by
        by_cases hi : i < MAXJOBS
        · have hc1 : ¬ cnt < s.job_list.length := fun h => hcond ⟨hls ▸ h, hi⟩
          exact List.length_eq_zero.mp (by omega)
        · have h0 : MAXJOBS - i = 0 := by omega
          simp [h0]
      simp [hnil]

theorem cush_jobs_exact (s : State) (hc : Consistent s) (hn : s.listed_ok) :
    cush_jobs s = .ok (printed s ((slot_jobs s).flatMap (parts_at s))) := by
  have hrec : ∀ i p, s.jid2job i = some p → ∃ j, s.heap p = some j ∧ j.pipe.has_names = true :=
    fun i p h => hn p (hc.slots i p h).1
  have h := cush_jobs_loop_exact s hrec MAXJOBS 0 0 [] (by omega)
    (by
      have := (slot_jobs_perm s hc).length_eq
      simp only [slot_jobs, List.range_eq_range'] at this
      simpa using this)
  rw [printed_nil] at h
  unfold cush_jobs
  rw [h]
  simp [slot_jobs, List.range_eq_range']

/-! ## Theorems: reachable registries are well formed -/

theorem retouches_killpg (s : State) (g : Pid) (sig ret : Int) :
    Retouches s (killpg s g sig ret) :=
  ⟨rfl, rfl, rfl, fun _ j h => ⟨j, h, rfl, rfl⟩, fun _ h => h⟩

theorem retouches_store {s : State} {p : JobPtr} {j j1 : job} (h : s.heap p = some j)
    (h1 : j1.jid = j.jid) (h2 : j1.pipe = j.pipe) : Retouches s (store s p j1) :=
  (updatesOnly_store s p j1).toRetouches h h1 h2

theorem retouches_cush_bg {s t : State} {arg : Option String} {ret : Int}
    (h : cush_bg s arg ret = .ok t) : Retouches s t := by
  cases arg with
  | none =>
    simp only [cush_bg, Except.ok.injEq] at h; subst h; exact (onlyPrints_printf s _).inPlace
  | some a =>
    cases hg : get_job_from_jid s (atoi a) with
    | none =>
      simp only [cush_bg, hg, Except.ok.injEq] at h; subst h
      exact (onlyPrints_printf s _).inPlace
    | some p =>
      simp only [cush_bg, hg, bind, Except.bind, pure, Except.pure] at h
      cases hd : deref s p with
      | error e => simp [hd] at h
      | ok j =>
        simp only [hd] at h
        cases hc : print_cmdline s j.pipe with
        | error e => simp [hc] at h
        | ok s1 =>
          simp only [hc] at h
          have k1 : Retouches s (killpg (printf s1 "\n") (pid_at j 0) SIGCONT ret) :=
            ((print_cmdline_prints hc).inPlace.chain (onlyPrints_printf s1 _).inPlace).chain
              (retouches_killpg _ _ _ _)
          by_cases hr : ret = 0
          · simp only [hr, if_true] at h
            subst hr
            cases hd2 : deref (killpg (printf s1 "\n") (pid_at j 0) SIGCONT 0) p with
            | error e => simp [hd2] at h
            | ok j2 =>
              simp only [hd2, Except.ok.injEq] at h
              subst h
              exact k1.chain (retouches_store (deref_ok.1 hd2) rfl rfl)
          · simp only [hr, if_false, Except.ok.injEq] at h
            subst h
            exact k1

theorem retouches_cush_stop {s t : State} {arg : Option String} {ret : Int}
    (h : cush_stop s arg ret = .ok t) : Retouches s t := by
  cases arg with
  | none =>
    simp only [cush_stop, Except.ok.injEq] at h; subst h; exact (onlyPrints_printf s _).inPlace
  | some a =>
    cases hg : get_job_from_jid s (atoi a) with
    | none =>
      simp only [cush_stop, hg, Except.ok.injEq] at h; subst h
      exact (onlyPrints_printf s _).inPlace
    | some p =>
      simp only [cush_stop, hg, bind, Except.bind, pure, Except.pure] at h
      cases hd : deref s p with
      | error e => simp [hd] at h
      | ok j =>
        simp only [hd] at h
        have k1 : Retouches s (killpg s (pid_at j 0) SIGSTOP ret) := retouches_killpg _ _ _ _
        by_cases hr : ret = 0
        · simp only [hr, if_true] at h
          subst hr
          have hd1 : deref (killpg s (pid_at j 0) SIGSTOP 0) p = .ok j := hd
          by_cases hF : j.status = .FOREGROUND
          · simp only [hF, if_true, termstate_save, bind, Except.bind, pure, Except.pure, hd1,
              deref_of_heap (store_heap_self _ _ _), store_store, Except.ok.injEq] at h
            subst h
            exact k1.chain (retouches_store (deref_ok.1 hd1) rfl rfl)
          · simp only [hF, if_false, hd1, Except.ok.injEq] at h
            subst h
            exact k1.chain (retouches_store (deref_ok.1 hd1) rfl rfl)
        · simp only [hr, if_false, Except.ok.injEq] at h
          subst h
          exact k1

theorem retouches_cush_fg_resume {s t : State} {p : JobPtr} {ret : Int} {b : Bool}
    (h : cush_fg_resume s p ret = .ok (t, b)) : Retouches s t := by
  unfold cush_fg_resume at h
  simp only [bind, Except.bind, pure, Except.pure] at h
  cases hd : deref s p with
  | error e => simp [hd] at h
  | ok j =>
    simp only [hd] at h
    have k0 : Retouches s
        { { s with tty_attrs := j.saved_tty_state } with tty_pgrp := pid_at j 0 } :=
      ⟨rfl, rfl, rfl, fun _ j1 h => ⟨j1, h, rfl, rfl⟩, fun _ h => h⟩
    cases hc : print_cmdline { { s with tty_attrs := j.saved_tty_state } with
        tty_pgrp := pid_at j 0 } j.pipe with
    | error e => simp [hc] at h
    | ok s3 =>
      simp only [hc] at h
      have k1 : Retouches s (killpg (printf s3 "\n") (pid_at j 0) SIGCONT ret) :=
        ((k0.chain (print_cmdline_prints hc).inPlace).chain
          (onlyPrints_printf s3 _).inPlace).chain (retouches_killpg _ _ _ _)
      by_cases hr : ret = 0
      · simp only [hr, if_true] at h
        subst hr
        cases hd2 : deref (killpg (printf s3 "\n") (pid_at j 0) SIGCONT 0) p with
        | error e => simp [hd2] at h
        | ok j2 =>
          simp only [hd2, Except.ok.injEq, Prod.mk.injEq] at h
          rw [← h.1]
          have k2 := k1.chain (@retouches_store _ p j2 { j2 with status := .FOREGROUND }
            (deref_ok.1 hd2) rfl rfl)
          exact ⟨k2.brk, k2.job_list, k2.jid2job, k2.kept, k2.free⟩
      · simp only [hr, if_false, Except.ok.injEq, Prod.mk.injEq] at h
        rw [← h.1]
        exact k1

theorem consistent_add_job {s t : State} {pipe : ast_pipeline} {p : JobPtr}
    (hc : Consistent s) (hb : ∀ q j, s.heap q = some j → q < s.brk)
    (h : add_job s pipe = .ok (t, p)) : Consistent t := by
  obtain ⟨i, _, h1, h2, hfree, hheap, _, hlist, hslots⟩ := add_job_inv h
  have hfresh : s.heap s.brk = none := by
    cases hh : s.heap s.brk with
    | none => rfl
    | some j => exact absurd (hb _ _ hh) (lt_irrefl _)
  have hnl : s.brk ∉ s.job_list := by
    intro hq
    obtain ⟨j, hj, _⟩ := hc.listed _ hq
    rw [hfresh] at hj
    cases hj
  refine ⟨?_, ?_, ?_⟩
  · rw [hlist]
    exact List.Nodup.append hc.nodup (List.nodup_singleton _) (by simpa using hnl)
  · intro q hq
    rw [hlist, List.mem_append, List.mem_singleton] at hq
    rw [hheap, hslots]
    rcases hq with hq | hq
    · obtain ⟨j, hj, a1, a2, a3⟩ := hc.listed q hq
      have hqb : q ≠ s.brk := fun e => hnl (e ▸ hq)
      have hk : j.jid.toNat ≠ i := by
        intro e
        rw [e, hfree] at a3
        cases a3
      exact ⟨j, by simp [hqb, hj], a1, a2, by simp [hk, a3]⟩
    · subst hq
      refine ⟨{ fresh_job pipe with jid := (i : Int) }, by simp, ?_, ?_, by simp⟩
      · show (1 : Int) ≤ (i : Int)
        omega
      · show (i : Int) < (MAXJOBS : Int)
        omega
  · intro k q hk
    rw [hslots] at hk
    rw [hheap, hlist]
    by_cases hki : k = i
    · simp only [hki, if_true, Option.some.injEq] at hk
      subst hk
      exact ⟨by simp, { fresh_job pipe with jid := (i : Int) }, by simp, by simp [hki]⟩
    · simp only [if_neg hki] at hk
      obtain ⟨hl, j, hj, hjid⟩ := hc.slots k q hk
      have hqb : q ≠ s.brk := fun e => hnl (e ▸ hl)
      exact ⟨List.mem_append_left _ hl, j, by simp [hqb, hj], hjid⟩

theorem consistent_remove_delete {s t : State} {p : JobPtr} (hc : Consistent s)
    (h : (list_remove s p >>= fun u => delete_job u p) = .ok t) : Consistent t := by
  have hl : p ∈ s.job_list := by
    cases hu : list_remove s p with
    | error e => simp [hu, bind, Except.bind] at h
    | ok u => exact (list_remove_inv hu).1
  obtain ⟨j, hj, a1, a2, a3⟩ := hc.listed p hl
  rw [delete_registered hj a1 a2 a3 hl] at h
  cases h
  exact consistent_drop hc hj a3

theorem consistent_cush_kill {s t : State} {arg : Option String} {ret : Int}
    (hc : Consistent s) (h : cush_kill s arg ret = .ok t) : Consistent t := by
  cases arg with
  | none =>
    simp only [cush_kill, Except.ok.injEq] at h; subst h
    exact consistent_of_retouches hc (onlyPrints_printf s _).inPlace
  | some a =>
    cases hg : get_job_from_jid s (atoi a) with
    | none =>
      simp only [cush_kill, hg, Except.ok.injEq] at h; subst h
      exact consistent_of_retouches hc (onlyPrints_printf s _).inPlace
    | some p =>
      simp only [cush_kill, hg, bind, Except.bind, pure, Except.pure] at h
      cases hd : deref s p with
      | error e => simp [hd] at h
      | ok j =>
        simp only [hd] at h
        have k1 : Consistent (killpg s (pid_at j 0) SIGTERM ret) :=
          consistent_of_retouches hc (retouches_killpg _ _ _ _)
        by_cases hr : ret = 0
        · subst hr
          simp only [if_true] at h
          exact consistent_remove_delete k1 (by
            simp only [bind, Except.bind]
            exact h)
        · simp only [hr, if_false, Except.ok.injEq] at h
          subst h
          exact k1

theorem register_child_retouches {s t : State} {p : JobPtr} {bg : Bool} {pid : Pid}
    (h : register_child s p bg pid = .ok t) : Retouches s t := by
  obtain ⟨j, j1, hj, _, _, _, hpipe, hjid, hheap, hbrk, hlist, hslots⟩ := register_child_inv h
  refine ⟨hbrk, hlist, hslots, ?_, ?_⟩
  · intro q jq hq
    rw [hheap]
    by_cases hqp : q = p
    · subst hqp
      rw [hj] at hq
      cases hq
      exact ⟨j1, by simp, hjid, hpipe⟩
    · exact ⟨jq, by simp [hqp, hq], rfl, rfl⟩
  · intro q hq
    rw [hheap]
    by_cases hqp : q = p
    · subst hqp
      rw [hj] at hq
      cases hq
    · simp [hqp, hq]

/-- Every registry a run reaches is well formed. -/
theorem reachable_consistent : ∀ w, Reachable w → Consistent w.st := by
  intro w hw
  induction hw with
  | init attrs pgrp =>
    exact ⟨List.nodup_nil, fun p hp => by simp [State.init] at hp,
      fun i p h => by simp [State.init] at h⟩
  | step w op w1 hw hal hap ih =>
    have hacc := reachable_accounted w hw
    cases op with
    | launch pipe =>
      simp only [Op.apply] at hap
      cases ha : add_job w.st pipe with
      | error e => simp [ha, Except.map] at hap
      | ok r =>
        obtain ⟨t, p⟩ := r
        simp only [ha, Except.map, Except.ok.injEq] at hap
        subst hap
        exact consistent_add_job ih hacc.below ha
    | spawned p bg pid =>
      simp only [Op.apply] at hap
      cases hr : register_child w.st p bg pid with
      | error e => simp [hr, Except.map] at hap
      | ok t =>
        simp only [hr, Except.map, Except.ok.injEq] at hap
        subst hap
        exact consistent_of_retouches ih (register_child_retouches hr)
    | child pid status =>
      simp only [Op.apply] at hap
      cases hr : handle_child_status w.st pid status with
      | error e => simp [hr, Except.map] at hap
      | ok t =>
        simp only [hr, Except.map, Except.ok.injEq] at hap
        subst hap
        exact consistent_of_retouches ih (handle_child_status_retouches hr)
    | bg arg ret =>
      simp only [Op.apply] at hap
      cases hr : cush_bg w.st arg ret with
      | error e => simp [hr, Except.map] at hap
      | ok t =>
        simp only [hr, Except.map, Except.ok.injEq] at hap
        subst hap
        exact consistent_of_retouches ih (retouches_cush_bg hr)
    | stop arg ret =>
      simp only [Op.apply] at hap
      cases hr : cush_stop w.st arg ret with
      | error e => simp [hr, Except.map] at hap
      | ok t =>
        simp only [hr, Except.map, Except.ok.injEq] at hap
        subst hap
        exact consistent_of_retouches ih (retouches_cush_stop hr)
    | kill arg ret =>
      simp only [Op.apply] at hap
      cases hr : cush_kill w.st arg ret with
      | error e => simp [hr, Except.map] at hap
      | ok t =>
        simp only [hr, Except.map, Except.ok.injEq] at hap
        subst hap
        exact consistent_cush_kill ih hr
    | fg_resume p ret =>
      simp only [Op.apply] at hap
      cases hr : cush_fg_resume w.st p ret with
      | error e => simp [hr, Except.map] at hap
      | ok r =>
        obtain ⟨t, b⟩ := r
        simp only [hr, Except.map, Except.ok.injEq] at hap
        subst hap
        exact consistent_of_retouches ih (retouches_cush_fg_resume hr)
    | jobs =>
      simp only [Op.apply] at hap
      cases hr : cush_jobs w.st with
      | error e => simp [hr, Except.map] at hap
      | ok t =>
        simp only [hr, Except.map, Except.ok.injEq] at hap
        subst hap
        exact consistent_of_retouches ih (onlyPrints_cush_jobs_loop _ _ _ _ _ hr).inPlace
    | delete p =>
      simp only [Op.apply] at hap
      cases hr : (list_remove w.st p >>= fun t => delete_job t p) with
      | error e => simp [hr, Except.map] at hap
      | ok t =>
        simp only [hr, Except.map, Except.ok.injEq] at hap
        subst hap
        exact consistent_remove_delete ih hr
    | collect =>
      simp only [Op.apply] at hap
      obtain ⟨t, e, _, hct⟩ := removeFinishedJobs_collects w.st ih
      simp only [e, Except.map, Except.ok.injEq] at hap
      subst hap
      exact hct
    | reclaim =>
      simp only [Op.apply, Except.ok.injEq] at hap
      subst hap
      exact ⟨ih.nodup, ih.listed, ih.slots⟩
    | tty attrs =>
      simp only [Op.apply, Except.ok.injEq] at hap
      subst hap
      exact ⟨ih.nodup, ih.listed, ih.slots⟩
    | print o =>
      simp only [Op.apply, Except.ok.injEq] at hap
      subst hap
      exact ⟨ih.nodup, ih.listed, ih.slots⟩

theorem listed_of_names (s : State) (h : s.names_ok = true) : s.listed_ok := by
  intro p hp
  unfold State.names_ok at h
  rw [List.all_eq_true] at h
  have h1 := h p hp
  cases hh : s.heap p with
  | none => simp [hh] at h1
  | some j =>
    simp only [hh] at h1
    exact ⟨j, rfl, h1⟩

/-- C15: in every registry a run of the shell reaches, with pipelines that have program
names as the parser produces them, `cush_jobs` returns and what it adds to the output is,
for the jobs that the slots of `jid2job` point to in slot order, the strings `print_job`
prints for each of them and nothing else; these jobs are the registered jobs, each of them
once; and for every registered job the strings put together are the status line of the
specification, `[<id>]\t<status-word>\t\t<command line>)` and a newline, with the status
word of the job's status and the argument vectors of the stages joined by single spaces,
in pipeline order. -/
theorem jobs_prints_one_line_per_job (w : World) (hr : Reachable w) (hn : w.st.listed_ok) :
    cush_jobs w.st = .ok (printed w.st ((slot_jobs w.st).flatMap (parts_at w.st))) ∧
    (slot_jobs w.st).Perm w.st.job_list ∧
    ∀ p ∈ w.st.job_list, ∃ j, w.st.heap p = some j ∧
      String.join (parts_at w.st p) = status_line j := by
  have hc := reachable_consistent w hr
  refine ⟨cush_jobs_exact w.st hc hn, slot_jobs_perm w.st hc, ?_⟩
  intro p hp
  obtain ⟨j, hj, _⟩ := hn p hp
  refine ⟨j, hj, ?_⟩
  simp only [parts_at, hj]
  exact join_job_parts j

/-- After `sleep 1 | cat &` and a stopped `vim`, the listing has the line of job 1 and the
line of job 2. -/
theorem jobs_prints_one_line_per_job_witness :
    ∃ w, run boot listing_ops = .ok w ∧
      cush_jobs w.st = .ok (printed w.st ((slot_jobs w.st).flatMap (parts_at w.st))) ∧
      w.st.job_list = [0, 1] ∧
      String.join (parts_at w.st 0) = "[1]\tRunning\t\tsleep 1| cat)\n" ∧
      String.join (parts_at w.st 1) = "[2]\tStopped\t\tvim)\n" :=
  ⟨_, rfl,
    (jobs_prints_one_line_per_job _
      (reachable_run listing_ops boot _ (Reachable.init 7 1000) (by decide) rfl)
      (listed_of_names _ (by decide))).1, rfl, by decide, by decide⟩

/-! ## Theorems: the job the launcher works on -/

/-- C23 (the code departs from the claim): in the pipeline `ls | wc` the first stage is the
builtin `ls`, so no job is created and `job` is still null when the stage loop reaches the
external stage `wc`; that stage is not `list_begin`, so the launcher reads `job->pids[0]`
for the process group, through the null pointer. -/
theorem later_stage_reads_absent_job :
    ∃ s1 l1,
      interpret_stages (simple_pipeline [["ls"], ["wc"]] false) 2 (State.init 7 1000)
        (locals.start 2) ((simple_pipeline [["ls"], ["wc"]] false).commands.take 1)
        [spawn_ok 101, spawn_ok 102] = .ok (s1, l1) ∧
      l1.job = none ∧ l1.cnt = 1 ∧ s1.job_list = [] ∧
      spawn_stage (simple_pipeline [["ls"], ["wc"]] false) 2 s1 l1
        { argv := ["wc"], dup_stderr_to_stdout := false } "wc" (spawn_ok 102)
        = .error .undefined ∧
      interpret_pipeline (State.init 7 1000) (simple_pipeline [["ls"], ["wc"]] false)
        { stages := [spawn_ok 101, spawn_ok 102], reaps := [] } = .error .undefined := by
  refine ⟨_, _, rfl, ?_, ?_, ?_, rfl, rfl⟩ <;> decide

/-! ## Theorems: the file actions of a stage -/

/-- C21 (the code departs from the claim): for the three stages of
`cat < in | sort | wc > out 2>&1` the launcher calls `pipe2` once, for row 0 of
`pipeArray`, and row 1 is never written. The file actions of `cat` are the open of `in`
onto descriptor 0 and the dup of the write end of pipe 0 onto descriptor 1; those of `sort`
are a dup onto descriptor 1 of the value read from the unwritten row 1, which is the write
end of no pipe, and the dup of the read end of pipe 0 onto descriptor 0; those of `wc` are
the open of `out` onto descriptor 1 with create and truncate, a dup onto descriptor 0 of
the value read from the unwritten row 1, which is the read end of no pipe, and last the dup
of descriptor 1 onto descriptor 2. -/
theorem later_pipe_ends_never_written :
    ∃ s l,
      interpret_stages redirected_three 3 (State.init 7 1000) (locals.start 3)
        redirected_three.commands
        [spawn_ok_fds 101 3 4, spawn_ok_fds 102 5 6, spawn_ok_fds 103 7 8] = .ok (s, l) ∧
      s.fd_calls = [.pipe2 0 (some (3, 4))] ∧ l.pipeArray = [some (3, 4), none] ∧
      s.spawns.map (fun c => (c.file, c.actions)) =
        [("cat", [.addopen 0 (some "in") O_RDONLY 511, .adddup2 (some 4) 1]),
         ("sort", [.adddup2 none 1, .adddup2 (some 3) 0]),
         ("wc", [.addopen 1 (some "out") (O_WRONLY ||| O_TRUNC ||| O_CREAT) 511,
                 .adddup2 none 0, .adddup2 (some 1) 2])] := by
  refine ⟨_, _, rfl, ?_, ?_, ?_⟩ <;> decide

/-! ## Theorems: the list and the array of jobs -/

theorem length_filterMap_isSome {α β : Type} (f : α → Option β) (l : List α) :
    (l.filterMap f).length = (l.filter fun a => (f a).isSome).length := by
  induction l with
  | nil => rfl
  | cons a r ih =>
    cases h : f a with
    | none => simp [List.filterMap_cons_none h, List.filter_cons, h, ih]
    | some b => simp [List.filterMap_cons_some h, List.filter_cons, h, ih]

theorem taken_slots_eq (s : State) (hc : Consistent s) : list_size s = taken_slots s := by
  unfold list_size taken_slots
  rw [← length_filterMap_isSome]
  exact (slot_jobs_perm s hc).length_eq.symm

/-- C22: in every state a run of the shell's operations reaches, no job is listed twice
and every listed job is an allocated record; an allocated record is in `job_list` exactly
when `get_job_from_jid` of its `jid` is that record; every slot of `jid2job` that is not
null has an index `i` with `1 <= i < MAXJOBS` and points to a record whose `jid` is `i`;
slot 0 is null; and `list_size` of `job_list` is the number of slots that are not null. -/
theorem registry_describes_same_jobs (w : World) (hr : Reachable w) :
    w.st.job_list.Nodup ∧
    (∀ p ∈ w.st.job_list, ∃ j, w.st.heap p = some j) ∧
    (∀ p j, w.st.heap p = some j →
      (p ∈ w.st.job_list ↔ get_job_from_jid w.st j.jid = some p)) ∧
    (∀ i p, w.st.jid2job i = some p →
      1 ≤ i ∧ i < MAXJOBS ∧ ∃ j, w.st.heap p = some j ∧ j.jid = (i : Int)) ∧
    w.st.jid2job 0 = none ∧
    list_size w.st = taken_slots w.st := by
  have hc := reachable_consistent w hr
  have hslot : ∀ i p, w.st.jid2job i = some p →
      1 ≤ i ∧ i < MAXJOBS ∧ ∃ j, w.st.heap p = some j ∧ j.jid = (i : Int) := by
    intro i p hi
    obtain ⟨hl, j, hj, hjid⟩ := hc.slots i p hi
    obtain ⟨j1, hj1, a1, a2, _⟩ := hc.listed p hl
    rw [hj] at hj1
    cases hj1
    rw [hjid] at a1 a2
    exact ⟨by omega, by omega, j, hj, hjid⟩
  refine ⟨hc.nodup, ?_, ?_, hslot, ?_, taken_slots_eq w.st hc⟩
  · intro p hp
    obtain ⟨j, hj, _⟩ := hc.listed p hp
    exact ⟨j, hj⟩
  · intro p j hj
    constructor
    · intro hp
      obtain ⟨j1, hj1, a1, a2, a3⟩ := hc.listed p hp
      rw [hj] at hj1
      cases hj1
      unfold get_job_from_jid
      rw [if_pos ⟨by omega, a2⟩]
      exact a3
    · intro h
      exact (found_registered hc h).2.2.2.1
  · cases h0 : w.st.jid2job 0 with
    | none => rfl
    | some p =>
      have := (hslot 0 p h0).1
      omega

/-- After `sleep 1 | cat &` and a stopped `vim`: two listed jobs, two slots taken, and the
jobs are found under the ids 1 and 2. -/
theorem registry_describes_same_jobs_witness :
    ∃ w, run boot listing_ops = .ok w ∧
      w.st.job_list = [0, 1] ∧ taken_slots w.st = 2 ∧ w.st.jid2job 0 = none ∧
      get_job_from_jid w.st 1 = some 0 ∧ get_job_from_jid w.st 2 = some 1 :=
  ⟨_, rfl, rfl,
    ((registry_describes_same_jobs _
      (reachable_run listing_ops boot _ (Reachable.init 7 1000) (by decide) rfl)).2.2.2.2.2).symm,
    rfl, rfl, rfl⟩

theorem spawn_stage_job {pipe : ast_pipeline} {n : Nat} {s t : State} {l l1 : locals}
    {cmd : ast_command} {name : String} {env : stage_env}
    (h : spawn_stage pipe n s l cmd name env = .ok (t, l1)) : ∃ p, l1.job = some p := by
  by_cases hcnt : l.cnt = 0
  · cases hadd : add_job s pipe with
    | error e =>
      unfold spawn_stage at h
      simp [hcnt, hadd, bind, Except.bind] at h
    | ok r =>
      obtain ⟨s1, p⟩ := r
      unfold spawn_stage at h
      by_cases hlast : (0 : Nat) + 1 = n <;> by_cases hret : env.spawn_ret = 0
      all_goals
        simp only [hcnt, hlast, hadd, hret, decide_False, decide_True, Bool.false_eq_true,
          if_false, if_true, bind, Except.bind, pure, Except.pure, not_false_eq_true,
          true_and, and_true, not_true_eq_false, false_and, and_false] at h
      all_goals
        first
        | (simp only [Except.ok.injEq, Prod.mk.injEq] at h
           rw [← h.2]
           exact ⟨_, rfl⟩)
        | (split at h
           · simp at h
           · simp only [Except.ok.injEq, Prod.mk.injEq] at h
             rw [← h.2]
             exact ⟨_, rfl⟩)
  · unfold spawn_stage at h
    cases hjob : l.job with
    | none => simp [hcnt, hjob, bind, Except.bind, throw, throwThe, MonadExceptOf.throw] at h
    | some p =>
      cases hd : deref s p with
      | error e => simp [hcnt, hjob, hd, bind, Except.bind] at h
      | ok j =>
        by_cases hlast : l.cnt + 1 = n <;> by_cases hret : env.spawn_ret = 0
        all_goals
          simp only [hcnt, hlast, hjob, hd, hret, decide_False, decide_True, Bool.false_eq_true,
            if_false, if_true, bind, Except.bind, pure, Except.pure, not_false_eq_true,
            true_and, and_true, not_true_eq_false, false_and, and_false] at h
        all_goals
          first
          | (simp only [Except.ok.injEq, Prod.mk.injEq] at h
             rw [← h.2]
             exact ⟨_, rfl⟩)
          | (split at h
             · simp at h
             · simp only [Except.ok.injEq, Prod.mk.injEq] at h
               rw [← h.2]
               exact ⟨_, rfl⟩)

theorem interpret_stage_job {pipe : ast_pipeline} {n : Nat} {s t : State} {l l1 : locals}
    {cmd : ast_command} {env : stage_env}
    (h : interpret_stage pipe n s l cmd env = .ok (t, l1)) :
    (l1.job = l.job ∧ l1.returnCode = l.returnCode) ∨ ∃ p, l1.job = some p := by
  unfold interpret_stage at h
  cases hargv : cmd.argv with
  | nil => simp [hargv, throw, throwThe, MonadExceptOf.throw] at h
  | cons name rest =>
    simp only [hargv, bind, Except.bind, pure, Except.pure] at h
    by_cases h1 : name = "exit"
    · rw [if_pos h1] at h
      cases h
    by_cases h2 : name = "bg"
    · rw [if_neg h1, if_pos h2] at h
      split at h
      · simp at h
      · simp only [Except.ok.injEq, Prod.mk.injEq] at h
        rw [← h.2]
        exact Or.inl ⟨rfl, rfl⟩
    by_cases h3 : name = "ls"
    · rw [if_neg h1, if_neg h2, if_pos h3] at h
      simp only [Except.ok.injEq, Prod.mk.injEq] at h
      rw [← h.2]
      exact Or.inl ⟨rfl, rfl⟩
    by_cases h4 : name = "pwd"
    · rw [if_neg h1, if_neg h2, if_neg h3, if_pos h4] at h
      simp only [Except.ok.injEq, Prod.mk.injEq] at h
      rw [← h.2]
      exact Or.inl ⟨rfl, rfl⟩
    by_cases h5 : name = "history"
    · rw [if_neg h1, if_neg h2, if_neg h3, if_neg h4, if_pos h5] at h
      simp only [Except.ok.injEq, Prod.mk.injEq] at h
      rw [← h.2]
      exact Or.inl ⟨rfl, rfl⟩
    by_cases h6 : name = "fg"
    · rw [if_neg h1, if_neg h2, if_neg h3, if_neg h4, if_neg h5, if_pos h6] at h
      split at h
      · simp at h
      · simp only [Except.ok.injEq, Prod.mk.injEq] at h
        rw [← h.2]
        exact Or.inl ⟨rfl, rfl⟩
    by_cases h7 : name = "kill"
    · rw [if_neg h1, if_neg h2, if_neg h3, if_neg h4, if_neg h5, if_neg h6, if_pos h7] at h
      split at h
      · simp at h
      · simp only [Except.ok.injEq, Prod.mk.injEq] at h
        rw [← h.2]
        exact Or.inl ⟨rfl, rfl⟩
    by_cases h8 : name = "stop"
    · rw [if_neg h1, if_neg h2, if_neg h3, if_neg h4, if_neg h5, if_neg h6, if_neg h7, if_pos h8] at h
      split at h
      · simp at h
      · simp only [Except.ok.injEq, Prod.mk.injEq] at h
        rw [← h.2]
        exact Or.inl ⟨rfl, rfl⟩
    by_cases h9 : name = "jobs"
    · rw [if_neg h1, if_neg h2, if_neg h3, if_neg h4, if_neg h5, if_neg h6, if_neg h7, if_neg h8, if_pos h9] at h
      split at h
      · simp at h
      · simp only [Except.ok.injEq, Prod.mk.injEq] at h
        rw [← h.2]
        exact Or.inl ⟨rfl, rfl⟩
    rw [if_neg h1, if_neg h2, if_neg h3, if_neg h4, if_neg h5, if_neg h6, if_neg h7, if_neg h8, if_neg h9] at h
    cases hsp : spawn_stage pipe n s l cmd name env with
    | error e => simp [hsp] at h
    | ok r =>
      obtain ⟨t1, l2⟩ := r
      simp only [hsp, Except.ok.injEq, Prod.mk.injEq] at h
      obtain ⟨p, hp⟩ := spawn_stage_job hsp
      rw [← h.2]
      exact Or.inr ⟨p, hp⟩

/-- When the stage loop of `interpret` returns with a `returnCode` that is not 0, so that
the spawn-failure cleanup runs, the local `job` is not null: a spawn has been made, and no
stage spawns without a job. -/
theorem cleanup_has_job (pipe : ast_pipeline) (n : Nat) :
    ∀ (cmds : List ast_command) (envs : List stage_env) (s t : State) (l l1 : locals),
      (l.returnCode ≠ 0 → ∃ p, l.job = some p) →
      interpret_stages pipe n s l cmds envs = .ok (t, l1) →
      l1.returnCode ≠ 0 → ∃ p, l1.job = some p := by
  intro cmds
  induction cmds with
  | nil =>
    intro envs s t l l1 hl h
    simp only [interpret_stages, Except.ok.injEq, Prod.mk.injEq] at h
    rw [← h.2]
    exact hl
  | cons c cs ih =>
    intro envs s t l l1 hl h
    unfold interpret_stages at h
    simp only [bind, Except.bind] at h
    cases hst : interpret_stage pipe n s l c (envs.headD stage_env.absent) with
    | error e =>
      simp only [hst] at h
      cases h
    | ok r =>
      obtain ⟨s1, l2⟩ := r
      simp only [hst] at h
      refine ih envs.tail s1 t l2 l1 ?_ h
      intro hr
      rcases interpret_stage_job hst with ⟨a1, a2⟩ | ⟨p, hp⟩
      · rw [a1]
        exact hl (a2 ▸ hr)
      · exact ⟨p, hp⟩

end Cush
